import Mathlib

/-!
# http-toast: request-to-notification dispatch

A shallow embedding of `main.go`.  Go strings are modelled as `List Char`
(one `Char` per unit of the Go string; every character the program inspects,
`/`, `\`, `:`, `.`, `{msg}`, is ASCII).  The standard-library functions the
handler relies on (`url.Values.Get`, `strings.ReplaceAll`, `filepath.Join` /
`filepath.Clean` / `filepath.Dir`, `http.Error`, `fmt.Fprintln`,
`json.Unmarshal`, `json.MarshalIndent`) are modelled next to the code that
calls them.  Package `path/filepath` is built per platform: `handle` and
`loadConfig` take the platform as a parameter, and the theorems hold for the
Windows rules, which are those of the program, and for the Unix ones.  The
notification subsystem is a parameter of `handle`; the calls made to it are
recorded in the result.  Calls of package `log` write to standard error only
and are left out.
-/

namespace HttpToast

/-! ## Strings -/

/-- String literal as a Go string. -/
abbrev str (s : String) : List Char := s.toList

/-! ## `net/url`: query values -/

/-- The parsed query `r.URL.Query()`: each key maps to the list of its values
(a key that does not occur maps to the empty list). -/
abbrev Values := List Char → List (List Char)

/-- Go `url.Values.Get`: the first value of the key, or the empty string. -/
def Values.Get (v : Values) (key : List Char) : List Char :=
  match v key with
  | [] => []
  | x :: _ => x

/-- The part of `*http.Request` the handler reads. -/
structure Request where
  query : Values

/-! ## `strings.ReplaceAll` -/

/-- Left-to-right scan of `strings.Replace(s, old, new, -1)` for a non-empty
`old`: where `old` starts, emit `new` and skip `old`; otherwise copy one
character. -/
def replaceScan (old new : List Char) : Nat → List Char → List Char
  | 0, s => s
  | _ + 1, [] => []
  | fuel + 1, c :: s =>
    if old.isPrefixOf (c :: s) then
      new ++ replaceScan old new fuel ((c :: s).drop old.length)
    else
      c :: replaceScan old new fuel s

/-- Go `strings.ReplaceAll(s, old, new)`: all non-overlapping instances of
`old` replaced by `new`; an empty `old` matches at the start and after every
character. -/
def strings.ReplaceAll (s old new : List Char) : List Char :=
  if old = new then s
  else if old = [] then new ++ s.flatMap (fun c => c :: new)
  else replaceScan old new s.length s

/-! ## `path/filepath`

The package is built per platform.  `windows` is the platform the program is
built for (it sends Windows notifications through go-toast); `unix` is the
variant with `/` as the only separator and without volume names, in whose
notation the specification writes its paths. -/

/-- The platform `path/filepath` is built for. -/
inductive GOOS where
  | windows
  | unix
deriving DecidableEq

/-- Go `filepath.Separator`. -/
def Separator : GOOS → Char
  | .windows => '\\'
  | .unix => '/'

/-- Go `os.IsPathSeparator`. -/
def IsPathSeparator : GOOS → Char → Bool
  | .windows, c => c == '\\' || c == '/'
  | .unix, c => c == '/'

/-- Go `filepath.FromSlash`: every `/` becomes the separator. -/
def filepath.FromSlash (goos : GOOS) (path : List Char) : List Char :=
  match goos with
  | .windows => path.map (fun c => if c = '/' then '\\' else c)
  | .unix => path

/-- Go `pathHasPrefixFold` (Windows): `s` begins with `pfx`, ignoring case and
taking all separators as equal; if `s` is longer, a separator follows. -/
def pathHasPrefixFold (s pfx : List Char) : Bool :=
  decide (pfx.length ≤ s.length) &&
    (List.zipWith (fun p c =>
        if IsPathSeparator .windows p then IsPathSeparator .windows c
        else decide (p.toUpper = c.toUpper)) pfx s).all id &&
    (match s.drop pfx.length with
      | [] => true
      | c :: _ => IsPathSeparator .windows c)

/-- The loop of Go `uncLen`: `i` is the index of the head of the input and
`count` the separators seen. -/
def uncLenFrom : List Char → Nat → Nat → Nat
  | [], i, _ => i
  | c :: rest, i, count =>
    if IsPathSeparator .windows c then
      if count + 1 = 2 then i else uncLenFrom rest (i + 1) (count + 1)
    else uncLenFrom rest (i + 1) count

/-- Go `uncLen` (Windows): the length of the volume of a UNC path whose host
starts at `prefixLen`: up to the second separator from there on. -/
def uncLen (path : List Char) (prefixLen : Nat) : Nat :=
  if prefixLen ≤ path.length then uncLenFrom (path.drop prefixLen) prefixLen 0 else path.length

/-- Go `volumeNameLen`: the length of the leading volume name; on Windows a
drive with its colon, a UNC host and share, or a device prefix. -/
def volumeNameLen (goos : GOOS) (path : List Char) : Nat :=
  match goos with
  | .unix => 0
  | .windows =>
    if 2 ≤ path.length ∧ (path.drop 1).head? = some ':' then
      -- path starts with a drive letter
      2
    else if path.length = 0 ∨ (path.head?.map (IsPathSeparator .windows)) ≠ some true then
      -- path does not have a volume component
      0
    else if pathHasPrefixFold path (str "\\\\.\\UNC") then
      uncLen path 8
    else if pathHasPrefixFold path (str "\\\\.") ∨ pathHasPrefixFold path (str "\\\\?") ∨
        pathHasPrefixFold path (str "\\??") then
      -- a Local Device path or a Root Local Device path
      if path.length = 3 then 3
      else
        let after := path.drop 4
        let rest := (after.dropWhile (fun c => !IsPathSeparator .windows c))
        match rest with
        | [] => path.length
        | _ :: r => path.length - r.length - 1
    else if 2 ≤ path.length ∧ ((path.drop 1).head?.map (IsPathSeparator .windows)) = some true then
      -- path starts with two separators: a UNC path
      uncLen path 2
    else 0

/-- Go `lazybuf` of `Clean`: the path being cleaned, the bytes written so far
(`buf[:w]`, which is `path[:w]` as long as no buffer was allocated) and
whether `buf` is still nil. -/
structure lazybuf where
  path : List Char
  out : List Char
  isNil : Bool
deriving DecidableEq

/-- Go `lazybuf.append`: a byte equal to the one of the path at that place
leaves `buf` nil. -/
def lazybuf.append (b : lazybuf) (c : Char) : lazybuf :=
  { b with
    out := b.out ++ [c]
    isNil := b.isNil && decide ((b.path.drop b.out.length).head? = some c) }

/-- The test `r == n || os.IsPathSeparator(path[r])` on the unread input. -/
def atElemEnd (goos : GOOS) : List Char → Bool
  | [] => true
  | c :: _ => IsPathSeparator goos c

/-- The inner loop of the `..` case of `Clean`, on the reversed buffer:
`last` is `out.index(out.w)` and the list is the buffer below `out.w`. -/
def unwind (goos : GOOS) (dotdot : Nat) : Char → List Char → List Char
  | _, [] => []
  | last, c :: r =>
    if (c :: r).length > dotdot ∧ ¬ IsPathSeparator goos last = true then
      unwind goos dotdot c r
    else c :: r

/-- The `..` case of `Clean` when it can backtrack:
`out.w--; for out.w > dotdot && !os.IsPathSeparator(out.index(out.w)) { out.w-- }`. -/
def backtrack (goos : GOOS) (dotdot : Nat) (out : List Char) : List Char :=
  match out.reverse with
  | [] => []
  | last :: r => (unwind goos dotdot last r).reverse

/-- The main loop of `filepath.Clean`: `rest` is `path[r:]`, `out` the
buffer written so far (`out.w` is the length of `out.out`). -/
def cleanLoop (goos : GOOS) (rooted : Bool) : Nat → List Char → lazybuf → Nat → lazybuf
  | 0, _, out, _ => out
  | _ + 1, [], out, _ => out
  | fuel + 1, c :: rest, out, dotdot =>
    if IsPathSeparator goos c then
      -- empty path element
      cleanLoop goos rooted fuel rest out dotdot
    else if c = '.' ∧ atElemEnd goos rest = true then
      -- . element
      cleanLoop goos rooted fuel rest out dotdot
    else if c = '.' ∧ rest.head? = some '.' ∧ atElemEnd goos rest.tail = true then
      -- .. element: remove to last separator
      if out.out.length > dotdot then
        cleanLoop goos rooted fuel rest.tail { out with out := backtrack goos dotdot out.out } dotdot
      else if rooted = false then
        let out1 := if out.out.length > 0 then out.append (Separator goos) else out
        let out2 := (out1.append '.').append '.'
        cleanLoop goos rooted fuel rest.tail out2 out2.out.length
      else
        cleanLoop goos rooted fuel rest.tail out dotdot
    else
      -- real path element: add slash if needed, copy element
      let out1 :=
        if (rooted = true ∧ out.out.length ≠ 1) ∨ (rooted = false ∧ out.out.length ≠ 0) then
          out.append (Separator goos)
        else out
      cleanLoop goos rooted fuel ((c :: rest).dropWhile (fun d => !IsPathSeparator goos d))
        (((c :: rest).takeWhile (fun d => !IsPathSeparator goos d)).foldl lazybuf.append out1)
        dotdot

/-- Go `postClean`: on Windows, for a path without volume whose buffer was
allocated, `.\` is put before a first element with a colon and `\.` before a
leading `\??`, so that cleaning makes no path absolute; the result is the
text of the buffer. -/
def postClean (goos : GOOS) (volLen : Nat) (out : lazybuf) : List Char :=
  match goos with
  | .unix => out.out
  | .windows =>
    if volLen ≠ 0 ∨ out.isNil = true then out.out
    else if ':' ∈ out.out.takeWhile (fun c => !IsPathSeparator .windows c) then
      ['.', '\\'] ++ out.out
    else
      match out.out with
      | c :: '?' :: '?' :: _ => if IsPathSeparator .windows c then ['\\', '.'] ++ out.out else out.out
      | _ => out.out

/-- Go `filepath.Clean`. -/
def filepath.Clean (goos : GOOS) (originalPath : List Char) : List Char :=
  let volLen := volumeNameLen goos originalPath
  let path := originalPath.drop volLen
  match path with
  | [] =>
    if volLen > 1 ∧ (originalPath.head?.map (IsPathSeparator goos)) = some true ∧
        ((originalPath.drop 1).head?.map (IsPathSeparator goos)) = some true then
      -- should be UNC
      filepath.FromSlash goos originalPath
    else originalPath ++ ['.']
  | c :: _ =>
    let rooted := IsPathSeparator goos c
    let out0 : lazybuf := ⟨path, [], true⟩
    let out :=
      if rooted then cleanLoop goos true path.length path.tail (out0.append (Separator goos)) 1
      else cleanLoop goos false path.length path out0 0
    -- turn empty string into "."
    let out := if out.out.length = 0 then out.append '.' else out
    filepath.FromSlash goos (originalPath.take volLen ++ postClean goos volLen out)

/-- Go `strings.Join(elems, sep)`. -/
def strings.Join (elems : List (List Char)) (sep : List Char) : List Char :=
  sep.intercalate elems

/-- The loop of the Windows `join`: `b` is the text built so far and
`lastChar` its last byte. -/
def joinLoop : List (List Char) → List Char → Char → List Char
  | [], b, _ => b
  | e :: es, b, lastChar =>
    if b.length = 0 then
      -- add the first non-empty path element unchanged
      joinLoop es (b ++ e) (e.getLastD lastChar)
    else if IsPathSeparator .windows lastChar then
      -- the path ends in a slash: strip leading slashes from the next element
      let e := e.dropWhile (IsPathSeparator .windows)
      -- for the path `\` and a next element `??`, add `.\` first
      let b :=
        if b.length = 1 ∧ (str "??").isPrefixOf e ∧
            (e.length = 2 ∨ ((e.drop 2).head?.map (IsPathSeparator .windows)) = some true) then
          b ++ ['.', '\\']
        else b
      joinLoop es (b ++ e) (e.getLastD lastChar)
    else if lastChar = ':' then
      -- the path ends in a colon: no separator is added
      joinLoop es (b ++ e) (e.getLastD lastChar)
    else
      -- in all other cases, add a separator between elements
      joinLoop es (b ++ ['\\'] ++ e) (e.getLastD '\\')

/-- Go `join` of the `unix` build: the elements from the first non-empty one
on, joined by the separator and cleaned; the empty string when all are
empty. -/
def joinUnix : List (List Char) → List Char
  | [] => []
  | e :: es => if e ≠ [] then filepath.Clean .unix (strings.Join (e :: es) ['/']) else joinUnix es

/-- Go `join` of the `windows` build: the elements are put together by
`joinLoop` and the result is cleaned; the empty string when nothing was
written. -/
def joinWindows (elem : List (List Char)) : List Char :=
  let b := joinLoop elem [] (Char.ofNat 0)
  if b.length = 0 then [] else filepath.Clean .windows b

/-- Go `filepath.Join`. -/
def filepath.Join (goos : GOOS) (elem : List (List Char)) : List Char :=
  match goos with
  | .unix => joinUnix elem
  | .windows => joinWindows elem

/-! ## `net/http`: the response writer -/

/-- Go `http.Header`, as an association list from canonical key to value. -/
abbrev Header := List (List Char × List Char)

/-- Go `Header.Del`. -/
def Header.Del (h : Header) (key : List Char) : Header :=
  h.filter (fun kv => kv.1 ≠ key)

/-- Go `Header.Set`: the key's entries are replaced by the single value. -/
def Header.Set (h : Header) (key value : List Char) : Header :=
  (Header.Del h key) ++ [(key, value)]

/-- Go `Header.Get`: the first value of the key, or the empty string. -/
def Header.Get (h : Header) (key : List Char) : List Char :=
  match h.find? (fun kv => kv.1 = key) with
  | some kv => kv.2
  | none => []

/-- State of an `http.ResponseWriter`: the header map the handler edits, the
status line with the header as it stood when the status was written (`none`
until then), and the body written so far. -/
structure ResponseWriter where
  header : Header
  wrote : Option (Nat × Header)
  body : List Char
deriving DecidableEq

/-- A response writer as handed to a handler. -/
def ResponseWriter.fresh : ResponseWriter := ⟨[], none, []⟩

/-- Go `ResponseWriter.WriteHeader`: the first call fixes status and header. -/
def ResponseWriter.WriteHeader (w : ResponseWriter) (code : Nat) : ResponseWriter :=
  match w.wrote with
  | some _ => w
  | none => { w with wrote := some (code, w.header) }

/-- Go `ResponseWriter.Write`: writes status 200 first when none was written. -/
def ResponseWriter.Write (w : ResponseWriter) (data : List Char) : ResponseWriter :=
  let w1 := w.WriteHeader 200
  { w1 with body := w1.body ++ data }

/-- Status code of the response (`none` while nothing was written). -/
def ResponseWriter.status (w : ResponseWriter) : Option Nat := w.wrote.map (fun p => p.1)

/-- Value of a header field in the response as sent. -/
def ResponseWriter.sent (w : ResponseWriter) (key : List Char) : List Char :=
  match w.wrote with
  | some p => Header.Get p.2 key
  | none => []

/-- Go `fmt.Fprintln(w, s)` for one string operand. -/
def fmt.Fprintln (w : ResponseWriter) (s : List Char) : ResponseWriter :=
  w.Write (s ++ ['\n'])

/-- Go `http.Error`. -/
def http.Error (w : ResponseWriter) (error : List Char) (code : Nat) : ResponseWriter :=
  let h := Header.Del w.header (str "Content-Length")
  let h := Header.Set h (str "Content-Type") (str "text/plain; charset=utf-8")
  let h := Header.Set h (str "X-Content-Type-Options") (str "nosniff")
  let w := { w with header := h }
  let w := w.WriteHeader code
  fmt.Fprintln w error

/-! ## `go-toast` -/

/-- Go `toast.Action` (`Type_` is the Go field `Type`). -/
structure toast.Action where
  Type_ : List Char
  Label : List Char
  Arguments : List Char
deriving DecidableEq

/-- Go `toast.Notification`, the fields the handler sets (the others keep
their zero value). -/
structure toast.Notification where
  AppID : List Char
  Title : List Char
  Message : List Char
  Icon : List Char
  Actions : List toast.Action
deriving DecidableEq

/-- The notification subsystem: `notification.Push()` returns `none` for a
nil error and `some e` for an error whose `Error()` text is `e`. -/
abbrev Pusher := toast.Notification → Option (List Char)

/-! ## `main.go` -/

/-- Go `Config` (config.json). -/
structure Config where
  Port : List Char
  AppID : List Char
  Title : List Char
  Sub : List Char
  Btn : List Char
  URL : List Char
  Icon : List Char
deriving DecidableEq

/-- Go `getParamFromRequest`: fetches parameter from web request. -/
def getParamFromRequest (r : Request) (param : List Char) : List Char :=
  let q := r.query.Get param
  if q ≠ [] then q else []

/-- What one call of `handle` leaves behind: the response writer and the
descriptors submitted with `Push`, in order. -/
structure Handled where
  w : ResponseWriter
  pushed : List toast.Notification
deriving DecidableEq

/-- Go `handle`, on the platform `goos`. -/
def handle (goos : GOOS) (push : Pusher) (w : ResponseWriter) (r : Request) (cfg : Config)
    (baseDir : List Char) : Handled :=
  let msg := getParamFromRequest r (str "msg")
  let subParam := getParamFromRequest r (str "sub")
  let icon := getParamFromRequest r (str "icon")
  -- parameter for msg is required
  if msg = [] then
    let h := Header.Set w.header (str "Content-Type") (str "text/plain")
    let w := { w with header := h }
    let w := fmt.Fprintln w (str "OK (no msg)")
    ⟨w, []⟩
  else
    -- parameter for icon
    let iconPath :=
      if icon = [] then filepath.Join goos [baseDir, str "img", cfg.Icon]
      else filepath.Join goos [baseDir, str "img", icon]
    -- default parameter for sub
    let sub := if subParam = [] then cfg.Sub else subParam
    -- replace {msg} in title from config.json
    let title := strings.ReplaceAll cfg.Title (str "{msg}") msg
    -- send the Windows Notification
    let notification : toast.Notification :=
      { AppID := cfg.AppID
        Title := title
        Message := sub
        Icon := iconPath
        Actions := [{ Type_ := str "protocol", Label := cfg.Btn, Arguments := cfg.URL }] }
    match push notification with
    | some err =>
      let w := http.Error w (str "toast error: " ++ err) 500
      ⟨w, [notification]⟩
    | none =>
      let h := Header.Set w.header (str "Content-Type") (str "text/plain; charset=utf-8")
      let w := { w with header := h }
      let w := w.Write (str "OK: " ++ msg ++ str "\n")
      ⟨w, [notification]⟩

/-! ## `encoding/json`: reading -/

/-- JSON white space (`isSpace` of the scanner). -/
def isSpace (c : Char) : Bool := c == ' ' || c == '\t' || c == '\r' || c == '\n'

/-- Input with leading white space removed. -/
def skipSpace (s : List Char) : List Char := s.dropWhile isSpace

/-- Value of a hexadecimal digit. -/
def hexVal (c : Char) : Option Nat :=
  if '0' ≤ c ∧ c ≤ '9' then some (c.toNat - 48)
  else if 'a' ≤ c ∧ c ≤ 'f' then some (c.toNat - 87)
  else if 'A' ≤ c ∧ c ≤ 'F' then some (c.toNat - 55)
  else none

/-- Go `getu4` on the text after `\u`: the value of four hexadecimal digits. -/
def getu4 : List Char → Option (Nat × List Char)
  | a :: b :: c :: d :: s =>
    match hexVal a, hexVal b, hexVal c, hexVal d with
    | some a, some b, some c, some d => some (a * 4096 + b * 256 + c * 16 + d, s)
    | _, _, _, _ => none
  | _ => none

/-- The character of a one-letter escape. -/
def unescape (c : Char) : Option Char :=
  if c = '"' then some '"'
  else if c = '\\' then some '\\'
  else if c = '/' then some '/'
  else if c = 'b' then some (Char.ofNat 8)
  else if c = 'f' then some (Char.ofNat 12)
  else if c = 'n' then some '\n'
  else if c = 'r' then some '\r'
  else if c = 't' then some '\t'
  else none

/-- The Unicode replacement character U+FFFD. -/
def replacementChar : Char := Char.ofNat 0xFFFD

/-- Go `utf16.IsSurrogate`. -/
def isSurrogate (r : Nat) : Bool := 0xD800 ≤ r && r < 0xE000

/-- Go `utf16.DecodeRune`: the code point of a surrogate pair, if it is one. -/
def decodeSurrogates (r1 r2 : Nat) : Option Char :=
  if 0xD800 ≤ r1 ∧ r1 < 0xDC00 ∧ 0xDC00 ≤ r2 ∧ r2 < 0xE000 then
    some (Char.ofNat ((r1 - 0xD800) * 1024 + (r2 - 0xDC00) + 0x10000))
  else none

/-- An escape sequence after its backslash: the character it denotes and the
input after it.  `\u` takes four hexadecimal digits; a surrogate followed by
a second `\u` escape that completes the pair takes both, and a surrogate
without its partner denotes U+FFFD. -/
def scanEscape : List Char → Option (Char × List Char)
  | [] => none
  | e :: s1 =>
    if e = 'u' then
      match getu4 s1 with
      | none => none
      | some (rr, s2) =>
        if isSurrogate rr then
          let pair : Option (Char × List Char) :=
            match s2 with
            | '\\' :: 'u' :: s3 =>
              match getu4 s3 with
              | some (rr1, s4) => (decodeSurrogates rr rr1).map (fun ch => (ch, s4))
              | none => none
            | _ => none
          match pair with
          | some r => some r
          | none => some (replacementChar, s2)
        else some (Char.ofNat rr, s2)
    else (unescape e).map (fun ch => (ch, s1))

/-- A JSON string literal after its opening quote: the text it denotes and
the input after the closing quote; `none` when the literal is malformed. -/
def scanString : Nat → List Char → Option (List Char × List Char)
  | 0, _ => none
  | _ + 1, [] => none
  | fuel + 1, c :: s =>
    if c = '"' then some ([], s)
    else if c = '\\' then
      match scanEscape s with
      | none => none
      | some (ch, s1) => (scanString fuel s1).map (fun p => (ch :: p.1, p.2))
    else if c.toNat < 0x20 then none
    else (scanString fuel s).map (fun p => (c :: p.1, p.2))

/-- One or more decimal digits; the input after them. -/
def scanDigits (s : List Char) : Option (List Char) :=
  match s with
  | [] => none
  | c :: _ => if c.isDigit then some (s.dropWhile Char.isDigit) else none

/-- A JSON number literal; the input after it. -/
def scanNumber (s : List Char) : Option (List Char) :=
  let s := match s with
    | '-' :: t => t
    | _ => s
  let afterInt : Option (List Char) :=
    match s with
    | '0' :: t => some t
    | _ => scanDigits s
  let afterFrac : Option (List Char) :=
    match afterInt with
    | some ('.' :: t) => scanDigits t
    | r => r
  match afterFrac with
  | some (e :: t) =>
    if e = 'e' ∨ e = 'E' then
      match t with
      | sign :: u => if sign = '+' ∨ sign = '-' then scanDigits u else scanDigits t
      | [] => none
    else some (e :: t)
  | r => r

/-- Nesting limit of the scanner. -/
def maxNestingDepth : Nat := 10000

/-- What kind of JSON value stands at a place; a string carries its text. -/
inductive Item where
  | null
  | bool
  | number
  | string (s : List Char)
  | array
  | object
deriving DecidableEq

mutual
/-- One JSON value at the head of the input (`depth` containers are open):
its kind and the input after it; `none` on a syntax error. -/
def scanValue : Nat → Nat → List Char → Option (Item × List Char)
  | 0, _, _ => none
  | _ + 1, _, [] => none
  | fuel + 1, depth, c :: s =>
    if c = '{' then
      if depth + 1 > maxNestingDepth then none
      else
        match skipSpace s with
        | '}' :: t => some (.object, t)
        | t => (scanMembers fuel (depth + 1) t).map (fun r => (.object, r))
    else if c = '[' then
      if depth + 1 > maxNestingDepth then none
      else
        match skipSpace s with
        | ']' :: t => some (.array, t)
        | t => (scanElements fuel (depth + 1) t).map (fun r => (.array, r))
    else if c = '"' then (scanString (c :: s).length s).map (fun p => (.string p.1, p.2))
    else if (c :: s).take 4 = str "true" then some (.bool, (c :: s).drop 4)
    else if (c :: s).take 5 = str "false" then some (.bool, (c :: s).drop 5)
    else if (c :: s).take 4 = str "null" then some (.null, (c :: s).drop 4)
    else (scanNumber (c :: s)).map (fun r => (.number, r))
/-- The elements of an array from the head of one on, up to and including
the closing bracket. -/
def scanElements : Nat → Nat → List Char → Option (List Char)
  | 0, _, _ => none
  | fuel + 1, depth, s =>
    match scanValue fuel depth s with
    | none => none
    | some (_, t) =>
      match skipSpace t with
      | ',' :: u => scanElements fuel depth (skipSpace u)
      | ']' :: u => some u
      | _ => none
/-- The members of an object from the head of a key on, up to and including
the closing brace. -/
def scanMembers : Nat → Nat → List Char → Option (List Char)
  | 0, _, _ => none
  | fuel + 1, depth, s =>
    match s with
    | '"' :: k =>
      match scanString s.length k with
      | none => none
      | some (_, t) =>
        match skipSpace t with
        | ':' :: u =>
          match scanValue fuel depth (skipSpace u) with
          | none => none
          | some (_, v) =>
            match skipSpace v with
            | ',' :: w => scanMembers fuel depth (skipSpace w)
            | '}' :: w => some w
            | _ => none
        | _ => none
    | _ => none
end

/-- The members of the top-level object from the head of a key on: each key
with the kind of its value, and the input after the closing brace. -/
def readMembers : Nat → List Char → Option (List (List Char × Item) × List Char)
  | 0, _ => none
  | fuel + 1, s =>
    match s with
    | '"' :: k =>
      match scanString s.length k with
      | none => none
      | some (key, t) =>
        match skipSpace t with
        | ':' :: u =>
          match scanValue (skipSpace u).length.succ 1 (skipSpace u) with
          | none => none
          | some (item, v) =>
            match skipSpace v with
            | ',' :: w => (readMembers fuel (skipSpace w)).map (fun r => ((key, item) :: r.1, r.2))
            | '}' :: w => some ([(key, item)], w)
            | _ => none
        | _ => none
    | _ => none

/-- A JSON document as the decoder of a struct sees it: an object with its
members in order, or a value of another kind. -/
inductive Doc where
  | object (members : List (List Char × Item))
  | other (kind : Item)
deriving DecidableEq

/-- The whole input as one JSON document; `none` when it is not valid JSON
(the decoder's `checkValid` fails). -/
def readDoc (data : List Char) : Option Doc :=
  let s := skipSpace data
  let r : Option (Doc × List Char) :=
    match s with
    | '{' :: t =>
      match skipSpace t with
      | '}' :: u => some (.object [], u)
      | u => (readMembers u.length.succ u).map (fun r => (.object r.1, r.2))
    | _ => (scanValue s.length.succ 0 s).map (fun r => (.other r.1, r.2))
  match r with
  | some (d, t) => if skipSpace t = [] then some d else none
  | none => none

/-- The fields of `Config`, in declaration order. -/
inductive Field where
  | Port
  | AppID
  | Title
  | Sub
  | Btn
  | URL
  | Icon
deriving DecidableEq

/-- The `json` tag of a field. -/
def Field.name : Field → List Char
  | .Port => str "port"
  | .AppID => str "appid"
  | .Title => str "title"
  | .Sub => str "sub"
  | .Btn => str "btn"
  | .URL => str "url"
  | .Icon => str "icon"

/-- All fields of `Config`, in declaration order. -/
def Field.all : List Field := [.Port, .AppID, .Title, .Sub, .Btn, .URL, .Icon]

/-- Value of a field. -/
def Config.get (cfg : Config) : Field → List Char
  | .Port => cfg.Port
  | .AppID => cfg.AppID
  | .Title => cfg.Title
  | .Sub => cfg.Sub
  | .Btn => cfg.Btn
  | .URL => cfg.URL
  | .Icon => cfg.Icon

/-- Assignment to a field. -/
def Config.set (cfg : Config) (f : Field) (v : List Char) : Config :=
  match f with
  | .Port => { cfg with Port := v }
  | .AppID => { cfg with AppID := v }
  | .Title => { cfg with Title := v }
  | .Sub => { cfg with Sub := v }
  | .Btn => { cfg with Btn := v }
  | .URL => { cfg with URL := v }
  | .Icon => { cfg with Icon := v }

/-- Go `foldRune` of the decoder: ASCII letters go to upper case, and the two
letters outside ASCII that fold onto an ASCII letter, U+017F and U+212A, go
to `S` and `K`; no other character folds onto an ASCII letter. -/
def foldRune (c : Char) : Char :=
  if 'a' ≤ c ∧ c ≤ 'z' then Char.ofNat (c.toNat - 32)
  else if c = Char.ofNat 0x17F then 'S'
  else if c = Char.ofNat 0x212A then 'K'
  else c

/-- Go `foldName`. -/
def foldName (s : List Char) : List Char := s.map foldRune

/-- The field an object key selects: the one of that exact name, else the
first whose name equals the key up to case folding. -/
def findField (key : List Char) : Option Field :=
  match Field.all.find? (fun f => f.name = key) with
  | some f => some f
  | none => Field.all.find? (fun f => foldName f.name = foldName key)

/-- Errors of `json.Unmarshal`. -/
inductive UnmarshalError where
  | SyntaxError
  | UnmarshalTypeError
deriving DecidableEq

/-- Decoding of one member of the top-level object into the struct: a string
is stored in the field its key selects, `null` and members with an unknown
key are passed over, and a value of another kind is a type error (the first
one is kept) after which decoding goes on. -/
def storeMember (st : Config × Option UnmarshalError) (m : List Char × Item) :
    Config × Option UnmarshalError :=
  match findField m.1 with
  | none => st
  | some f =>
    match m.2 with
    | .string s => (st.1.set f s, st.2)
    | .null => st
    | _ => (st.1, if st.2 = none then some .UnmarshalTypeError else st.2)

/-- Go `json.Unmarshal(data, &cfg)`: the struct after the call and the error
returned.  Invalid JSON leaves the struct untouched. -/
def json.Unmarshal (data : List Char) (cfg : Config) : Config × Option UnmarshalError :=
  match readDoc data with
  | none => (cfg, some .SyntaxError)
  | some (.object members) => members.foldl storeMember (cfg, none)
  | some (.other .null) => (cfg, none)
  | some (.other _) => (cfg, some .UnmarshalTypeError)

/-! ## `encoding/json`: writing -/

/-- Lower-case hexadecimal digit. -/
def hexDigit (n : Nat) : Char := (str "0123456789abcdef").getD n '0'

/-- One character inside a JSON string literal, as the encoder writes it
(HTML escaping on). -/
def encodeChar (c : Char) : List Char :=
  if c = '\\' ∨ c = '"' then ['\\', c]
  else if c = Char.ofNat 8 then str "\\b"
  else if c = Char.ofNat 12 then str "\\f"
  else if c = '\n' then str "\\n"
  else if c = '\r' then str "\\r"
  else if c = '\t' then str "\\t"
  else if c.toNat < 0x20 ∨ c = '<' ∨ c = '>' ∨ c = '&' then
    str "\\u00" ++ [hexDigit (c.toNat / 16), hexDigit (c.toNat % 16)]
  else if c.toNat = 0x2028 ∨ c.toNat = 0x2029 then
    str "\\u202" ++ [hexDigit (c.toNat % 16)]
  else [c]

/-- A string as a JSON string literal. -/
def encodeString (s : List Char) : List Char :=
  ['"'] ++ s.flatMap encodeChar ++ ['"']

/-- Go `json.MarshalIndent(cfg, pfx, indent)` for a `Config`: one member per
line, every line starting with `pfx`, members indented once. -/
def json.MarshalIndent (cfg : Config) (pfx indent : List Char) : List Char :=
  let member (f : Field) : List Char :=
    ['\n'] ++ pfx ++ indent ++ encodeString f.name ++ str ": " ++ encodeString (cfg.get f)
  ['{'] ++ [','].intercalate (Field.all.map member) ++ ['\n'] ++ pfx ++ ['}']

/-! ## `main.go`: configuration -/

/-- Go `filepath.VolumeName`. -/
def filepath.VolumeName (goos : GOOS) (path : List Char) : List Char :=
  filepath.FromSlash goos (path.take (volumeNameLen goos path))

/-- Go `filepath.Dir`: the volume name, and after it the rest of the path up
to its last separator, cleaned. -/
def filepath.Dir (goos : GOOS) (path : List Char) : List Char :=
  let vol := filepath.VolumeName goos path
  let tail := path.drop vol.length
  let dir := filepath.Clean goos (tail.reverse.dropWhile (fun c => !IsPathSeparator goos c)).reverse
  if dir = ['.'] ∧ vol.length > 2 then
    -- must be UNC
    vol
  else vol ++ dir

/-- A call `os.WriteFile(name, data, perm)`. -/
structure WriteFile where
  name : List Char
  data : List Char
  perm : Nat
deriving DecidableEq

/-- What one call of `loadConfig` leaves behind: the configuration returned
and the files it asked to be written, in order. -/
structure Loaded where
  cfg : Config
  writes : List WriteFile
deriving DecidableEq

/-- Go `writeDefaultConfig`: creates config.json using fallback values. -/
def writeDefaultConfig (path : List Char) (cfg : Config) : List WriteFile :=
  let b := json.MarshalIndent cfg [] (str "  ")
  [⟨path, b, 0o644⟩]

/-- Go `loadConfig`, on the platform `goos`.  `executable` is the result of `os.Executable()` and
`readFile` that of `os.ReadFile` (`none` for an error). -/
def loadConfig (goos : GOOS) (executable : Except (List Char) (List Char))
    (readFile : List Char → Option (List Char)) : Loaded :=
  -- fallback
  let cfg : Config :=
    { Port := str "8080"
      AppID := str "WebToast"
      Title := str "{msg}"
      Sub := str ""
      Btn := []
      URL := str "https://orthexgroup.com/404"
      Icon := [] }
  -- current path where .exe is running
  match executable with
  | .error _ => ⟨cfg, []⟩
  | .ok exe =>
    -- read config.json file from root folder
    let configPath := filepath.Join goos [filepath.Dir goos exe, str "config.json"]
    match readFile configPath with
    | none => ⟨cfg, writeDefaultConfig configPath cfg⟩
    | some data => ⟨(json.Unmarshal data cfg).1, []⟩

/-- The file system as `os.ReadFile` sees it once the writes have been
carried out. -/
def afterWrites (readFile : List Char → Option (List Char)) :
    List WriteFile → List Char → Option (List Char)
  | [], name => readFile name
  | wr :: ws, name => afterWrites (fun n => if n = wr.name then some wr.data else readFile n) ws name

/-! ## Definitions used in the statements and proofs -/

/-- The text in the buffer of `cleanLoop`, computed without the buffer's
bookkeeping. -/
def cleanOut (goos : GOOS) (rooted : Bool) : Nat → List Char → List Char → Nat → List Char
  | 0, _, out, _ => out
  | _ + 1, [], out, _ => out
  | fuel + 1, c :: rest, out, dotdot =>
    if IsPathSeparator goos c then
      cleanOut goos rooted fuel rest out dotdot
    else if c = '.' ∧ atElemEnd goos rest = true then
      cleanOut goos rooted fuel rest out dotdot
    else if c = '.' ∧ rest.head? = some '.' ∧ atElemEnd goos rest.tail = true then
      if out.length > dotdot then
        cleanOut goos rooted fuel rest.tail (backtrack goos dotdot out) dotdot
      else if rooted = false then
        let out1 := if out.length > 0 then out ++ [Separator goos] else out
        let out2 := out1 ++ ['.', '.']
        cleanOut goos rooted fuel rest.tail out2 out2.length
      else
        cleanOut goos rooted fuel rest.tail out dotdot
    else
      let out1 :=
        if (rooted = true ∧ out.length ≠ 1) ∨ (rooted = false ∧ out.length ≠ 0) then
          out ++ [Separator goos]
        else out
      cleanOut goos rooted fuel ((c :: rest).dropWhile (fun d => !IsPathSeparator goos d))
        (out1 ++ (c :: rest).takeWhile (fun d => !IsPathSeparator goos d)) dotdot

/-- The loop of `Clean` with exactly the fuel its input needs. -/
def cl (goos : GOOS) (rooted : Bool) (rest out : List Char) (dotdot : Nat) : List Char :=
  cleanOut goos rooted rest.length rest out dotdot

/-- What `Clean` writes for a non-empty path without its volume name: the
text left by the loop, or `.` when that is empty. -/
def cleanText (goos : GOOS) (path : List Char) : List Char :=
  match path with
  | [] => []
  | c :: t =>
    let o :=
      if IsPathSeparator goos c then cl goos true t [Separator goos] 1
      else cl goos false (c :: t) [] 0
    if o.length = 0 then ['.'] else o

/-- The path elements of a string: the pieces between separators. -/
def segs (goos : GOOS) : List Char → List (List Char)
  | [] => [[]]
  | c :: s =>
    if IsPathSeparator goos c then [] :: segs goos s
    else
      match segs goos s with
      | [] => [[c]]
      | x :: xs => (c :: x) :: xs

/-- Effect of one path element on the stack of elements kept so far (last
element first): empty and `.` elements are dropped, `..` removes the last
element kept, if any, and any other element is kept. -/
def resolveStep (st : List (List Char)) (seg : List Char) : List (List Char) :=
  if seg = [] ∨ seg = ['.'] then st
  else if seg = ['.', '.'] then st.tail
  else seg :: st

/-- The rooted path made of a stack of elements (last element first). -/
def outOf (goos : GOOS) : List (List Char) → List Char
  | [] => [Separator goos]
  | s :: t => (if t = [] then [Separator goos] else outOf goos t ++ [Separator goos]) ++ s

/-- An element that `Clean` keeps: non-empty and without a separator. -/
def plainElem (goos : GOOS) (s : List Char) : Prop := s ≠ [] ∧ ∀ c ∈ s, IsPathSeparator goos c = false

/-- The placeholder of the title template. -/
def placeholder : List Char := ['{', 'm', 's', 'g', '}']

/-- The scan with exactly the fuel its input needs. -/
def rs (old new s : List Char) : List Char := replaceScan old new s.length s

/-- The elements `Clean` keeps of the text after a root, last element first. -/
def kept (goos : GOOS) (p : List Char) : List (List Char) := (segs goos p).foldl resolveStep []

/-- A path that starts at the root of a volume: on `unix` it starts with `/`;
on `windows` it has a volume name (a drive and its colon, a UNC host and
share, or a device) and a separator follows it. -/
def startsAtRoot (goos : GOOS) (p : List Char) : Bool :=
  match goos, p.drop (volumeNameLen goos p) with
  | .unix, c :: _ => c == '/'
  | .windows, c :: _ => volumeNameLen .windows p != 0 && IsPathSeparator .windows c
  | _, [] => false

/-- The text `Join` hands to `Clean` for a base directory and `img`: on
`windows` no separator is added after a base directory that ends in a
separator or a colon. -/
def joinedImg (goos : GOOS) (baseDir : List Char) : List Char :=
  match goos with
  | .unix => baseDir ++ '/' :: str "img"
  | .windows =>
    baseDir ++
      (if IsPathSeparator .windows (baseDir.getLastD (Char.ofNat 0)) = true ∨
          baseDir.getLastD (Char.ofNat 0) = ':' then [] else ['\\']) ++ str "img"

/-- Whether the elements of a name, read from left to right with `depth`
elements of the name kept so far, never remove more than the name itself has
added and leave at least one element. -/
def belowFrom : Nat → List (List Char) → Bool
  | depth, [] => decide (0 < depth)
  | depth, s :: rest =>
    if s = [] ∨ s = ['.'] then belowFrom depth rest
    else if s = ['.', '.'] then
      match depth with
      | 0 => false
      | d + 1 => belowFrom d rest
    else belowFrom (depth + 1) rest

/-- An icon name that stays below the directory it is joined to: split at the
separators, none of its `..` elements steps above that directory, and an
element is left at the end. -/
def staysBelow (goos : GOOS) (name : List Char) : Bool := belowFrom 0 (segs goos name)

/-- What the Windows `join` puts between the text built so far and the next
element. -/
def glue (lastChar : Char) : List Char :=
  if IsPathSeparator .windows lastChar = true ∨ lastChar = ':' then [] else ['\\']

/-- The descriptor `handle` builds, on the platform `goos`, for a request that carries a
message. -/
def descriptor (goos : GOOS) (r : Request) (cfg : Config) (baseDir : List Char) : toast.Notification :=
  { AppID := cfg.AppID
    Title := strings.ReplaceAll cfg.Title (str "{msg}") (getParamFromRequest r (str "msg"))
    Message :=
      if getParamFromRequest r (str "sub") = [] then cfg.Sub
      else getParamFromRequest r (str "sub")
    Icon :=
      if getParamFromRequest r (str "icon") = [] then filepath.Join goos [baseDir, str "img", cfg.Icon]
      else filepath.Join goos [baseDir, str "img", getParamFromRequest r (str "icon")]
    Actions := [{ Type_ := str "protocol", Label := cfg.Btn, Arguments := cfg.URL }] }

/-- A request given by the value lists of its three parameters. -/
def requestOf (msg sub icon : List (List Char)) : Request :=
  ⟨fun k => if k = str "msg" then msg else if k = str "sub" then sub
    else if k = str "icon" then icon else []⟩

/-- A configuration with every field set. -/
def sampleConfig : Config :=
  { Port := str "8080"
    AppID := str "WebToast"
    Title := str "Alert: {msg}"
    Sub := str "from config"
    Btn := str "Open"
    URL := str "https://example.org/"
    Icon := str "default.png" }

/-- A notification subsystem that accepts every descriptor. -/
def pushOk : Pusher := fun _ => none

/-- A notification subsystem that rejects every descriptor with one reason. -/
def pushFail (e : List Char) : Pusher := fun _ => some e

/-- The fallback value `loadConfig` starts from. -/
def fallbackConfig : Config :=
  { Port := str "8080"
    AppID := str "WebToast"
    Title := str "{msg}"
    Sub := []
    Btn := []
    URL := str "https://orthexgroup.com/404"
    Icon := [] }

/-- The zero value of `Config`. -/
def zeroConfig : Config := ⟨[], [], [], [], [], [], []⟩

/-- The path of config.json for an executable path, on the platform `goos`. -/
def configPathOf (goos : GOOS) (exe : List Char) : List Char :=
  filepath.Join goos [filepath.Dir goos exe, str "config.json"]

/-- The text a member stores in a field: its value when the key selects the
field and the value is a string. -/
def storedText (f : Field) (m : List Char × Item) : Option (List Char) :=
  if findField m.1 = some f then
    match m.2 with
    | .string s => some s
    | _ => none
  else none

/-- Whether the character `k` of an object key stands for the character `c`
of a field name when letter case is ignored: `c` itself, its upper-case form,
and for `s` also U+017F and for `k` also U+212A. -/
def keyCharMatches (k c : Char) : Bool :=
  k == c || k == c.toUpper || (c == 's' && k == Char.ofNat 0x17F) ||
    (c == 'k' && k == Char.ofNat 0x212A)

/-- Whether an object key is the name of a field when letter case is ignored,
character by character. -/
def keyMatches : List Char → List Char → Bool
  | [], [] => true
  | k :: ks, c :: cs => keyCharMatches k c && keyMatches ks cs
  | _, _ => false

/-- A config.json whose only member has the key `PORT`. -/
def upperCaseFile : List Char :=
  str "\x7b\"PORT\": \"1\"\x7d"

/-- A config.json that gives `port` twice, first a string and then a number. -/
def repeatedFile : List Char :=
  str "\x7b\"port\": \"9090\", \"port\": 5\x7d"

/-- A config.json that sets the port under the key `Port`, gives `title` a
number and has a member that is no field. -/
def sampleFile : List Char :=
  str "\x7b\"Port\": \"9090\", \"title\": 5, \"other\": [1, 2]\x7d"

/-! # Theorems -/

/-! ## `filepath.Clean`: the text written by the loop -/

theorem sep_sep (goos : GOOS) : IsPathSeparator goos (Separator goos) = true := by
  cases goos <;> rfl

theorem sep_dot (goos : GOOS) : IsPathSeparator goos '.' = false := by
  cases goos <;> rfl

theorem append_out (b : lazybuf) (c : Char) : (b.append c).out = b.out ++ [c] := rfl

theorem foldl_append_out (l : List Char) :
    ∀ b : lazybuf, (l.foldl lazybuf.append b).out = b.out ++ l := by
  induction l with
  | nil => intro b; simp
  | cons c l ih => intro b; rw [List.foldl_cons, ih, append_out]; simp

theorem cleanLoop_out (goos : GOOS) (rooted : Bool) :
    ∀ (f : Nat) (rest : List Char) (b : lazybuf) (dotdot : Nat),
      (cleanLoop goos rooted f rest b dotdot).out = cleanOut goos rooted f rest b.out dotdot := by
  intro f
  induction f with
  | zero => intro rest b dotdot; rfl
  | succ f ih =>
    intro rest b dotdot
    cases rest with
    | nil => rfl
    | cons c rest =>
      simp only [cleanLoop, cleanOut]
      split_ifs <;> rw [ih] <;> simp [append_out, foldl_append_out]

/-! ## `filepath.Clean`: the loop does not depend on spare fuel -/

theorem length_dropWhile_cons_le (p : Char → Bool) (c : Char) (rest : List Char) (h : p c = true) :
    ((c :: rest).dropWhile p).length ≤ rest.length := by
  simp only [List.dropWhile_cons, h, if_true]
  exact (List.dropWhile_suffix p).length_le

theorem cleanOut_fuel (goos : GOOS) (rooted : Bool) :
    ∀ (f1 f2 : Nat) (rest out : List Char) (dotdot : Nat),
      rest.length ≤ f1 → rest.length ≤ f2 →
      cleanOut goos rooted f1 rest out dotdot = cleanOut goos rooted f2 rest out dotdot := by
  intro f1
  induction f1 with
  | zero =>
    intro f2 rest out dotdot h1 _
    have : rest = [] := List.length_eq_zero.mp (Nat.le_zero.mp h1)
    subst this
    cases f2 <;> simp [cleanOut]
  | succ f1 ih =>
    intro f2 rest out dotdot h1 h2
    cases rest with
    | nil => cases f2 <;> simp [cleanOut]
    | cons c rest =>
      cases f2 with
      | zero => simp at h2
      | succ f2 =>
        simp only [List.length_cons, Nat.add_le_add_iff_right] at h1 h2
        have ht1 : rest.tail.length ≤ f1 := by simp; omega
        have ht2 : rest.tail.length ≤ f2 := by simp; omega
        simp only [cleanOut]
        split_ifs with hs hd hdd hw hr
        · exact ih f2 rest out dotdot h1 h2
        · exact ih f2 rest out dotdot h1 h2
        · exact ih f2 _ _ _ ht1 ht2
        · exact ih f2 _ _ _ ht1 ht2
        · exact ih f2 _ _ _ ht1 ht2
        all_goals
          have hp : (fun d => !IsPathSeparator goos d) c = true := by simp [hs]
          have hl := length_dropWhile_cons_le (fun d => !IsPathSeparator goos d) c rest hp
          exact ih f2 _ _ _ (by omega) (by omega)

theorem cleanOut_eq_cl (goos : GOOS) (rooted : Bool) (f : Nat) (rest out : List Char) (dotdot : Nat)
    (h : rest.length ≤ f) : cleanOut goos rooted f rest out dotdot = cl goos rooted rest out dotdot :=
  cleanOut_fuel goos rooted f rest.length rest out dotdot h (Nat.le_refl _)

theorem cl_nil (goos : GOOS) (rooted : Bool) (out : List Char) (dotdot : Nat) : cl goos rooted [] out dotdot = out := by
  simp [cl, cleanOut]

theorem cl_sep (goos : GOOS) (rooted : Bool) (c : Char) (rest out : List Char) (dotdot : Nat)
    (hs : IsPathSeparator goos c = true) :
    cl goos rooted (c :: rest) out dotdot = cl goos rooted rest out dotdot := by
  simp [cl, cleanOut, hs]

theorem cl_dot (goos : GOOS) (rooted : Bool) (rest out : List Char) (dotdot : Nat)
    (he : atElemEnd goos rest = true) :
    cl goos rooted ('.' :: rest) out dotdot = cl goos rooted rest out dotdot := by
  have : IsPathSeparator goos '.' = false := sep_dot goos
  simp [cl, cleanOut, this, he]

theorem cl_dotdot (goos : GOOS) (rooted : Bool) (rest out : List Char) (dotdot : Nat)
    (he : atElemEnd goos rest = true) :
    cl goos rooted ('.' :: '.' :: rest) out dotdot =
      if out.length > dotdot then cl goos rooted rest (backtrack goos dotdot out) dotdot
      else if rooted = false then
        cl goos rooted rest ((if out.length > 0 then out ++ [Separator goos] else out) ++ ['.', '.'])
          ((if out.length > 0 then out ++ [Separator goos] else out) ++ ['.', '.']).length
      else cl goos rooted rest out dotdot := by
  have h1 : IsPathSeparator goos '.' = false := sep_dot goos
  have h2 : atElemEnd goos ('.' :: rest) = false := by simp [atElemEnd, h1]
  simp only [cl, cleanOut, h1, h2, List.head?_cons, List.tail_cons, he, List.length_cons]
  simp only [Bool.false_eq_true, if_false, and_false, and_self, if_true]
  split_ifs <;> exact cleanOut_fuel _ _ _ _ _ _ _ (by omega) (by omega)

theorem cl_elem (goos : GOOS) (rooted : Bool) (c : Char) (rest out : List Char) (dotdot : Nat)
    (hs : IsPathSeparator goos c = false)
    (hd : ¬ (c = '.' ∧ atElemEnd goos rest = true))
    (hdd : ¬ (c = '.' ∧ rest.head? = some '.' ∧ atElemEnd goos rest.tail = true)) :
    cl goos rooted (c :: rest) out dotdot =
      cl goos rooted ((c :: rest).dropWhile (fun d => !IsPathSeparator goos d))
        ((if (rooted = true ∧ out.length ≠ 1) ∨ (rooted = false ∧ out.length ≠ 0)
            then out ++ [Separator goos] else out)
          ++ (c :: rest).takeWhile (fun d => !IsPathSeparator goos d)) dotdot := by
  have hp : (fun d => !IsPathSeparator goos d) c = true := by simp [hs]
  have hl := length_dropWhile_cons_le (fun d => !IsPathSeparator goos d) c rest hp
  simp only [cl, cleanOut, hs, hd, hdd, List.length_cons]
  simp only [Bool.false_eq_true, if_false]
  exact cleanOut_fuel _ _ _ _ _ _ _ (by omega) (by omega)

/-! ## `filepath.Clean`: a trailing separator changes nothing -/

theorem atElemEnd_append_sep (goos : GOOS) (x : Char) (hx : IsPathSeparator goos x = true)
    (t : List Char) : atElemEnd goos (t ++ [x]) = atElemEnd goos t := by
  cases t with
  | nil => simp [atElemEnd, hx]
  | cons c t => rfl

theorem head?_append_sep_dot (goos : GOOS) (x : Char) (hx : IsPathSeparator goos x = true)
    (t : List Char) :
    ((t ++ [x]).head? = some '.' ∧ atElemEnd goos (t ++ [x]).tail = true) ↔
      (t.head? = some '.' ∧ atElemEnd goos t.tail = true) := by
  cases t with
  | nil =>
    have hne : x ≠ '.' := fun h => by rw [h, sep_dot] at hx; simp at hx
    simp [hne]
  | cons c t => simp [atElemEnd_append_sep goos x hx]

theorem takeWhile_append_sep (goos : GOOS) (x : Char) (hx : IsPathSeparator goos x = true)
    (l : List Char) :
    (l ++ [x]).takeWhile (fun d => !IsPathSeparator goos d) =
      l.takeWhile (fun d => !IsPathSeparator goos d) := by
  induction l with
  | nil => simp [hx]
  | cons c l ih =>
    simp only [List.cons_append, List.takeWhile_cons, ih]

theorem dropWhile_append_sep (goos : GOOS) (x : Char) (hx : IsPathSeparator goos x = true)
    (l : List Char) :
    (l ++ [x]).dropWhile (fun d => !IsPathSeparator goos d) =
      l.dropWhile (fun d => !IsPathSeparator goos d) ++ [x] := by
  induction l with
  | nil => simp [hx]
  | cons c l ih =>
    simp only [List.cons_append, List.dropWhile_cons, ih]
    split_ifs <;> simp

theorem cl_append_sep (goos : GOOS) (x : Char) (hx : IsPathSeparator goos x = true)
    (rooted : Bool) :
    ∀ (n : Nat) (rest out : List Char) (dotdot : Nat), rest.length ≤ n →
      cl goos rooted (rest ++ [x]) out dotdot = cl goos rooted rest out dotdot := by
  intro n
  induction n with
  | zero =>
    intro rest out dotdot h
    have : rest = [] := List.length_eq_zero.mp (Nat.le_zero.mp h)
    subst this
    rw [List.nil_append, cl_sep _ _ _ _ _ _ hx]
  | succ n ih =>
    intro rest out dotdot h
    cases rest with
    | nil => rw [List.nil_append, cl_sep _ _ _ _ _ _ hx]
    | cons c t =>
      simp only [List.length_cons, Nat.add_le_add_iff_right] at h
      rw [List.cons_append]
      by_cases hs : IsPathSeparator goos c = true
      · rw [cl_sep _ _ _ _ _ _ hs, cl_sep _ _ _ _ _ _ hs]
        exact ih t out dotdot h
      · have hs' : IsPathSeparator goos c = false := by simpa using hs
        by_cases hd : c = '.' ∧ atElemEnd goos t = true
        · obtain ⟨rfl, he⟩ := hd
          rw [cl_dot _ _ _ _ _ he, cl_dot _ _ _ _ _ (by rw [atElemEnd_append_sep goos x hx]; exact he)]
          exact ih t out dotdot h
        · by_cases hdd : c = '.' ∧ t.head? = some '.' ∧ atElemEnd goos t.tail = true
          · obtain ⟨rfl, hh, he⟩ := hdd
            cases t with
            | nil => simp at hh
            | cons d t2 =>
              simp only [List.head?_cons, Option.some.injEq] at hh
              subst hh
              simp only [List.tail_cons] at he
              simp only [List.length_cons] at h
              rw [List.cons_append, cl_dotdot _ _ _ _ _ he,
                cl_dotdot _ _ _ _ _ (by rw [atElemEnd_append_sep goos x hx]; exact he)]
              rw [ih t2 _ _ (by omega), ih t2 _ _ (by omega), ih t2 _ _ (by omega)]
          · have hd2 : ¬ (c = '.' ∧ atElemEnd goos (t ++ [x]) = true) := by
              rw [atElemEnd_append_sep goos x hx]; exact hd
            have hdd2 : ¬ (c = '.' ∧ (t ++ [x]).head? = some '.' ∧
                atElemEnd goos (t ++ [x]).tail = true) := by
              rw [head?_append_sep_dot goos x hx]; exact hdd
            rw [cl_elem _ _ _ _ _ _ hs' hd hdd, cl_elem _ _ _ _ _ _ hs' hd2 hdd2]
            rw [← List.cons_append, takeWhile_append_sep goos x hx, dropWhile_append_sep goos x hx]
            have hp : (fun d => !IsPathSeparator goos d) c = true := by simp [hs']
            have hl := length_dropWhile_cons_le (fun d => !IsPathSeparator goos d) c t hp
            exact ih _ _ _ (by omega)

theorem cleanText_append_sep (goos : GOOS) (x : Char) (hx : IsPathSeparator goos x = true)
    (p : List Char) (hp : p ≠ []) : cleanText goos (p ++ [x]) = cleanText goos p := by
  cases p with
  | nil => exact absurd rfl hp
  | cons c t =>
    simp only [cleanText, List.cons_append]
    rw [cl_append_sep goos x hx _ _ t _ _ (Nat.le_refl _)]
    rw [← List.cons_append, cl_append_sep goos x hx _ _ (c :: t) _ _ (Nat.le_refl _)]

/-- `Clean` of a path whose rest after the volume name is not empty, where
`postClean` does nothing (on `unix`, or with a volume name). -/
theorem Clean_eq_cleanText (goos : GOOS) (p : List Char)
    (hpost : goos = .unix ∨ volumeNameLen goos p ≠ 0)
    (hne : p.drop (volumeNameLen goos p) ≠ []) :
    filepath.Clean goos p =
      filepath.FromSlash goos
        (p.take (volumeNameLen goos p) ++ cleanText goos (p.drop (volumeNameLen goos p))) := by
  unfold filepath.Clean
  simp only []
  cases hq : p.drop (volumeNameLen goos p) with
  | nil => exact absurd hq hne
  | cons c t =>
    have hpc : ∀ b : lazybuf, postClean goos (volumeNameLen goos p) b = b.out := by
      intro b
      rcases hpost with rfl | hv
      · rfl
      · cases goos with
        | unix => rfl
        | windows => simp [postClean, hv]
    simp only [hpc, cleanText, List.tail_cons, List.length_cons]
    congr 2
    have key : ∀ (B : lazybuf) (o : List Char), B.out = o →
        (if B.out.length = 0 then B.append '.' else B).out = if o.length = 0 then ['.'] else o := by
      intro B o hB
      subst hB
      by_cases ho : B.out.length = 0
      · rw [if_pos ho, if_pos ho, append_out, List.length_eq_zero.mp ho]; rfl
      · rw [if_neg ho, if_neg ho]
    by_cases hs : IsPathSeparator goos c = true
    · simp only [hs, if_true]
      apply key
      rw [cleanLoop_out, cleanOut_eq_cl _ _ _ _ _ _ (by simp)]
      rfl
    · simp only [hs, if_false, Bool.false_eq_true]
      apply key
      rw [cleanLoop_out, cleanOut_eq_cl _ _ _ _ _ _ (by simp)]

/-! ## `filepath.Clean` on rooted paths, element by element -/

theorem segs_ne_nil (goos : GOOS) (s : List Char) : segs goos s ≠ [] := by
  cases s with
  | nil => simp [segs]
  | cons c s =>
    simp only [segs]
    split_ifs
    · simp
    · split <;> simp

theorem segs_takeWhile (goos : GOOS) (s : List Char) :
    segs goos s = s.takeWhile (fun d => !IsPathSeparator goos d) ::
      (match s.dropWhile (fun d => !IsPathSeparator goos d) with
        | [] => []
        | _ :: r => segs goos r) := by
  induction s with
  | nil => simp [segs]
  | cons c s ih =>
    by_cases hs : IsPathSeparator goos c = true
    · simp [segs, hs]
    · simp only [segs, hs, if_false, List.takeWhile_cons, List.dropWhile_cons]
      rw [ih]
      simp [hs]

theorem outOf_length (goos : GOOS) (st : List (List Char)) (h : ∀ s ∈ st, plainElem goos s) :
    (outOf goos st).length = 1 ↔ st = [] := by
  cases st with
  | nil => simp [outOf]
  | cons s t =>
    have hs := (h s (List.mem_cons_self _ _)).1
    have : 0 < s.length := List.length_pos.mpr hs
    simp only [outOf, List.length_append]
    constructor
    · intro h1
      split_ifs at h1
      · simp only [List.length_cons, List.length_nil] at h1; omega
      · simp only [List.length_append, List.length_cons, List.length_nil] at h1; omega
    · intro h1
      exact absurd h1 (List.cons_ne_nil _ _)

theorem unwind_to_root (goos : GOOS) (x last : Char) (s : List Char)
    (hl : IsPathSeparator goos last = false) (hs : ∀ c ∈ s, IsPathSeparator goos c = false) :
    unwind goos 1 last (s ++ [x]) = [x] := by
  induction s generalizing last with
  | nil => simp [unwind]
  | cons c s ih =>
    have hc := hs c (List.mem_cons_self _ _)
    simp only [List.cons_append, unwind, List.length_cons, List.length_append, hl]
    simp only [Bool.false_eq_true, not_false_eq_true, and_true]
    rw [if_pos (by simp)]
    exact ih c hc (fun d hd => hs d (List.mem_cons_of_mem _ hd))

theorem unwind_to_sep (goos : GOOS) (dotdot : Nat) (last : Char) (s X : List Char)
    (hl : IsPathSeparator goos last = false) (hs : ∀ c ∈ s, IsPathSeparator goos c = false)
    (x : Char) (hx : IsPathSeparator goos x = true) (hX : dotdot ≤ X.length) :
    unwind goos dotdot last (s ++ x :: X) = X := by
  induction s generalizing last with
  | nil =>
    simp only [List.nil_append, unwind, List.length_cons, hl]
    rw [if_pos (by simp; omega)]
    cases X with
    | nil => simp [unwind]
    | cons y X => simp [unwind, hx]
  | cons c s ih =>
    have hc := hs c (List.mem_cons_self _ _)
    simp only [List.cons_append, unwind, List.length_cons, List.length_append, hl]
    rw [if_pos (by simp; omega)]
    exact ih c hc (fun d hd => hs d (List.mem_cons_of_mem _ hd))

theorem backtrack_outOf (goos : GOOS) (s : List Char) (t : List (List Char)) (hs : plainElem goos s)
    (ht : ∀ x ∈ t, plainElem goos x) :
    backtrack goos 1 (outOf goos (s :: t)) = outOf goos t := by
  obtain ⟨hne, hsep⟩ := hs
  obtain ⟨last, r, hr⟩ : ∃ last r, s.reverse = last :: r := by
    cases h : s.reverse with
    | nil => simp at h; exact absurd h hne
    | cons a b => exact ⟨a, b, rfl⟩
  have hlast : IsPathSeparator goos last = false :=
    hsep last (by rw [← List.mem_reverse, hr]; exact List.mem_cons_self _ _)
  have hrs : ∀ c ∈ r, IsPathSeparator goos c = false := fun c hc =>
    hsep c (by rw [← List.mem_reverse, hr]; exact List.mem_cons_of_mem _ hc)
  simp only [backtrack, outOf]
  by_cases hnil : t = []
  · subst hnil
    simp only [if_true, List.reverse_append, hr, List.reverse_cons, List.reverse_nil,
      List.nil_append, List.cons_append]
    rw [unwind_to_root goos _ last r hlast hrs]
    simp [outOf]
  · simp only [hnil, if_false, List.reverse_append, hr, List.reverse_cons, List.reverse_nil,
      List.nil_append, List.cons_append, List.singleton_append]
    rw [unwind_to_sep goos 1 last r _ hlast hrs _ (sep_sep goos)]
    · simp
    · have h1 : (outOf goos t).length ≠ 0 := by
        cases t with
        | nil => exact absurd rfl hnil
        | cons a b => simp [outOf]; split_ifs <;> simp
      simp; omega

theorem resolveStep_nil (st : List (List Char)) : resolveStep st [] = st := by
  simp [resolveStep]

theorem resolveStep_dot (st : List (List Char)) : resolveStep st ['.'] = st := by
  simp [resolveStep]

theorem resolveStep_dotdot (st : List (List Char)) : resolveStep st ['.', '.'] = st.tail := by
  simp [resolveStep]

theorem segs_sep (goos : GOOS) (c : Char) (s : List Char) (h : IsPathSeparator goos c = true) :
    segs goos (c :: s) = [] :: segs goos s := by
  simp [segs, h]

theorem foldl_segs_of_end (goos : GOOS) (st : List (List Char)) (t : List Char) (he : atElemEnd goos t = true) :
    (match t with
      | [] => []
      | _ :: r => segs goos r).foldl resolveStep st = (segs goos t).foldl resolveStep st := by
  cases t with
  | nil => simp [segs, resolveStep_nil]
  | cons d r =>
    simp only [atElemEnd] at he
    simp [segs_sep goos d r he, resolveStep_nil]

theorem takeWhile_plain (goos : GOOS) (c : Char) (t : List Char) (hs : IsPathSeparator goos c = false) :
    plainElem goos ((c :: t).takeWhile (fun d => !IsPathSeparator goos d)) := by
  constructor
  · simp [List.takeWhile_cons, hs]
  · intro d hd
    have := List.mem_takeWhile_imp hd
    simpa using this

theorem atElemEnd_dropWhile (goos : GOOS) (l : List Char) :
    atElemEnd goos (l.dropWhile (fun d => !IsPathSeparator goos d)) = true := by
  induction l with
  | nil => rfl
  | cons c l ih =>
    simp only [List.dropWhile_cons]
    split_ifs with h
    · exact ih
    · simpa [atElemEnd] using h

theorem takeWhile_eq_of_end (goos : GOOS) (a t : List Char) (ha : ∀ c ∈ a, IsPathSeparator goos c = false)
    (he : atElemEnd goos t = true) :
    (a ++ t).takeWhile (fun d => !IsPathSeparator goos d) = a ∧
      (a ++ t).dropWhile (fun d => !IsPathSeparator goos d) = t := by
  induction a with
  | nil =>
    cases t with
    | nil => simp
    | cons d r =>
      simp only [atElemEnd] at he
      simp [he]
  | cons c a ih =>
    have hc := ha c (List.mem_cons_self _ _)
    have := ih (fun d hd => ha d (List.mem_cons_of_mem _ hd))
    simp [hc, this.1, this.2]

theorem cl_rooted (goos : GOOS) :
    ∀ (n : Nat) (rest : List Char) (st : List (List Char)), rest.length ≤ n →
      (∀ s ∈ st, plainElem goos s) →
      cl goos true rest (outOf goos st) 1 = outOf goos ((segs goos rest).foldl resolveStep st) := by
  intro n
  induction n with
  | zero =>
    intro rest st h _
    have : rest = [] := List.length_eq_zero.mp (Nat.le_zero.mp h)
    subst this
    simp [cl_nil, segs, resolveStep_nil]
  | succ n ih =>
    intro rest st h hst
    cases rest with
    | nil => simp [cl_nil, segs, resolveStep_nil]
    | cons c t =>
      simp only [List.length_cons, Nat.add_le_add_iff_right] at h
      by_cases hs : IsPathSeparator goos c = true
      · rw [cl_sep _ _ _ _ _ _ hs, segs_sep goos c t hs, List.foldl_cons, resolveStep_nil]
        exact ih t st h hst
      · have hs' : IsPathSeparator goos c = false := by simpa using hs
        have hseg := segs_takeWhile goos (c :: t)
        by_cases hd : c = '.' ∧ atElemEnd goos t = true
        · obtain ⟨rfl, he⟩ := hd
          rw [cl_dot _ _ _ _ _ he, ih t st h hst, hseg]
          have := takeWhile_eq_of_end goos ['.'] t (by simp [sep_dot]) he
          simp only [List.singleton_append] at this
          rw [this.1, this.2, List.foldl_cons, resolveStep_dot, foldl_segs_of_end goos st t he]
        · by_cases hdd : c = '.' ∧ t.head? = some '.' ∧ atElemEnd goos t.tail = true
          · obtain ⟨rfl, hh, he⟩ := hdd
            cases t with
            | nil => simp at hh
            | cons d t2 =>
              simp only [List.head?_cons, Option.some.injEq] at hh
              subst hh
              simp only [List.tail_cons] at he
              simp only [List.length_cons] at h
              have := takeWhile_eq_of_end goos ['.', '.'] t2 (by simp [sep_dot]) he
              simp only [List.cons_append, List.nil_append] at this
              rw [hseg, this.1, this.2, List.foldl_cons, resolveStep_dotdot,
                foldl_segs_of_end goos _ t2 he, cl_dotdot _ _ _ _ _ he]
              cases st with
              | nil =>
                simp only [outOf, List.length_singleton, gt_iff_lt, Nat.lt_irrefl, if_false,
                  Bool.true_eq_false, List.tail_nil]
                exact ih t2 [] (by omega) hst
              | cons s st' =>
                have hlen : (outOf goos (s :: st')).length > 1 := by
                  have h0 := outOf_length goos (s :: st') hst
                  have h1 : (outOf goos (s :: st')).length ≠ 0 := by
                    simp only [outOf]; split_ifs <;> simp
                  have h2 : (outOf goos (s :: st')).length ≠ 1 := fun h => by simpa using h0.mp h
                  omega
                rw [if_pos hlen, backtrack_outOf goos s st' (hst s (List.mem_cons_self _ _))
                  (fun x hx => hst x (List.mem_cons_of_mem _ hx)), List.tail_cons]
                exact ih t2 st' (by omega) (fun x hx => hst x (List.mem_cons_of_mem _ hx))
          · rw [cl_elem _ _ _ _ _ _ hs' hd hdd, hseg, List.foldl_cons]
            have hplain := takeWhile_plain goos c t hs'
            have hne1 : (c :: t).takeWhile (fun d => !IsPathSeparator goos d) ≠ ['.'] := by
              intro heq
              have h1 := List.takeWhile_append_dropWhile (fun d => !IsPathSeparator goos d) (c :: t)
              rw [heq] at h1
              simp only [List.singleton_append, List.cons.injEq] at h1
              apply hd
              refine ⟨h1.1.symm, ?_⟩
              rw [← h1.2]; exact atElemEnd_dropWhile goos _
            have hne2 : (c :: t).takeWhile (fun d => !IsPathSeparator goos d) ≠ ['.', '.'] := by
              intro heq
              have h1 := List.takeWhile_append_dropWhile (fun d => !IsPathSeparator goos d) (c :: t)
              rw [heq] at h1
              simp only [List.cons_append, List.nil_append, List.cons.injEq] at h1
              apply hdd
              refine ⟨h1.1.symm, ?_, ?_⟩
              · rw [← h1.2]; rfl
              · rw [← h1.2]; exact atElemEnd_dropWhile goos _
            have hstep : resolveStep st ((c :: t).takeWhile (fun d => !IsPathSeparator goos d)) =
                (c :: t).takeWhile (fun d => !IsPathSeparator goos d) :: st := by
              simp [resolveStep, hplain.1, hne1, hne2]
            rw [hstep, foldl_segs_of_end goos _ _ (atElemEnd_dropWhile goos _)]
            have hp : (fun d => !IsPathSeparator goos d) c = true := by simp [hs']
            have hl := length_dropWhile_cons_le (fun d => !IsPathSeparator goos d) c t hp
            have hout : (if (true = true ∧ (outOf goos st).length ≠ 1) ∨
                  (true = false ∧ (outOf goos st).length ≠ 0) then outOf goos st ++ [Separator goos] else outOf goos st) ++
                (c :: t).takeWhile (fun d => !IsPathSeparator goos d) =
                outOf goos ((c :: t).takeWhile (fun d => !IsPathSeparator goos d) :: st) := by
              have h0 := outOf_length goos st hst
              by_cases hnil : st = []
              · subst hnil; simp [outOf]
              · have : (outOf goos st).length ≠ 1 := fun h => hnil (h0.mp h)
                simp [outOf, hnil, this]
            rw [hout]
            exact ih _ _ (by omega) (by
              intro x hx
              rcases List.mem_cons.mp hx with rfl | hx
              · exact hplain
              · exact hst x hx)

/-- What `Clean` writes for a rooted path without volume name: the elements
are resolved from left to right and what is kept is written after the
root. -/
theorem cleanText_rooted (goos : GOOS) (c : Char) (p : List Char)
    (hc : IsPathSeparator goos c = true) :
    cleanText goos (c :: p) = outOf goos ((segs goos p).foldl resolveStep []) := by
  simp only [cleanText, hc, if_true]
  have := cl_rooted goos p.length p [] (Nat.le_refl _) (by simp)
  simp only [outOf] at this
  rw [this]
  have hlen : ∀ st : List (List Char), (outOf goos st).length ≠ 0 := by
    intro st
    cases st with
    | nil => simp [outOf]
    | cons a b => simp only [outOf]; split_ifs <;> simp
  rw [if_neg (hlen _)]

/-! ## `strings.ReplaceAll` with the placeholder `{msg}` -/

theorem replaceScan_fuel (old new : List Char) (hold : old ≠ []) :
    ∀ (f1 f2 : Nat) (s : List Char), s.length ≤ f1 → s.length ≤ f2 →
      replaceScan old new f1 s = replaceScan old new f2 s := by
  intro f1
  induction f1 with
  | zero =>
    intro f2 s h1 _
    have : s = [] := List.length_eq_zero.mp (Nat.le_zero.mp h1)
    subst this
    cases f2 <;> simp [replaceScan]
  | succ f1 ih =>
    intro f2 s h1 h2
    cases s with
    | nil => cases f2 <;> simp [replaceScan]
    | cons c s =>
      cases f2 with
      | zero => simp at h2
      | succ f2 =>
        simp only [List.length_cons, Nat.add_le_add_iff_right] at h1 h2
        have hpos : 0 < old.length := List.length_pos.mpr hold
        simp only [replaceScan]
        split_ifs
        · rw [ih f2 _ (by simp; omega) (by simp; omega)]
        · rw [ih f2 _ h1 h2]

theorem rs_nil (old new : List Char) : rs old new [] = [] := by
  simp [rs, replaceScan]

theorem rs_cons (old new : List Char) (hold : old ≠ []) (c : Char) (s : List Char) :
    rs old new (c :: s) =
      if old.isPrefixOf (c :: s) then new ++ rs old new ((c :: s).drop old.length)
      else c :: rs old new s := by
  have hpos : 0 < old.length := List.length_pos.mpr hold
  simp only [rs, replaceScan, List.length_cons]
  split_ifs
  · rw [replaceScan_fuel old new hold _ _ _ (by simp; omega) (Nat.le_refl _)]
  · rfl

theorem rs_match (new rest : List Char) :
    rs placeholder new (placeholder ++ rest) = new ++ rs placeholder new rest := by
  have h : placeholder ++ rest = '{' :: (['m', 's', 'g', '}'] ++ rest) := rfl
  rw [h, rs_cons _ _ (by decide)]
  simp [placeholder]

/-- Inside a piece without the placeholder, no placeholder starts, whether the
piece ends the string or is followed by a placeholder. -/
theorem no_match_inside (t tail : List Char) (ht : t ≠ []) (hno : ¬ placeholder <:+: t)
    (htail : tail = [] ∨ placeholder <+: tail) :
    placeholder.isPrefixOf (t ++ tail) = false := by
  rw [Bool.eq_false_iff]
  intro hpre
  rw [List.isPrefixOf_iff_prefix] at hpre
  rcases htail with rfl | ⟨rest, rfl⟩
  · rw [List.append_nil] at hpre
    exact hno hpre.isInfix
  · match t, ht, hno, hpre with
    | [a], _, _, hpre => simp [placeholder] at hpre
    | [a, b], _, _, hpre => simp [placeholder] at hpre
    | [a, b, c], _, _, hpre => simp [placeholder] at hpre
    | [a, b, c, d], _, _, hpre => simp [placeholder] at hpre
    | a :: b :: c :: d :: e :: t', _, hno, hpre =>
      simp only [placeholder, List.cons_append, List.cons_prefix_cons] at hpre
      obtain ⟨rfl, rfl, rfl, rfl, rfl, _⟩ := hpre
      exact hno ⟨[], t', rfl⟩

theorem rs_piece (new : List Char) :
    ∀ (t tail : List Char), ¬ placeholder <:+: t → (tail = [] ∨ placeholder <+: tail) →
      rs placeholder new (t ++ tail) = t ++ rs placeholder new tail := by
  intro t
  induction t with
  | nil => intro tail _ _; rfl
  | cons c t ih =>
    intro tail hno htail
    have h := no_match_inside (c :: t) tail (List.cons_ne_nil _ _) hno htail
    rw [List.cons_append] at h ⊢
    rw [rs_cons _ _ (by decide), h]
    simp only [Bool.false_eq_true, if_false]
    rw [ih tail (fun hin => hno (List.infix_cons hin)) htail]
    rfl

theorem intercalate_cons_cons (sep x y : List Char) (xs : List (List Char)) :
    sep.intercalate (x :: y :: xs) = x ++ (sep ++ sep.intercalate (y :: xs)) := by
  simp [List.intercalate, List.intersperse]

theorem rs_intercalate (new : List Char) :
    ∀ ts : List (List Char), (∀ x ∈ ts, ¬ placeholder <:+: x) →
      rs placeholder new (placeholder.intercalate ts) = new.intercalate ts := by
  intro ts
  induction ts with
  | nil => intro _; simp [List.intercalate, rs_nil]
  | cons t ts ih =>
    intro h
    cases ts with
    | nil =>
      have := rs_piece new t [] (h t (List.mem_cons_self _ _)) (Or.inl rfl)
      simpa [List.intercalate, rs_nil] using this
    | cons t2 ts =>
      rw [intercalate_cons_cons, intercalate_cons_cons,
        rs_piece new t _ (h t (List.mem_cons_self _ _)) (Or.inr ⟨_, rfl⟩), rs_match,
        ih (fun x hx => h x (List.mem_cons_of_mem _ hx))]

/-- `strings.ReplaceAll` on a template cut at its placeholders: the pieces
are kept and every placeholder between two pieces becomes `new`. -/
theorem ReplaceAll_intercalate (new : List Char) (ts : List (List Char))
    (h : ∀ x ∈ ts, ¬ placeholder <:+: x) :
    strings.ReplaceAll (placeholder.intercalate ts) placeholder new = new.intercalate ts := by
  unfold strings.ReplaceAll
  split_ifs with h1 h2
  · rw [h1]
  · exact absurd h2 (by decide)
  · exact rs_intercalate new ts h

theorem intercalate_append (sep : List Char) :
    ∀ (xs ys : List (List Char)), xs ≠ [] → ys ≠ [] →
      sep.intercalate (xs ++ ys) = sep.intercalate xs ++ (sep ++ sep.intercalate ys) := by
  intro xs
  induction xs with
  | nil => intro ys h; exact absurd rfl h
  | cons x xs ih =>
    intro ys _ hy
    cases xs with
    | nil =>
      cases ys with
      | nil => exact absurd rfl hy
      | cons y ys =>
        rw [List.singleton_append, intercalate_cons_cons]
        simp [List.intercalate]
    | cons x2 xs =>
      rw [List.cons_append, List.cons_append, intercalate_cons_cons, intercalate_cons_cons,
        ← List.cons_append, ih ys (List.cons_ne_nil _ _) hy]
      simp

/-- Every template is a list of placeholder-free pieces joined by the
placeholder. -/
theorem exists_pieces :
    ∀ (n : Nat) (t : List Char), t.length ≤ n →
      ∃ ts : List (List Char), ts ≠ [] ∧ (∀ x ∈ ts, ¬ placeholder <:+: x) ∧
        placeholder.intercalate ts = t := by
  intro n
  induction n with
  | zero =>
    intro t h
    have : t = [] := List.length_eq_zero.mp (Nat.le_zero.mp h)
    subst this
    refine ⟨[[]], by simp, ?_, by simp [List.intercalate]⟩
    intro x hx
    rw [List.mem_singleton] at hx
    subst hx
    simp [placeholder]
  | succ n ih =>
    intro t h
    by_cases hin : placeholder <:+: t
    · obtain ⟨a, b, rfl⟩ := hin
      have hlen : (a ++ placeholder ++ b).length = a.length + 5 + b.length := by
        simp [placeholder]; omega
      obtain ⟨as, has, hna, rfl⟩ := ih a (by omega)
      obtain ⟨bs, hbs, hnb, rfl⟩ := ih b (by omega)
      refine ⟨as ++ bs, by simp [has], ?_, ?_⟩
      · intro x hx
        rcases List.mem_append.mp hx with hx | hx
        · exact hna x hx
        · exact hnb x hx
      · rw [intercalate_append _ _ _ has hbs]; simp
    · refine ⟨[t], by simp, ?_, by simp [List.intercalate]⟩
      intro x hx
      rw [List.mem_singleton] at hx
      subst hx
      exact hin

/-! ## Volume names -/

theorem toNat_ofNat_small (n : Nat) (h : n < 55296) : (Char.ofNat n).toNat = n := by
  have hv : n.isValidChar := Or.inl h
  simp only [Char.ofNat, hv, Char.toNat, Char.ofNatAux, dite_true]
  rfl

theorem toNat_inj (a b : Char) : a = b ↔ a.toNat = b.toNat :=
  ⟨fun h => by rw [h], fun h => by rw [← Char.ofNat_toNat a, ← Char.ofNat_toNat b, h]⟩

theorem lower_iff (c : Char) : ('a' ≤ c ∧ c ≤ 'z') ↔ (97 ≤ c.toNat ∧ c.toNat ≤ 122) := Iff.rfl

theorem toUpper_lower (c : Char) (h : 97 ≤ c.toNat ∧ c.toNat ≤ 122) :
    c.toUpper = Char.ofNat (c.toNat - 32) := by
  unfold Char.toUpper
  simp only [ge_iff_le, h, and_self, if_true]

theorem toUpper_other (c : Char) (h : ¬ (97 ≤ c.toNat ∧ c.toNat ≤ 122)) : c.toUpper = c := by
  unfold Char.toUpper
  simp only [ge_iff_le, h, if_false]

theorem winSep_iff (c : Char) : IsPathSeparator .windows c = true ↔ (c.toNat = 92 ∨ c.toNat = 47) := by
  have h1 : ('\\' : Char).toNat = 92 := rfl
  have h2 : ('/' : Char).toNat = 47 := rfl
  simp only [IsPathSeparator, Bool.or_eq_true, beq_iff_eq, toNat_inj, h1, h2]

/-- No character other than a separator has a separator as its upper-case
form. -/
theorem toUpper_sep (x c : Char) (hc : IsPathSeparator .windows c = true)
    (h : x.toUpper = c.toUpper) : IsPathSeparator .windows x = true := by
  rw [winSep_iff] at hc ⊢
  have hcu : c.toUpper = c := toUpper_other c (by omega)
  rw [hcu] at h
  by_cases hx : 97 ≤ x.toNat ∧ x.toNat ≤ 122
  · rw [toUpper_lower x hx, toNat_inj, toNat_ofNat_small _ (by omega)] at h
    omega
  · rw [toUpper_other x hx] at h
    rw [h]
    exact hc

theorem uncLenFrom_ge (l : List Char) : ∀ i cnt, i ≤ uncLenFrom l i cnt := by
  induction l with
  | nil => intro i cnt; simp [uncLenFrom]
  | cons c rest ih =>
    intro i cnt
    unfold uncLenFrom
    split_ifs
    · exact Nat.le_refl _
    · exact Nat.le_trans (Nat.le_succ i) (ih _ _)
    · exact Nat.le_trans (Nat.le_succ i) (ih _ _)

/-- Where `uncLenFrom` stops before the end of its input, it stops there
whatever follows. -/
theorem uncLenFrom_stable (a : List Char) (c : Char) (r r2 : List Char) :
    ∀ i cnt, uncLenFrom (a ++ c :: r) i cnt = i + a.length →
      uncLenFrom (a ++ c :: r2) i cnt = i + a.length := by
  induction a with
  | nil =>
    intro i cnt h
    simp only [List.nil_append, List.length_nil, Nat.add_zero] at h ⊢
    unfold uncLenFrom at h ⊢
    have h1 := uncLenFrom_ge r (i + 1) (cnt + 1)
    have h2 := uncLenFrom_ge r (i + 1) cnt
    split_ifs at h ⊢ <;> first | rfl | omega
  | cons x a ih =>
    intro i cnt h
    simp only [List.cons_append, List.length_cons] at h ⊢
    unfold uncLenFrom at h ⊢
    split_ifs at h ⊢
    · omega
    · have := ih (i + 1) (cnt + 1) (by rw [h]; omega)
      rw [this]; omega
    · have := ih (i + 1) cnt (by rw [h]; omega)
      rw [this]; omega

/-- Whether a path has a prefix is decided by as many characters as the
prefix has and one more. -/
theorem pathHasPrefixFold_local (pfx w r r2 : List Char) (h : pfx.length + 1 ≤ w.length) :
    pathHasPrefixFold (w ++ r) pfx = pathHasPrefixFold (w ++ r2) pfx := by
  have hz : ∀ (pfx w r : List Char), pfx.length ≤ w.length →
      List.zipWith (fun p c =>
        if IsPathSeparator .windows p then IsPathSeparator .windows c
        else decide (p.toUpper = c.toUpper)) pfx (w ++ r) =
      List.zipWith (fun p c =>
        if IsPathSeparator .windows p then IsPathSeparator .windows c
        else decide (p.toUpper = c.toUpper)) pfx w := by
    intro pfx
    induction pfx with
    | nil => intro w r _; simp
    | cons p ps ih =>
      intro w r hw
      cases w with
      | nil => simp at hw
      | cons x w =>
        simp only [List.cons_append, List.zipWith_cons_cons, List.cons.injEq, true_and]
        exact ih w r (by simpa using hw)
  have hd : ∀ r : List Char, (w ++ r).drop pfx.length = w.drop pfx.length ++ r :=
    fun r => List.drop_append_of_le_length (by omega)
  obtain ⟨x, t, hxt⟩ : ∃ x t, w.drop pfx.length = x :: t := by
    cases hw : w.drop pfx.length with
    | nil =>
      have := congrArg List.length hw
      simp at this
      omega
    | cons x t => exact ⟨x, t, rfl⟩
  unfold pathHasPrefixFold
  rw [hz pfx w r (by omega), hz pfx w r2 (by omega), hd r, hd r2, hxt]
  simp only [List.length_append, List.cons_append]
  congr 2
  simp only [decide_eq_decide]
  constructor <;> intro <;> omega

theorem unc_prefix_dot (s : List Char) (h : pathHasPrefixFold s (str "\\\\.\\UNC") = true) :
    pathHasPrefixFold s (str "\\\\.") = true := by
  rcases s with _ | ⟨a, _ | ⟨b, _ | ⟨c, _ | ⟨d, t⟩⟩⟩⟩ <;>
    simp_all [pathHasPrefixFold, IsPathSeparator]
  exact h.1.2.2.2.1

theorem unc_prefix_plain (s : List Char) (h : pathHasPrefixFold s (str "\\\\.\\UNC") = true)
    (i : Nat) (hi : 4 ≤ i) (hi2 : i < 7) (x : Char) (hx : s[i]? = some x) :
    IsPathSeparator .windows x = false := by
  have key : ∀ u : Char, IsPathSeparator .windows u = false → ∀ y : Char,
      u.toUpper = y.toUpper → IsPathSeparator .windows y = false := by
    intro u hu y hy
    cases hs : IsPathSeparator .windows y with
    | false => rfl
    | true => rw [toUpper_sep u y hs hy] at hu; exact absurd hu (by decide)
  rcases s with _ | ⟨a, _ | ⟨b, _ | ⟨c, _ | ⟨d, _ | ⟨e, _ | ⟨f, _ | ⟨g, t⟩⟩⟩⟩⟩⟩⟩
  all_goals try (simp [pathHasPrefixFold] at h; done)
  simp only [pathHasPrefixFold, str, String.toList, List.zipWith_cons_cons, List.all_cons,
    Bool.and_eq_true] at h
  obtain ⟨⟨_, _, _, _, _, h4, h5, h6, _⟩, _⟩ := h
  simp only [show IsPathSeparator .windows 'U' = false from rfl,
    show IsPathSeparator .windows 'N' = false from rfl,
    show IsPathSeparator .windows 'C' = false from rfl, Bool.false_eq_true, if_false,
    decide_eq_true_eq, id] at h4 h5 h6
  have h456 : i = 4 ∨ i = 5 ∨ i = 6 := by omega
  rcases h456 with rfl | rfl | rfl
  · simp only [List.getElem?_cons_succ, List.getElem?_cons_zero, Option.some.injEq] at hx
    subst hx
    exact key 'U' rfl _ h4
  · simp only [List.getElem?_cons_succ, List.getElem?_cons_zero, Option.some.injEq] at hx
    subst hx
    exact key 'N' rfl _ h5
  · simp only [List.getElem?_cons_succ, List.getElem?_cons_zero, Option.some.injEq] at hx
    subst hx
    exact key 'C' rfl _ h6

/-- The length of a volume name that a separator follows does not depend on
what comes after that separator. -/
theorem volumeNameLen_stable (v : List Char) (c : Char) (rest q : List Char)
    (hv : v ≠ []) (hc : IsPathSeparator .windows c = true)
    (h : volumeNameLen .windows (v ++ c :: rest) = v.length) :
    volumeNameLen .windows (v ++ c :: q) = v.length := by
  obtain ⟨a, v1, rfl⟩ := List.exists_cons_of_ne_nil hv
  have hloc : ∀ pfx : List Char, pfx.length ≤ (a :: v1).length →
      pathHasPrefixFold (a :: v1 ++ c :: q) pfx = pathHasPrefixFold (a :: v1 ++ c :: rest) pfx := by
    intro pfx hp
    have := pathHasPrefixFold_local pfx (a :: v1 ++ [c]) q rest (by simp at hp ⊢; omega)
    simpa using this
  have hD : (2 ≤ (a :: v1 ++ c :: q).length ∧ ((a :: v1 ++ c :: q).drop 1).head? = some ':') ↔
      (2 ≤ (a :: v1 ++ c :: rest).length ∧ ((a :: v1 ++ c :: rest).drop 1).head? = some ':') := by
    cases v1 <;> simp
  have hZ : ((a :: v1 ++ c :: q).length = 0 ∨
        ((a :: v1 ++ c :: q).head?.map (IsPathSeparator .windows)) ≠ some true) ↔
      ((a :: v1 ++ c :: rest).length = 0 ∨
        ((a :: v1 ++ c :: rest).head?.map (IsPathSeparator .windows)) ≠ some true) := by
    simp
  have hW : (2 ≤ (a :: v1 ++ c :: q).length ∧
        (((a :: v1 ++ c :: q).drop 1).head?.map (IsPathSeparator .windows)) = some true) ↔
      (2 ≤ (a :: v1 ++ c :: rest).length ∧
        (((a :: v1 ++ c :: rest).drop 1).head?.map (IsPathSeparator .windows)) = some true) := by
    cases v1 <;> simp
  have hlen : ∀ r : List Char, (a :: v1 ++ c :: r).length = (a :: v1).length + 1 + r.length := by
    intro r; simp; omega
  unfold volumeNameLen at h ⊢
  simp only [] at h ⊢
  by_cases h1 : 2 ≤ (a :: v1 ++ c :: rest).length ∧ ((a :: v1 ++ c :: rest).drop 1).head? = some ':'
  · rw [if_pos h1] at h
    rw [if_pos (hD.mpr h1)]
    exact h
  rw [if_neg h1] at h
  rw [if_neg (fun hh => h1 (hD.mp hh))]
  by_cases h2 : (a :: v1 ++ c :: rest).length = 0 ∨
      ((a :: v1 ++ c :: rest).head?.map (IsPathSeparator .windows)) ≠ some true
  · rw [if_pos h2] at h
    simp at h
  rw [if_neg h2] at h
  rw [if_neg (fun hh => h2 (hZ.mp hh))]
  by_cases h3 : pathHasPrefixFold (a :: v1 ++ c :: rest) (str "\\\\.\\UNC") = true
  · -- a UNC device path
    rw [if_pos h3] at h
    have h8 : 8 ≤ (a :: v1).length := by
      unfold uncLen at h
      rw [hlen] at h
      split_ifs at h with h8
      · have := uncLenFrom_ge ((a :: v1 ++ c :: rest).drop 8) 8 0
        omega
      · omega
    have hdrop : ∀ r : List Char, (a :: v1 ++ c :: r).drop 8 = (a :: v1).drop 8 ++ c :: r :=
      fun r => List.drop_append_of_le_length h8
    rw [if_pos (by rw [hloc _ (by simp at h8 ⊢; omega)]; exact h3)]
    unfold uncLen at h ⊢
    rw [if_pos (by rw [hlen]; omega)] at h ⊢
    rw [hdrop] at h ⊢
    have hl : (a :: v1).length = 8 + ((a :: v1).drop 8).length := by
      rw [List.length_drop]; omega
    rw [hl] at h ⊢
    exact uncLenFrom_stable _ c rest q 8 0 h
  rw [if_neg h3] at h
  by_cases h4 : pathHasPrefixFold (a :: v1 ++ c :: rest) (str "\\\\.") = true ∨
      pathHasPrefixFold (a :: v1 ++ c :: rest) (str "\\\\?") = true ∨
      pathHasPrefixFold (a :: v1 ++ c :: rest) (str "\\??") = true
  · -- a device path
    rw [if_pos h4] at h
    have hl3 : (a :: v1 ++ c :: rest).length ≠ 3 := by
      intro h3l
      rw [if_pos h3l] at h
      rw [hlen] at h3l
      omega
    rw [if_neg hl3] at h
    have hP3 : 3 ≤ (a :: v1 ++ c :: rest).length := by
      rcases h4 with h4 | h4 | h4 <;>
        · simp only [pathHasPrefixFold, Bool.and_eq_true, decide_eq_true_eq] at h4
          exact h4.1.1
    have hsplit := List.takeWhile_append_dropWhile (fun c => !IsPathSeparator .windows c)
      ((a :: v1 ++ c :: rest).drop 4)
    have hdl : ((a :: v1 ++ c :: rest).drop 4).length = (a :: v1 ++ c :: rest).length - 4 :=
      List.length_drop _ _
    cases hdw : ((a :: v1 ++ c :: rest).drop 4).dropWhile
        (fun c => !IsPathSeparator .windows c) with
    | nil =>
      rw [hdw] at h
      simp only [] at h
      rw [hlen] at h
      omega
    | cons x r =>
      rw [hdw] at h hsplit
      simp only [] at h
      have hsl := congrArg List.length hsplit
      rw [List.length_append, List.length_cons, hdl] at hsl
      have h4v : 4 ≤ (a :: v1).length := by omega
      have hdrop : ∀ r : List Char, (a :: v1 ++ c :: r).drop 4 = (a :: v1).drop 4 ++ c :: r :=
        fun r => List.drop_append_of_le_length h4v
      rw [hdrop] at hsplit
      have hr : (x :: r).length = (c :: rest).length := by
        rw [hlen] at h
        simp only [List.length_cons]
        rw [hlen] at hsl
        omega
      obtain ⟨htw, _⟩ := List.append_inj' hsplit hr
      have hplain : ∀ y ∈ (a :: v1).drop 4, (!IsPathSeparator .windows y) = true := by
        intro y hy
        rw [← htw] at hy
        exact List.mem_takeWhile_imp (p := fun c => !IsPathSeparator .windows c) hy
      have hnotU : ¬ pathHasPrefixFold (a :: v1 ++ c :: q) (str "\\\\.\\UNC") = true := by
        intro hU
        by_cases h7 : 7 ≤ (a :: v1).length
        · rw [hloc (str "\\\\.\\UNC") h7] at hU
          exact h3 hU
        · have := unc_prefix_plain _ hU (a :: v1).length h4v (by omega) c
            (by rw [List.getElem?_append_right (Nat.le_refl _)]; simp)
          rw [hc] at this
          exact absurd this (by decide)
      rw [if_neg hnotU]
      have h4q : pathHasPrefixFold (a :: v1 ++ c :: q) (str "\\\\.") = true ∨
          pathHasPrefixFold (a :: v1 ++ c :: q) (str "\\\\?") = true ∨
          pathHasPrefixFold (a :: v1 ++ c :: q) (str "\\??") = true := by
        rw [hloc _ (by simp at h4v ⊢; omega), hloc _ (by simp at h4v ⊢; omega),
          hloc _ (by simp at h4v ⊢; omega)]
        exact h4
      rw [if_pos h4q, if_neg (by rw [hlen]; omega), hdrop,
        List.dropWhile_append_of_pos hplain]
      rw [List.dropWhile_cons_of_neg (by simp [hc])]
      simp only []
      rw [hlen]
      omega
  rw [if_neg h4] at h
  by_cases h5 : 2 ≤ (a :: v1 ++ c :: rest).length ∧
      (((a :: v1 ++ c :: rest).drop 1).head?.map (IsPathSeparator .windows)) = some true
  · -- a UNC path
    rw [if_pos h5] at h
    unfold uncLen at h
    rw [if_pos h5.1] at h
    have h3v : 3 ≤ (a :: v1).length := by
      rcases v1 with _ | ⟨b, _ | ⟨d, v3⟩⟩
      · have e1 : ([a] ++ c :: rest).drop 2 = rest := rfl
        rw [e1] at h
        have := uncLenFrom_ge rest 2 0
        simp only [List.length_cons, List.length_nil] at h
        omega
      · have e1 : ([a, b] ++ c :: rest).drop 2 = c :: rest := rfl
        rw [e1] at h
        unfold uncLenFrom at h
        have := uncLenFrom_ge rest (2 + 1) (0 + 1)
        have := uncLenFrom_ge rest (2 + 1) 0
        have hl2 : ([a, b] : List Char).length = 2 := rfl
        split_ifs at h <;> omega
      · simp
    have hdrop : ∀ r : List Char, (a :: v1 ++ c :: r).drop 2 = (a :: v1).drop 2 ++ c :: r :=
      fun r => List.drop_append_of_le_length (by omega)
    have h4q : ¬ (pathHasPrefixFold (a :: v1 ++ c :: q) (str "\\\\.") = true ∨
          pathHasPrefixFold (a :: v1 ++ c :: q) (str "\\\\?") = true ∨
          pathHasPrefixFold (a :: v1 ++ c :: q) (str "\\??") = true) := by
      rw [hloc _ (by simp at h3v ⊢; omega), hloc _ (by simp at h3v ⊢; omega),
        hloc _ (by simp at h3v ⊢; omega)]
      exact h4
    have hnotU : ¬ pathHasPrefixFold (a :: v1 ++ c :: q) (str "\\\\.\\UNC") = true :=
      fun hU => h4q (Or.inl (unc_prefix_dot _ hU))
    rw [if_neg hnotU, if_neg h4q, if_pos (hW.mpr h5)]
    unfold uncLen
    rw [if_pos (by rw [hlen]; omega)]
    rw [hdrop] at h ⊢
    have hl : (a :: v1).length = 2 + ((a :: v1).drop 2).length := by
      rw [List.length_drop]; omega
    rw [hl] at h ⊢
    exact uncLenFrom_stable _ c rest q 2 0 h
  · rw [if_neg h5] at h
    simp at h

theorem sep_FromSlash (c : Char) :
    IsPathSeparator .windows (if c = '/' then '\\' else c) = IsPathSeparator .windows c := by
  by_cases h : c = '/'
  · subst h; rfl
  · rw [if_neg h]

theorem uncLenFrom_FromSlash (l : List Char) : ∀ i cnt,
    uncLenFrom (l.map (fun c => if c = '/' then '\\' else c)) i cnt = uncLenFrom l i cnt := by
  induction l with
  | nil => intro i cnt; rfl
  | cons x l ih =>
    intro i cnt
    simp only [List.map_cons, uncLenFrom, sep_FromSlash, ih]

theorem pathHasPrefixFold_FromSlash (s pfx : List Char) :
    pathHasPrefixFold (s.map (fun c => if c = '/' then '\\' else c)) pfx =
      pathHasPrefixFold s pfx := by
  have hel : ∀ p c : Char,
      (if IsPathSeparator .windows p = true
        then IsPathSeparator .windows (if c = '/' then '\\' else c)
        else decide (p.toUpper = (if c = '/' then '\\' else c).toUpper)) =
      (if IsPathSeparator .windows p = true then IsPathSeparator .windows c
        else decide (p.toUpper = c.toUpper)) := by
    intro p c
    by_cases hp : IsPathSeparator .windows p = true
    · rw [if_pos hp, if_pos hp, sep_FromSlash]
    · rw [if_neg hp, if_neg hp]
      by_cases hc : c = '/'
      · subst hc
        rw [if_pos rfl]
        have h1 : ¬ p.toUpper = ('\\' : Char).toUpper := fun h => hp (toUpper_sep p '\\' rfl h)
        have h2 : ¬ p.toUpper = ('/' : Char).toUpper := fun h => hp (toUpper_sep p '/' rfl h)
        simp only [h1, h2]
      · rw [if_neg hc]
  unfold pathHasPrefixFold
  rw [List.zipWith_map_right, List.length_map, ← List.map_drop]
  simp only [hel]
  cases s.drop pfx.length with
  | nil => rfl
  | cons x t => simp only [List.map_cons, sep_FromSlash]

/-- The length of the volume name does not depend on which separators are
written. -/
theorem volumeNameLen_FromSlash (p : List Char) :
    volumeNameLen .windows (filepath.FromSlash .windows p) = volumeNameLen .windows p := by
  have hcolon : ∀ o : Option Char,
      o.map (fun c => if c = '/' then '\\' else c) = some ':' ↔ o = some ':' := by
    intro o
    cases o with
    | none => simp
    | some x =>
      simp only [Option.map_some', Option.some.injEq]
      by_cases hx : x = '/'
      · subst hx; decide
      · rw [if_neg hx]
  have hsep : ∀ o : Option Char,
      (o.map (fun c => if c = '/' then '\\' else c)).map (IsPathSeparator .windows) =
        o.map (IsPathSeparator .windows) := by
    intro o
    cases o with
    | none => rfl
    | some x => simp only [Option.map_some', sep_FromSlash]
  have hdw : ∀ l : List Char,
      ((l.map (fun c => if c = '/' then '\\' else c)).dropWhile
          (fun c => !IsPathSeparator .windows c)) =
        (l.dropWhile (fun c => !IsPathSeparator .windows c)).map
          (fun c => if c = '/' then '\\' else c) := by
    intro l
    induction l with
    | nil => rfl
    | cons x l ih =>
      simp only [List.map_cons, List.dropWhile_cons, sep_FromSlash]
      by_cases hx : (!IsPathSeparator .windows x) = true
      · rw [if_pos hx, if_pos hx]
        exact ih
      · rw [if_neg hx, if_neg hx, List.map_cons]
  unfold volumeNameLen filepath.FromSlash
  simp only [List.length_map, ← List.map_drop, List.head?_map, hcolon, hsep,
    pathHasPrefixFold_FromSlash, uncLen, uncLenFrom_FromSlash, hdw]
  cases (p.drop 4).dropWhile (fun c => !IsPathSeparator .windows c) <;>
    simp only [List.map_nil, List.map_cons, List.length_map]

/-! ## `filepath.Clean` of a path that starts at the root of a volume -/

theorem segs_cons (goos : GOOS) (c : Char) (s : List Char) (hs : IsPathSeparator goos c = false) :
    segs goos (c :: s) = (c :: (segs goos s).headD []) :: (segs goos s).tail := by
  have h : segs goos (c :: s) = match segs goos s with
      | [] => [[c]]
      | x :: xs => (c :: x) :: xs := by
    simp [segs, hs]
  rw [h]
  cases segs goos s <;> rfl

theorem segs_append_sep (goos : GOOS) (x : Char) (hx : IsPathSeparator goos x = true)
    (a b : List Char) : segs goos (a ++ x :: b) = segs goos a ++ segs goos b := by
  induction a with
  | nil => simp [segs, hx]
  | cons c a ih =>
    by_cases hs : IsPathSeparator goos c = true
    · simp [segs, hs, ih]
    · cases h : segs goos a with
      | nil => exact absurd h (segs_ne_nil goos a)
      | cons u v =>
        have hs' : IsPathSeparator goos c = false := by simpa using hs
        rw [List.cons_append, segs_cons _ _ _ hs', segs_cons _ _ _ hs', ih, h]
        rfl

theorem segs_plain (goos : GOOS) (s : List Char) (h : ∀ c ∈ s, IsPathSeparator goos c = false) :
    segs goos s = [s] := by
  induction s with
  | nil => rfl
  | cons c s ih =>
    have hc := h c (List.mem_cons_self _ _)
    simp [segs, hc, ih (fun d hd => h d (List.mem_cons_of_mem _ hd))]

theorem segs_sepfree (goos : GOOS) (p : List Char) :
    ∀ s ∈ segs goos p, ∀ c ∈ s, IsPathSeparator goos c = false := by
  induction p with
  | nil => intro s hs c hc; simp [segs] at hs; subst hs; simp at hc
  | cons a p ih =>
    intro s hs c hc
    by_cases ha : IsPathSeparator goos a = true
    · rw [segs_sep goos a p ha] at hs
      rcases List.mem_cons.mp hs with rfl | hs
      · simp at hc
      · exact ih s hs c hc
    · have ha' : IsPathSeparator goos a = false := by simpa using ha
      rw [segs_cons goos a p ha'] at hs
      cases h : segs goos p with
      | nil => exact absurd h (segs_ne_nil goos p)
      | cons u v =>
        rw [h] at hs ih
        simp only [List.headD_cons, List.tail_cons] at hs
        rcases List.mem_cons.mp hs with rfl | hs
        · rcases List.mem_cons.mp hc with rfl | hc
          · exact ha'
          · exact ih u (List.mem_cons_self _ _) c hc
        · exact ih s (List.mem_cons_of_mem _ hs) c hc

theorem resolveStep_plain (st : List (List Char)) (s : List Char) (h1 : s ≠ [])
    (h2 : s ≠ ['.']) (h3 : s ≠ ['.', '.']) : resolveStep st s = s :: st := by
  simp [resolveStep, h1, h2, h3]

theorem resolveStep_keeps_plain (goos : GOOS) (st : List (List Char)) (s : List Char)
    (hst : ∀ x ∈ st, plainElem goos x) (hs : ∀ c ∈ s, IsPathSeparator goos c = false) :
    ∀ x ∈ resolveStep st s, plainElem goos x := by
  unfold resolveStep
  split_ifs with h1 h2
  · exact hst
  · intro x hx
    exact hst x (List.mem_of_mem_tail hx)
  · intro x hx
    rcases List.mem_cons.mp hx with rfl | hx
    · exact ⟨fun h => h1 (Or.inl h), hs⟩
    · exact hst x hx

theorem foldl_keeps_plain (goos : GOOS) (l : List (List Char))
    (hl : ∀ s ∈ l, ∀ c ∈ s, IsPathSeparator goos c = false) :
    ∀ st : List (List Char), (∀ x ∈ st, plainElem goos x) →
      ∀ x ∈ l.foldl resolveStep st, plainElem goos x := by
  induction l with
  | nil => intro st hst; exact hst
  | cons s l ih =>
    intro st hst
    rw [List.foldl_cons]
    exact ih (fun t ht => hl t (List.mem_cons_of_mem _ ht)) _
      (resolveStep_keeps_plain goos st s hst (hl s (List.mem_cons_self _ _)))

theorem outOf_cons (goos : GOOS) (s : List Char) (t : List (List Char)) :
    outOf goos (s :: t) =
      (if t = [] then [Separator goos] else outOf goos t ++ [Separator goos]) ++ s := rfl

theorem outOf_no_slash (st : List (List Char)) (hst : ∀ x ∈ st, plainElem .windows x) :
    '/' ∉ outOf .windows st := by
  induction st with
  | nil => simp [outOf, Separator]
  | cons s t ih =>
    have hs := (hst s (List.mem_cons_self _ _)).2
    have ht := ih (fun x hx => hst x (List.mem_cons_of_mem _ hx))
    have hs' : '/' ∉ s := fun h => by
      have := hs '/' h
      simp [IsPathSeparator] at this
    rw [outOf_cons]
    split_ifs <;> simp [Separator, hs', ht]

theorem FromSlash_id (l : List Char) (h : '/' ∉ l) : filepath.FromSlash .windows l = l := by
  unfold filepath.FromSlash
  simp only []
  conv_rhs => rw [← List.map_id l]
  apply List.map_congr_left
  intro c hc
  have : c ≠ '/' := fun hh => h (hh ▸ hc)
  simp [this]

theorem FromSlash_append (goos : GOOS) (a b : List Char) :
    filepath.FromSlash goos (a ++ b) = filepath.FromSlash goos a ++ filepath.FromSlash goos b := by
  cases goos with
  | unix => rfl
  | windows => simp [filepath.FromSlash]

theorem FromSlash_length (goos : GOOS) (a : List Char) :
    (filepath.FromSlash goos a).length = a.length := by
  cases goos with
  | unix => rfl
  | windows => simp [filepath.FromSlash]

/-- A path that starts at a root is its volume name, a separator and a rest;
the length of the volume name does not depend on the rest, nor on how its
separators are written. -/
theorem root_split (goos : GOOS) (p : List Char) (h : startsAtRoot goos p = true) :
    ∃ v c rest, p = v ++ c :: rest ∧ IsPathSeparator goos c = true ∧
      (goos = .unix ∨ v.length ≠ 0) ∧
      (∀ q, volumeNameLen goos (v ++ c :: q) = v.length) ∧
      filepath.VolumeName goos p = filepath.FromSlash goos v ∧
      (∀ q, startsAtRoot goos (filepath.FromSlash goos v ++ Separator goos :: q) = true ∧
        filepath.VolumeName goos (filepath.FromSlash goos v ++ Separator goos :: q) =
          filepath.FromSlash goos v) := by
  cases goos with
  | unix =>
    cases p with
    | nil => simp [startsAtRoot] at h
    | cons c rest =>
      refine ⟨[], c, rest, rfl, by simpa [startsAtRoot, volumeNameLen, IsPathSeparator] using h,
        Or.inl rfl, fun q => rfl, rfl, fun q => ⟨rfl, rfl⟩⟩
  | windows =>
    unfold startsAtRoot at h
    cases hd : p.drop (volumeNameLen .windows p) with
    | nil => rw [hd] at h; simp at h
    | cons c rest =>
      rw [hd] at h
      simp only [Bool.and_eq_true, bne_iff_ne, ne_eq] at h
      obtain ⟨hn, hc⟩ := h
      have hp : p = p.take (volumeNameLen .windows p) ++ c :: rest := by
        rw [← hd, List.take_append_drop]
      have hlt : volumeNameLen .windows p < p.length := by
        have := congrArg List.length hd
        rw [List.length_drop, List.length_cons] at this
        omega
      have hvl : (p.take (volumeNameLen .windows p)).length = volumeNameLen .windows p := by
        rw [List.length_take]; omega
      have hvne : p.take (volumeNameLen .windows p) ≠ [] := by
        intro h0
        rw [h0] at hvl
        exact hn hvl.symm
      have hstab : ∀ q, volumeNameLen .windows (p.take (volumeNameLen .windows p) ++ c :: q) =
          (p.take (volumeNameLen .windows p)).length := by
        intro q
        apply volumeNameLen_stable _ c rest q hvne hc
        rw [← hp, hvl]
      refine ⟨p.take (volumeNameLen .windows p), c, rest, hp, hc, Or.inr (by rw [hvl]; exact hn),
        hstab, rfl, ?_⟩
      intro q
      have hfc : filepath.FromSlash .windows [c] = ['\\'] := by
        simp only [IsPathSeparator, Bool.or_eq_true, beq_iff_eq] at hc
        rcases hc with rfl | rfl <;> rfl
      have h1 : volumeNameLen .windows
          (filepath.FromSlash .windows (p.take (volumeNameLen .windows p)) ++ '\\' ::
            filepath.FromSlash .windows q) =
          (filepath.FromSlash .windows (p.take (volumeNameLen .windows p))).length := by
        have := volumeNameLen_FromSlash (p.take (volumeNameLen .windows p) ++ c :: q)
        rw [hstab q, show c :: q = [c] ++ q from rfl, FromSlash_append, FromSlash_append,
          hfc] at this
        rw [FromSlash_length]
        exact this
      have hne2 : filepath.FromSlash .windows (p.take (volumeNameLen .windows p)) ≠ [] := by
        intro h0
        have := FromSlash_length .windows (p.take (volumeNameLen .windows p))
        rw [h0, hvl] at this
        exact hn this.symm
      have h2 := volumeNameLen_stable _ '\\' (filepath.FromSlash .windows q) q hne2 rfl h1
      refine ⟨?_, ?_⟩
      · unfold startsAtRoot
        simp only [Separator]
        rw [h2, List.drop_left']
        · simp only [Bool.and_eq_true, bne_iff_ne, ne_eq]
          refine ⟨?_, rfl⟩
          rw [FromSlash_length, hvl]
          exact hn
        · rfl
      · unfold filepath.VolumeName
        simp only [Separator]
        rw [h2, List.take_left']
        · simp only [filepath.FromSlash, List.map_map]
          apply List.map_congr_left
          intro x _
          by_cases hx : x = '/'
          · subst hx; rfl
          · simp [hx]
        · rfl

/-- `Clean` of a path that starts at a root: the volume name, and after it
the elements kept of the rest, each after a separator. -/
theorem Clean_root (goos : GOOS) (vol : List Char) (c : Char) (p : List Char)
    (hc : IsPathSeparator goos c = true)
    (hpost : goos = .unix ∨ vol.length ≠ 0)
    (hvol : volumeNameLen goos (vol ++ c :: p) = vol.length) :
    filepath.Clean goos (vol ++ c :: p) =
      filepath.FromSlash goos vol ++ outOf goos (kept goos p) := by
  rw [Clean_eq_cleanText goos _ (by rw [hvol]; exact hpost) (by rw [hvol]; simp)]
  rw [hvol, List.take_left', List.drop_left', cleanText_rooted goos c p hc, FromSlash_append]
  · congr 1
    cases goos with
    | unix => rfl
    | windows =>
      apply FromSlash_id
      apply outOf_no_slash
      exact foldl_keeps_plain .windows _ (segs_sepfree .windows p) [] (by simp)
  · rfl
  · rfl

/-! ## `filepath.Join` below a base directory -/

theorem joinLoop_img (es : List (List Char)) (b : List Char) (lastChar : Char) (hb : b ≠ []) :
    joinLoop (str "img" :: es) b lastChar = joinLoop es (b ++ glue lastChar ++ str "img") 'g' := by
  have hlen : b.length ≠ 0 := fun h => hb (List.length_eq_zero.mp h)
  have hd : (str "img").dropWhile (IsPathSeparator .windows) = str "img" := by decide
  have hq : (str "??").isPrefixOf (str "img") = false := by decide
  have hg : ∀ c : Char, (str "img").getLastD c = 'g' := fun c => rfl
  rw [joinLoop]
  simp only [hd, hq, hg, hlen, if_false, Bool.false_eq_true, false_and, and_false]
  unfold glue
  by_cases h1 : IsPathSeparator .windows lastChar = true
  · rw [if_pos h1, if_pos (Or.inl h1), List.append_nil]
  · by_cases h2 : lastChar = ':'
    · rw [if_neg h1, if_pos h2, if_pos (Or.inr h2), List.append_nil]
    · rw [if_neg h1, if_neg h2, if_neg (not_or.mpr ⟨h1, h2⟩)]

theorem joinLoop_last (icon b : List Char) (hb : b ≠ []) :
    joinLoop [icon] b 'g' = b ++ '\\' :: icon := by
  have hlen : b.length ≠ 0 := fun h => hb (List.length_eq_zero.mp h)
  have hgs : ¬ (IsPathSeparator .windows 'g' = true) := by decide
  have hgc : ¬ (('g' : Char) = ':') := by decide
  rw [joinLoop]
  simp only [hlen, if_false]
  rw [if_neg hgs, if_neg hgc, joinLoop]
  simp

theorem joinedImg_windows (baseDir : List Char) :
    joinedImg .windows baseDir =
      baseDir ++ glue (baseDir.getLastD (Char.ofNat 0)) ++ str "img" := rfl

theorem Join_two (goos : GOOS) (baseDir : List Char) (hB : baseDir ≠ []) :
    filepath.Join goos [baseDir, str "img"] = filepath.Clean goos (joinedImg goos baseDir) := by
  cases goos with
  | unix => simp [filepath.Join, joinUnix, strings.Join, List.intercalate, hB, joinedImg]
  | windows =>
    have h0 : joinLoop [baseDir, str "img"] [] (Char.ofNat 0) =
        joinLoop [str "img"] baseDir (baseDir.getLastD (Char.ofNat 0)) := by
      rw [joinLoop]; simp
    simp only [filepath.Join, joinWindows]
    rw [h0, joinLoop_img _ _ _ hB, joinLoop, joinedImg_windows]
    rw [if_neg (by simp)]

theorem Join_three (goos : GOOS) (baseDir icon : List Char) (hB : baseDir ≠ []) :
    filepath.Join goos [baseDir, str "img", icon] =
      filepath.Clean goos (joinedImg goos baseDir ++ Separator goos :: icon) := by
  cases goos with
  | unix =>
    simp [filepath.Join, joinUnix, strings.Join, List.intercalate, hB, joinedImg, Separator]
  | windows =>
    have h0 : joinLoop [baseDir, str "img", icon] [] (Char.ofNat 0) =
        joinLoop [str "img", icon] baseDir (baseDir.getLastD (Char.ofNat 0)) := by
      rw [joinLoop]; simp
    simp only [filepath.Join, joinWindows]
    rw [h0, joinLoop_img _ _ _ hB, joinLoop_last _ _ (by simp), joinedImg_windows]
    rw [if_neg (by simp)]
    rfl

theorem outOf_head (goos : GOOS) (st : List (List Char)) :
    ∃ t, outOf goos st = Separator goos :: t := by
  induction st with
  | nil => exact ⟨[], rfl⟩
  | cons s t ih =>
    rw [outOf_cons]
    split_ifs with h
    · exact ⟨s, rfl⟩
    · obtain ⟨u, hu⟩ := ih
      exact ⟨u ++ [Separator goos] ++ s, by rw [hu]; simp⟩

theorem outOf_prefix_append (goos : GOOS) (st : List (List Char)) (hst : st ≠ []) :
    ∀ T : List (List Char), T ≠ [] →
      (outOf goos st ++ [Separator goos]) <+: outOf goos (T ++ st) := by
  intro T
  induction T with
  | nil => intro h; exact absurd rfl h
  | cons s T ih =>
    intro _
    by_cases hT : T = []
    · subst hT
      rw [List.singleton_append, outOf_cons, if_neg hst]
      exact List.prefix_append _ _
    · have h1 := ih hT
      have h2 : T ++ st ≠ [] := by simp [hT]
      rw [List.cons_append, outOf_cons, if_neg h2]
      exact h1.trans ((List.prefix_append _ _).trans (List.prefix_append _ _))

/-- A name that stays below adds at least one element to the stack and
removes none that was there. -/
theorem foldl_below (l : List (List Char)) :
    ∀ (depth : Nat) (T st : List (List Char)), T.length = depth → belowFrom depth l = true →
      ∃ T2, T2 ≠ [] ∧ l.foldl resolveStep (T ++ st) = T2 ++ st := by
  induction l with
  | nil =>
    intro depth T st hT hb
    simp only [belowFrom, decide_eq_true_eq] at hb
    exact ⟨T, fun h => by rw [h] at hT; simp at hT; omega, rfl⟩
  | cons s l ih =>
    intro depth T st hT hb
    simp only [belowFrom] at hb
    rw [List.foldl_cons]
    split_ifs at hb with h1 h2
    · have : resolveStep (T ++ st) s = T ++ st := by simp [resolveStep, h1]
      rw [this]
      exact ih depth T st hT hb
    · cases depth with
      | zero => simp at hb
      | succ d =>
        cases T with
        | nil => simp at hT
        | cons t T1 =>
          have : resolveStep (t :: T1 ++ st) s = T1 ++ st := by simp [resolveStep, h2]
          rw [this]
          exact ih d T1 st (by simpa using hT) hb
    · have : resolveStep (T ++ st) s = (s :: T) ++ st := by simp [resolveStep, h1, h2]
      rw [this]
      exact ih (depth + 1) (s :: T) st (by simp [hT]) hb

theorem split_last_sep (goos : GOOS) (q : List Char) :
    (∀ c ∈ q, IsPathSeparator goos c = false) ∨
      ∃ a x b, q = a ++ x :: b ∧ IsPathSeparator goos x = true ∧
        ∀ c ∈ b, IsPathSeparator goos c = false := by
  induction q with
  | nil => left; simp
  | cons c q ih =>
    rcases ih with h | ⟨a, x, b, rfl, hx, hb⟩
    · by_cases hc : IsPathSeparator goos c = true
      · right; exact ⟨[], c, q, rfl, hc, h⟩
      · left
        intro d hd
        rcases List.mem_cons.mp hd with rfl | hd
        · simpa using hc
        · exact h d hd
    · right; exact ⟨c :: a, x, b, rfl, hx, hb⟩

theorem img_sepfree (goos : GOOS) : ∀ c ∈ str "img", IsPathSeparator goos c = false := by
  cases goos <;> decide

/-- The last element kept of a path that ends in `img` is the element that
ends in `img`: the stack is not empty. -/
theorem kept_img (goos : GOOS) (q : List Char) :
    ∃ X S, kept goos (q ++ str "img") = X :: S := by
  have hword : ∀ (b : List Char) (st : List (List Char)),
      resolveStep st (b ++ str "img") = (b ++ str "img") :: st := by
    intro b st
    apply resolveStep_plain
    · simp
    · intro h; have := congrArg List.length h; simp at this
    · intro h; have := congrArg List.length h; simp at this
  rcases split_last_sep goos q with h | ⟨a, x, b, rfl, hx, hb⟩
  · refine ⟨q ++ str "img", [], ?_⟩
    have hs : ∀ c ∈ q ++ str "img", IsPathSeparator goos c = false := by
      intro c hc
      rcases List.mem_append.mp hc with hc | hc
      · exact h c hc
      · exact img_sepfree goos c hc
    rw [kept, segs_plain goos _ hs, List.foldl_cons, List.foldl_nil, hword]
  · have hs : ∀ c ∈ b ++ str "img", IsPathSeparator goos c = false := by
      intro c hc
      rcases List.mem_append.mp hc with hc | hc
      · exact hb c hc
      · exact img_sepfree goos c hc
    refine ⟨b ++ str "img", (segs goos a).foldl resolveStep [], ?_⟩
    rw [kept, List.append_assoc, List.cons_append, segs_append_sep goos x hx,
      List.foldl_append, segs_plain goos _ hs, List.foldl_cons, List.foldl_nil, hword]

/-- After a separator, or at the start, `img` is the last element kept. -/
theorem kept_img_top (goos : GOOS) (q : List Char)
    (hq : q = [] ∨ ∃ a x, q = a ++ [x] ∧ IsPathSeparator goos x = true) :
    ∃ S, kept goos (q ++ str "img") = str "img" :: S := by
  have himg : ∀ st : List (List Char), resolveStep st (str "img") = str "img" :: st :=
    fun st => resolveStep_plain _ _ (by decide) (by decide) (by decide)
  rcases hq with rfl | ⟨a, x, rfl, hx⟩
  · refine ⟨[], ?_⟩
    rw [kept, List.nil_append, segs_plain goos _ (img_sepfree goos), List.foldl_cons,
      List.foldl_nil, himg]
  · refine ⟨kept goos a, ?_⟩
    rw [kept, List.append_assoc, List.singleton_append, segs_append_sep goos x hx,
      List.foldl_append, segs_plain goos _ (img_sepfree goos), List.foldl_cons, List.foldl_nil,
      himg]
    rfl

theorem joinedImg_root (goos : GOOS) (vol : List Char) (c : Char) (b0 : List Char)
    (hc : IsPathSeparator goos c = true) :
    ∃ q, joinedImg goos (vol ++ c :: b0) = vol ++ c :: (q ++ str "img") ∧
      ((goos = .windows → (vol ++ c :: b0).getLast? ≠ some ':') →
        q = [] ∨ ∃ a x, q = a ++ [x] ∧ IsPathSeparator goos x = true) := by
  cases goos with
  | unix => exact ⟨b0 ++ ['/'], by simp [joinedImg], fun _ => Or.inr ⟨b0, '/', rfl, rfl⟩⟩
  | windows =>
    refine ⟨b0 ++ glue ((vol ++ c :: b0).getLastD (Char.ofNat 0)), by
      rw [joinedImg_windows]; simp, ?_⟩
    intro hcolon
    have hcolon := hcolon rfl
    have hlast : (vol ++ c :: b0).getLast? = some ((c :: b0).getLast (List.cons_ne_nil _ _)) := by
      rw [List.getLast?_append_of_ne_nil _ (List.cons_ne_nil _ _), List.getLast?_eq_getLast]
    rw [List.getLastD_eq_getLast?, hlast, Option.getD_some]
    rw [hlast] at hcolon
    unfold glue
    by_cases hs : IsPathSeparator .windows ((c :: b0).getLast (List.cons_ne_nil _ _)) = true
    · rw [if_pos (Or.inl hs), List.append_nil]
      by_cases hb : b0 = []
      · exact Or.inl hb
      · right
        refine ⟨b0.dropLast, b0.getLast hb, (List.dropLast_append_getLast hb).symm, ?_⟩
        rw [List.getLast_cons hb] at hs
        exact hs
    · rw [if_neg (not_or.mpr ⟨hs, fun h => hcolon (by rw [h])⟩)]
      exact Or.inr ⟨b0, '\\', rfl, rfl⟩

theorem startsAtRoot_ne_nil (goos : GOOS) (p : List Char) (h : startsAtRoot goos p = true) :
    p ≠ [] := by
  intro h0
  rw [h0] at h
  cases goos <;> simp [startsAtRoot] at h

/-- Below a base directory that starts at a root: the join with `img` is the
volume name and a non-empty stack of elements, whose last is `img` unless the
base directory ends in a colon on `windows`, and the join with `img` and an
icon name is what the elements of the name make of that stack. -/
theorem Join_img_forms (goos : GOOS) (baseDir : List Char)
    (habs : startsAtRoot goos baseDir = true) :
    ∃ X S, (∀ x ∈ X :: S, plainElem goos x) ∧
      filepath.Join goos [baseDir, str "img"] =
        filepath.VolumeName goos baseDir ++ outOf goos (X :: S) ∧
      (∀ icon, filepath.Join goos [baseDir, str "img", icon] =
        filepath.VolumeName goos baseDir ++
          outOf goos ((segs goos icon).foldl resolveStep (X :: S))) ∧
      ((goos = .windows → baseDir.getLast? ≠ some ':') → X = str "img") := by
  obtain ⟨v, c, b0, hsplit, hc, hpost, hvol, hname, _⟩ := root_split goos baseDir habs
  have hB : baseDir ≠ [] := startsAtRoot_ne_nil goos baseDir habs
  obtain ⟨q, hq, hqshape⟩ := joinedImg_root goos v c b0 hc
  rw [← hsplit] at hq hqshape
  obtain ⟨X, S, hXS⟩ := kept_img goos q
  refine ⟨X, S, ?_, ?_, ?_, ?_⟩
  · rw [← hXS]
    exact foldl_keeps_plain goos _ (segs_sepfree goos _) [] (by simp)
  · rw [Join_two goos baseDir hB, hq, Clean_root goos _ c _ hc hpost (hvol _), hXS, hname]
  · intro icon
    rw [Join_three goos baseDir icon hB, hq]
    have : v ++ c :: (q ++ str "img") ++ Separator goos :: icon =
        v ++ c :: ((q ++ str "img") ++ Separator goos :: icon) := by simp
    rw [this, Clean_root goos _ c _ hc hpost (hvol _), kept,
      segs_append_sep goos _ (sep_sep goos), List.foldl_append]
    rw [show (segs goos (q ++ str "img")).foldl resolveStep [] = kept goos (q ++ str "img") from rfl,
      hXS, hname]
  · intro hcolon
    obtain ⟨S2, hS2⟩ := kept_img_top goos q (hqshape hcolon)
    rw [hXS] at hS2
    exact (List.cons.inj hS2).1

/-- Below a base directory that starts at a root, every icon path starts at
the root of the same volume. -/
theorem Join_img_rooted (goos : GOOS) (baseDir icon : List Char)
    (habs : startsAtRoot goos baseDir = true) :
    startsAtRoot goos (filepath.Join goos [baseDir, str "img", icon]) = true ∧
      filepath.VolumeName goos (filepath.Join goos [baseDir, str "img", icon]) =
        filepath.VolumeName goos baseDir := by
  obtain ⟨X, S, _, _, h3, _⟩ := Join_img_forms goos baseDir habs
  obtain ⟨v, _, _, _, _, _, _, hname, hroot⟩ := root_split goos baseDir habs
  obtain ⟨t, ht⟩ := outOf_head goos ((segs goos icon).foldl resolveStep (X :: S))
  rw [h3 icon, ht, hname]
  exact hroot t

/-- An icon name that stays below is joined to a path below the `img`
directory of a base directory that starts at a root. -/
theorem Join_img_below (goos : GOOS) (baseDir icon : List Char)
    (habs : startsAtRoot goos baseDir = true) (hb : staysBelow goos icon = true) :
    (filepath.Join goos [baseDir, str "img"] ++ [Separator goos]) <+:
      filepath.Join goos [baseDir, str "img", icon] := by
  obtain ⟨X, S, _, h2, h3, _⟩ := Join_img_forms goos baseDir habs
  obtain ⟨T, hT, hfold⟩ := foldl_below (segs goos icon) 0 [] (X :: S) rfl hb
  rw [h2, h3 icon, List.append_assoc, List.prefix_append_right_inj]
  rw [List.nil_append] at hfold
  rw [hfold]
  exact outOf_prefix_append goos (X :: S) (List.cons_ne_nil _ _) T hT

/-- An empty last element is dropped by `Join` below a base directory that
starts at a root. -/
theorem Join_img_empty_root (goos : GOOS) (baseDir : List Char)
    (habs : startsAtRoot goos baseDir = true) :
    filepath.Join goos [baseDir, str "img", []] = filepath.Join goos [baseDir, str "img"] := by
  obtain ⟨X, S, _, h2, h3, _⟩ := Join_img_forms goos baseDir habs
  rw [h2, h3 []]
  simp [segs, resolveStep]

/-- An empty last element is dropped by the `unix` `Join`, whatever the base
directory. -/
theorem Join_img_empty_unix (baseDir : List Char) :
    filepath.Join .unix [baseDir, str "img", []] = filepath.Join .unix [baseDir, str "img"] := by
  have hcl : ∀ p : List Char, p ≠ [] →
      filepath.Clean .unix (p ++ ['/']) = filepath.Clean .unix p := by
    intro p hp
    rw [Clean_eq_cleanText .unix _ (Or.inl rfl) (by simp [volumeNameLen]),
      Clean_eq_cleanText .unix _ (Or.inl rfl) (by simpa [volumeNameLen] using hp)]
    simp only [volumeNameLen, List.take_zero, List.drop_zero, List.nil_append]
    rw [cleanText_append_sep .unix '/' (by decide) p hp]
  by_cases hb : baseDir = []
  · subst hb
    have h1 : filepath.Join .unix [[], str "img", []] = filepath.Clean .unix (str "img" ++ ['/']) := by
      simp [filepath.Join, joinUnix, strings.Join, List.intercalate]
    have h2 : filepath.Join .unix [[], str "img"] = filepath.Clean .unix (str "img") := by
      simp [filepath.Join, joinUnix, strings.Join, List.intercalate]
    rw [h1, h2, hcl _ (by decide)]
  · have h1 : filepath.Join .unix [baseDir, str "img", []] =
        filepath.Clean .unix ((baseDir ++ '/' :: str "img") ++ ['/']) := by
      simp [filepath.Join, joinUnix, strings.Join, List.intercalate, hb]
    have h2 : filepath.Join .unix [baseDir, str "img"] =
        filepath.Clean .unix (baseDir ++ '/' :: str "img") := by
      simp [filepath.Join, joinUnix, strings.Join, List.intercalate, hb]
    rw [h1, h2, hcl _ (by simp)]

theorem outOf_last (goos : GOOS) (X : List Char) (S : List (List Char)) (vol : List Char)
    (hX : plainElem goos X) :
    ∃ a, (vol ++ outOf goos (X :: S)).getLast? = some a ∧ IsPathSeparator goos a = false := by
  obtain ⟨hne, hsep⟩ := hX
  refine ⟨X.getLast hne, ?_, hsep _ (List.getLast_mem hne)⟩
  rw [outOf_cons, ← List.append_assoc, List.getLast?_append_of_ne_nil _ hne,
    List.getLast?_eq_getLast _ hne]

/-- Below a base directory that starts at a root, is clean and is not the
root itself (and, on `windows`, does not end in a colon), the `img`
directory is the base directory, a separator and `img`. -/
theorem Join_img_clean (goos : GOOS) (baseDir : List Char)
    (habs : startsAtRoot goos baseDir = true)
    (hclean : filepath.Clean goos baseDir = baseDir)
    (hroot : baseDir ≠ filepath.VolumeName goos baseDir ++ [Separator goos])
    (hcolon : goos = .windows → baseDir.getLast? ≠ some ':') :
    filepath.Join goos [baseDir, str "img"] = baseDir ++ Separator goos :: str "img" := by
  obtain ⟨v, c, b0, hsplit, hc, hpost, hvol, hname, _⟩ := root_split goos baseDir habs
  have hB : baseDir ≠ [] := startsAtRoot_ne_nil goos baseDir habs
  have hcl : baseDir = filepath.FromSlash goos v ++ outOf goos (kept goos b0) := by
    have := Clean_root goos v c b0 hc hpost (hvol _)
    rw [← hsplit, hclean] at this
    exact this
  have hk : kept goos b0 ≠ [] := by
    intro hk
    rw [hk, ← hname] at hcl
    exact hroot hcl
  obtain ⟨X, S, hXS⟩ := List.exists_cons_of_ne_nil hk
  have hplain : ∀ x ∈ kept goos b0, plainElem goos x :=
    foldl_keeps_plain goos _ (segs_sepfree goos _) [] (by simp)
  have hj : joinedImg goos baseDir = baseDir ++ Separator goos :: str "img" := by
    cases goos with
    | unix => rfl
    | windows =>
      obtain ⟨a, ha, hsa⟩ := outOf_last .windows X S (filepath.FromSlash .windows v)
        (hplain X (by rw [hXS]; exact List.mem_cons_self _ _))
      rw [← hXS, ← hcl] at ha
      have hac : a ≠ ':' := fun h => hcolon rfl (by rw [ha, h])
      have hg : glue (baseDir.getLastD (Char.ofNat 0)) = ['\\'] := by
        rw [List.getLastD_eq_getLast?, ha]
        simp [glue, hsa, hac]
      rw [joinedImg_windows, hg]
      simp [Separator]
  have himg : resolveStep (kept goos b0) (str "img") = str "img" :: kept goos b0 :=
    resolveStep_plain _ _ (by decide) (by decide) (by decide)
  rw [Join_two goos baseDir hB, hj]
  have hsp : baseDir ++ Separator goos :: str "img" =
      v ++ c :: (b0 ++ Separator goos :: str "img") := by
    conv_lhs => rw [hsplit]
    simp
  rw [hsp, Clean_root goos _ c _ hc hpost (hvol _), kept,
    segs_append_sep goos _ (sep_sep goos), List.foldl_append, segs_plain goos _ (img_sepfree goos),
    List.foldl_cons, List.foldl_nil]
  rw [show (segs goos b0).foldl resolveStep [] = kept goos b0 from rfl, himg, outOf_cons,
    if_neg hk, ← hsp]
  conv_rhs => rw [hcl]
  simp

/-- On `windows`, below a base directory that is an incomplete UNC volume the
separator written after `img` completes the volume name and stays: the empty
last element then leaves the `img` directory with a separator at its end. -/
theorem Join_img_empty_incomplete_volume :
    filepath.Join .windows [str "\\\\host", str "img", []] = str "\\\\host\\img\\" ∧
      filepath.Join .windows [str "\\\\host", str "img"] = str "\\\\host\\img" ∧
      startsAtRoot .windows (str "\\\\host") = false := by
  decide

/-! ## Icon names that do not stay below -/

/-- The elements of a rooted path made of a stack are the elements of the
stack, after an empty one for the root. -/
theorem segs_outOf (goos : GOOS) (st : List (List Char)) (hst : ∀ x ∈ st, plainElem goos x)
    (hne : st ≠ []) : segs goos (outOf goos st) = [] :: st.reverse := by
  induction st with
  | nil => exact absurd rfl hne
  | cons s t ih =>
    have hs := (hst s (List.mem_cons_self _ _)).2
    rw [outOf_cons]
    by_cases ht : t = []
    · subst ht
      rw [if_pos rfl]
      have := segs_append_sep goos (Separator goos) (sep_sep goos) [] s
      simp only [List.nil_append] at this
      rw [List.singleton_append, this, segs_plain goos s hs]
      rfl
    · rw [if_neg ht, List.append_assoc, List.singleton_append,
        segs_append_sep goos _ (sep_sep goos), segs_plain goos s hs,
        ih (fun x hx => hst x (List.mem_cons_of_mem _ hx)) ht]
      simp

/-- A rooted path made of a stack lies below another only if its stack has
the other stack at its bottom and an element above it. -/
theorem outOf_prefix_reflect (goos : GOOS) (a b : List (List Char))
    (ha : ∀ x ∈ a, plainElem goos x) (hb : ∀ x ∈ b, plainElem goos x) (hane : a ≠ [])
    (h : (outOf goos a ++ [Separator goos]) <+: outOf goos b) :
    ∃ T, T ≠ [] ∧ b = T ++ a := by
  obtain ⟨R, hR⟩ := h
  have hbne : b ≠ [] := by
    intro hb0
    subst hb0
    have := congrArg List.length hR
    obtain ⟨t, ht⟩ := outOf_head goos a
    rw [ht] at this
    simp [outOf] at this
  have h1 := congrArg (segs goos) hR
  rw [List.append_assoc, List.singleton_append, segs_append_sep goos _ (sep_sep goos),
    segs_outOf goos a ha hane, segs_outOf goos b hb hbne, List.cons_append,
    List.cons.injEq] at h1
  refine ⟨(segs goos R).reverse, ?_, ?_⟩
  · intro h0
    exact segs_ne_nil goos R (List.reverse_eq_nil_iff.mp h0)
  · have := congrArg List.reverse h1.2
    simp only [List.reverse_append, List.reverse_reverse] at this
    exact this.symm

/-- Once the stack no longer has `X :: S` at its bottom, elements other than
`X` do not bring it back. -/
theorem foldl_escaped (X : List Char) (S : List (List Char)) (l : List (List Char))
    (hX : X ∉ l) :
    ∀ st : List (List Char), (¬ ∃ T, st = T ++ X :: S) →
      ¬ ∃ T, l.foldl resolveStep st = T ++ X :: S := by
  induction l with
  | nil => intro st h; exact h
  | cons s l ih =>
    intro st h
    rw [List.foldl_cons]
    apply ih (fun hm => hX (List.mem_cons_of_mem _ hm))
    unfold resolveStep
    split_ifs with h1 h2
    · exact h
    · rintro ⟨T, hT⟩
      cases st with
      | nil =>
        simp only [List.tail_nil] at hT
        exact h ⟨T, hT⟩
      | cons y st1 =>
        simp only [List.tail_cons] at hT
        exact h ⟨y :: T, by rw [hT]; rfl⟩
    · rintro ⟨T, hT⟩
      cases T with
      | nil =>
        simp only [List.nil_append, List.cons.injEq] at hT
        exact hX (by rw [hT.1]; exact List.mem_cons_self _ _)
      | cons t T1 =>
        simp only [List.cons_append, List.cons.injEq] at hT
        exact h ⟨T1, hT.2⟩

/-- A name that does not stay below and has no element `X` does not leave the
stack with `X :: S` at its bottom and an element above it. -/
theorem foldl_not_below (X : List Char) (S : List (List Char)) (l : List (List Char))
    (hX : X ∉ l) :
    ∀ (depth : Nat) (T : List (List Char)), T.length = depth → belowFrom depth l = false →
      ¬ ∃ T2, T2 ≠ [] ∧ l.foldl resolveStep (T ++ X :: S) = T2 ++ X :: S := by
  induction l with
  | nil =>
    intro depth T hT hb
    simp only [belowFrom, decide_eq_false_iff_not, Nat.not_lt, Nat.le_zero] at hb
    rw [hb] at hT
    rw [List.length_eq_zero.mp hT]
    rintro ⟨T2, hne, h⟩
    have := congrArg List.length h
    simp only [List.foldl_nil, List.nil_append, List.length_cons, List.length_append] at this
    exact hne (List.length_eq_zero.mp (by omega))
  | cons s l ih =>
    intro depth T hT hb
    have hXl : X ∉ l := fun hm => hX (List.mem_cons_of_mem _ hm)
    simp only [belowFrom] at hb
    rw [List.foldl_cons]
    split_ifs at hb with h1 h2
    · have : resolveStep (T ++ X :: S) s = T ++ X :: S := by simp [resolveStep, h1]
      rw [this]
      exact ih hXl depth T hT hb
    · cases depth with
      | zero =>
        rw [List.length_eq_zero.mp hT]
        have : resolveStep ([] ++ X :: S) s = S := by simp [resolveStep, h2]
        rw [this]
        rintro ⟨T2, _, h⟩
        refine foldl_escaped X S l hXl S ?_ ⟨T2, h⟩
        rintro ⟨T3, h3⟩
        have := congrArg List.length h3
        simp only [List.length_cons, List.length_append] at this
        omega
      | succ d =>
        cases T with
        | nil => simp at hT
        | cons t T1 =>
          have : resolveStep (t :: T1 ++ X :: S) s = T1 ++ X :: S := by simp [resolveStep, h2]
          rw [this]
          exact ih hXl d T1 (by simpa using hT) hb
    · have : resolveStep (T ++ X :: S) s = (s :: T) ++ X :: S := by simp [resolveStep, h1, h2]
      rw [this]
      exact ih hXl (depth + 1) (s :: T) (by simp [hT]) hb

/-- An icon name that does not stay below and has no element `img` is joined
to a path that is not below the `img` directory of a base directory that
starts at a root (and, on `windows`, does not end in a colon). -/
theorem Join_img_not_below (goos : GOOS) (baseDir icon : List Char)
    (habs : startsAtRoot goos baseDir = true)
    (hcolon : goos = .windows → baseDir.getLast? ≠ some ':')
    (hb : staysBelow goos icon = false) (himg : str "img" ∉ segs goos icon) :
    ¬ (filepath.Join goos [baseDir, str "img"] ++ [Separator goos]) <+:
      filepath.Join goos [baseDir, str "img", icon] := by
  obtain ⟨X, S, hplain, h2, h3, hX⟩ := Join_img_forms goos baseDir habs
  have hX := hX hcolon
  subst hX
  rw [h2, h3 icon, List.append_assoc, List.prefix_append_right_inj]
  intro hpre
  have hb2 : ∀ x ∈ (segs goos icon).foldl resolveStep (str "img" :: S), plainElem goos x :=
    foldl_keeps_plain goos _ (segs_sepfree goos _) _ hplain
  obtain ⟨T, hT, hfold⟩ := outOf_prefix_reflect goos _ _ hplain hb2 (List.cons_ne_nil _ _) hpre
  exact foldl_not_below (str "img") S (segs goos icon) himg 0 [] rfl hb ⟨T, hT, hfold⟩

/-! ## `encoding/json`: the scanner does not depend on spare fuel -/

theorem skipSpace_length (s : List Char) : (skipSpace s).length ≤ s.length :=
  (List.dropWhile_suffix _).length_le

theorem getu4_length (t : List Char) (rr : Nat) (s2 : List Char) (h : getu4 t = some (rr, s2)) :
    s2.length + 4 = t.length := by
  match t, h with
  | a :: b :: c :: d :: r, h =>
    simp only [getu4] at h
    split at h
    · simp only [Option.some.injEq, Prod.mk.injEq] at h
      rw [← h.2]; simp
    · exact absurd h (by simp)

theorem scanEscape_length (s : List Char) (ch : Char) (s1 : List Char)
    (h : scanEscape s = some (ch, s1)) : s1.length < s.length := by
  cases s with
  | nil => simp [scanEscape] at h
  | cons e t =>
    simp only [scanEscape] at h
    split_ifs at h with he
    · cases hg : getu4 t with
      | none => rw [hg] at h; simp at h
      | some p =>
        obtain ⟨rr, s2⟩ := p
        have hl := getu4_length t rr s2 hg
        rw [hg] at h
        simp only [] at h
        split_ifs at h with hsur
        · split at h
          · rename_i r hr
            simp only [Option.some.injEq] at h
            subst h
            split at hr
            · rename_i s3
              cases hg3 : getu4 s3 with
              | none => rw [hg3] at hr; simp at hr
              | some p3 =>
                obtain ⟨rr1, s4⟩ := p3
                have hl3 := getu4_length s3 rr1 s4 hg3
                rw [hg3] at hr
                simp only [Option.map_eq_some'] at hr
                obtain ⟨_, _, hq⟩ := hr
                simp only [Prod.mk.injEq] at hq
                rw [← hq.2]
                simp only [List.length_cons] at hl ⊢
                omega
            · simp at hr
          · simp only [Option.some.injEq, Prod.mk.injEq] at h
            rw [← h.2]; simp only [List.length_cons]; omega
        · simp only [Option.some.injEq, Prod.mk.injEq] at h
          rw [← h.2]; simp only [List.length_cons]; omega
    · simp only [Option.map_eq_some'] at h
      obtain ⟨_, _, hq⟩ := h
      simp only [Prod.mk.injEq] at hq
      rw [← hq.2]; simp

theorem scanString_fuel :
    ∀ (f1 f2 : Nat) (s : List Char), s.length ≤ f1 → s.length ≤ f2 →
      scanString f1 s = scanString f2 s := by
  intro f1
  induction f1 with
  | zero =>
    intro f2 s h1 _
    have : s = [] := List.length_eq_zero.mp (Nat.le_zero.mp h1)
    subst this
    cases f2 <;> simp [scanString]
  | succ f1 ih =>
    intro f2 s h1 h2
    cases s with
    | nil => cases f2 <;> simp [scanString]
    | cons c s =>
      cases f2 with
      | zero => simp at h2
      | succ f2 =>
        simp only [List.length_cons, Nat.add_le_add_iff_right] at h1 h2
        simp only [scanString]
        split_ifs
        · rfl
        · cases he : scanEscape s with
          | none => rfl
          | some p =>
            obtain ⟨ch, s1⟩ := p
            have := scanEscape_length s ch s1 he
            simp only []
            rw [ih f2 s1 (by omega) (by omega)]
        · rfl
        · rw [ih f2 s h1 h2]

theorem scanString_length :
    ∀ (f : Nat) (s text rest : List Char), scanString f s = some (text, rest) →
      rest.length < s.length := by
  intro f
  induction f with
  | zero => intro s text rest h; simp [scanString] at h
  | succ f ih =>
    intro s text rest h
    cases s with
    | nil => simp [scanString] at h
    | cons c s =>
      simp only [scanString] at h
      split_ifs at h
      · simp only [Option.some.injEq, Prod.mk.injEq] at h
        rw [← h.2]; simp
      · cases he : scanEscape s with
        | none => rw [he] at h; simp at h
        | some p =>
          obtain ⟨ch, s1⟩ := p
          have hl := scanEscape_length s ch s1 he
          rw [he] at h
          simp only [Option.map_eq_some'] at h
          obtain ⟨q, hq, hq2⟩ := h
          obtain ⟨q1, q2⟩ := q
          simp only [Prod.mk.injEq] at hq2
          have := ih s1 q1 q2 hq
          rw [← hq2.2]
          simp only [List.length_cons]; omega
      · simp only [Option.map_eq_some'] at h
        obtain ⟨q, hq, hq2⟩ := h
        obtain ⟨q1, q2⟩ := q
        simp only [Prod.mk.injEq] at hq2
        have := ih s q1 q2 hq
        rw [← hq2.2]
        simp only [List.length_cons]; omega

theorem scanDigits_length (s rest : List Char) (h : scanDigits s = some rest) :
    rest.length < s.length := by
  cases s with
  | nil => simp [scanDigits] at h
  | cons c t =>
    simp only [scanDigits] at h
    split_ifs at h with hc
    simp only [Option.some.injEq] at h
    rw [← h, List.dropWhile_cons, if_pos hc]
    exact Nat.lt_succ_of_le (List.dropWhile_suffix _).length_le

theorem scanNumber_length (s rest : List Char) (h : scanNumber s = some rest) :
    rest.length < s.length := by
  unfold scanNumber at h
  simp only [] at h
  -- the optional sign
  have hsign : ∀ s0 : List Char,
      (match s0 with
        | '-' :: t => t
        | _ => s0).length ≤ s0.length := by
    intro s0
    split
    · simp
    · exact Nat.le_refl _
  -- the integer part
  have hint : ∀ (s1 r : List Char),
      (match s1 with
        | '0' :: t => some t
        | _ => scanDigits s1) = some r → r.length < s1.length := by
    intro s1 r h1
    split at h1
    · simp only [Option.some.injEq] at h1; rw [← h1]; simp
    · exact scanDigits_length _ _ h1
  -- the fraction
  have hfrac : ∀ (a : Option (List Char)) (r : List Char),
      (match a with
        | some ('.' :: t) => scanDigits t
        | x => x) = some r → ∃ r0, a = some r0 ∧ r.length ≤ r0.length := by
    intro a r h1
    split at h1
    · rename_i t
      exact ⟨'.' :: t, rfl, by have := scanDigits_length _ _ h1; simp; omega⟩
    · exact ⟨r, h1, Nat.le_refl _⟩
  -- the exponent
  have hexp : ∀ (a : Option (List Char)) (r : List Char),
      (match a with
        | some (e :: t) =>
          if e = 'e' ∨ e = 'E' then
            match t with
            | sign :: u => if sign = '+' ∨ sign = '-' then scanDigits u else scanDigits t
            | [] => none
          else some (e :: t)
        | x => x) = some r → ∃ r0, a = some r0 ∧ r.length ≤ r0.length := by
    intro a r h1
    split at h1
    · rename_i e t
      split_ifs at h1 with he
      · split at h1
        · rename_i sign u
          split_ifs at h1
          · exact ⟨_, rfl, by have := scanDigits_length _ _ h1; simp at this ⊢; omega⟩
          · exact ⟨_, rfl, by have := scanDigits_length _ _ h1; simp at this ⊢; omega⟩
        · simp at h1
      · exact ⟨_, rfl, by simp only [Option.some.injEq] at h1; rw [← h1]⟩
    · exact ⟨r, h1, Nat.le_refl _⟩
  obtain ⟨r1, h1, hl1⟩ := hexp _ _ h
  obtain ⟨r2, h2, hl2⟩ := hfrac _ _ h1
  have hl3 := hint _ _ h2
  have hl4 := hsign s
  omega

/-- What succeeds with some fuel consumes input and succeeds, with the same
result, with any fuel not below the number of characters consumed. -/
theorem scan_fuel :
    ∀ f : Nat,
      (∀ (d : Nat) (s : List Char) (it : Item) (rest : List Char),
        scanValue f d s = some (it, rest) →
        rest.length < s.length ∧
          ∀ f2, s.length - rest.length ≤ f2 → scanValue f2 d s = some (it, rest)) ∧
      (∀ (d : Nat) (s rest : List Char),
        scanElements f d s = some rest →
        rest.length < s.length ∧
          ∀ f2, s.length - rest.length ≤ f2 → scanElements f2 d s = some rest) ∧
      (∀ (d : Nat) (s rest : List Char),
        scanMembers f d s = some rest →
        rest.length < s.length ∧
          ∀ f2, s.length - rest.length ≤ f2 → scanMembers f2 d s = some rest) := by
  intro f
  induction f with
  | zero =>
    refine ⟨?_, ?_, ?_⟩
    · intro d s it rest h; simp [scanValue] at h
    · intro d s rest h; simp [scanElements] at h
    · intro d s rest h; simp [scanMembers] at h
  | succ f ih =>
    obtain ⟨ihV, ihE, ihM⟩ := ih
    refine ⟨?_, ?_, ?_⟩
    · -- scanValue
      intro d s it rest h
      cases s with
      | nil => simp [scanValue] at h
      | cons c s =>
        have hsk := skipSpace_length s
        simp only [scanValue] at h
        split_ifs at h with hobj hdepth harr hdepth2 hstr htrue hfalse hnull
        · -- object
          split at h
          · rename_i t heq
            simp only [Option.some.injEq, Prod.mk.injEq] at h
            obtain ⟨rfl, rfl⟩ := h
            have hl : t.length < (skipSpace s).length := by rw [heq]; simp
            refine ⟨by simp only [List.length_cons]; omega, ?_⟩
            intro f2 hf2
            cases f2 with
            | zero => simp only [List.length_cons] at hf2; omega
            | succ f2 => simp only [scanValue, if_pos hobj, if_neg hdepth, heq]
          · rename_i t hne
            simp only [Option.map_eq_some'] at h
            obtain ⟨r, hr, hq⟩ := h
            simp only [Prod.mk.injEq] at hq
            obtain ⟨rfl, rfl⟩ := hq
            obtain ⟨hl, hfu⟩ := ihM _ _ _ hr
            refine ⟨by simp only [List.length_cons]; omega, ?_⟩
            intro f2 hf2
            cases f2 with
            | zero => simp only [List.length_cons] at hf2; omega
            | succ f2 =>
              simp only [scanValue, if_pos hobj, if_neg hdepth]
              rw [hfu f2 (by simp only [List.length_cons] at hf2; omega)]
              rfl
        · -- array
          split at h
          · rename_i t heq
            simp only [Option.some.injEq, Prod.mk.injEq] at h
            obtain ⟨rfl, rfl⟩ := h
            have hl : t.length < (skipSpace s).length := by rw [heq]; simp
            refine ⟨by simp only [List.length_cons]; omega, ?_⟩
            intro f2 hf2
            cases f2 with
            | zero => simp only [List.length_cons] at hf2; omega
            | succ f2 => simp only [scanValue, if_neg hobj, if_pos harr, if_neg hdepth2, heq]
          · rename_i t hne
            simp only [Option.map_eq_some'] at h
            obtain ⟨r, hr, hq⟩ := h
            simp only [Prod.mk.injEq] at hq
            obtain ⟨rfl, rfl⟩ := hq
            obtain ⟨hl, hfu⟩ := ihE _ _ _ hr
            refine ⟨by simp only [List.length_cons]; omega, ?_⟩
            intro f2 hf2
            cases f2 with
            | zero => simp only [List.length_cons] at hf2; omega
            | succ f2 =>
              simp only [scanValue, if_neg hobj, if_pos harr, if_neg hdepth2]
              rw [hfu f2 (by simp only [List.length_cons] at hf2; omega)]
              rfl
        · -- string
          simp only [Option.map_eq_some'] at h
          obtain ⟨p, hp, hq⟩ := h
          obtain ⟨p1, p2⟩ := p
          simp only [Prod.mk.injEq] at hq
          obtain ⟨rfl, rfl⟩ := hq
          have hl := scanString_length _ _ _ _ hp
          refine ⟨by simp only [List.length_cons]; omega, ?_⟩
          intro f2 hf2
          cases f2 with
          | zero => simp only [List.length_cons] at hf2; omega
          | succ f2 =>
            simp only [scanValue, if_neg hobj, if_neg harr, if_pos hstr, hp]
            rfl
        · -- true
          simp only [Option.some.injEq, Prod.mk.injEq] at h
          obtain ⟨rfl, rfl⟩ := h
          refine ⟨by simp only [List.length_drop, List.length_cons]; omega, ?_⟩
          intro f2 hf2
          cases f2 with
          | zero => simp only [List.length_drop, List.length_cons] at hf2; omega
          | succ f2 =>
            simp only [scanValue, if_neg hobj, if_neg harr, if_neg hstr, if_pos htrue]
        · -- false
          simp only [Option.some.injEq, Prod.mk.injEq] at h
          obtain ⟨rfl, rfl⟩ := h
          refine ⟨by simp only [List.length_drop, List.length_cons]; omega, ?_⟩
          intro f2 hf2
          cases f2 with
          | zero => simp only [List.length_drop, List.length_cons] at hf2; omega
          | succ f2 =>
            simp only [scanValue, if_neg hobj, if_neg harr, if_neg hstr, if_neg htrue,
              if_pos hfalse]
        · -- null
          simp only [Option.some.injEq, Prod.mk.injEq] at h
          obtain ⟨rfl, rfl⟩ := h
          refine ⟨by simp only [List.length_drop, List.length_cons]; omega, ?_⟩
          intro f2 hf2
          cases f2 with
          | zero => simp only [List.length_drop, List.length_cons] at hf2; omega
          | succ f2 =>
            simp only [scanValue, if_neg hobj, if_neg harr, if_neg hstr, if_neg htrue,
              if_neg hfalse, if_pos hnull]
        · -- number
          simp only [Option.map_eq_some'] at h
          obtain ⟨r, hr, hq⟩ := h
          simp only [Prod.mk.injEq] at hq
          obtain ⟨rfl, rfl⟩ := hq
          have hl := scanNumber_length _ _ hr
          refine ⟨hl, ?_⟩
          intro f2 hf2
          cases f2 with
          | zero => omega
          | succ f2 =>
            simp only [scanValue, if_neg hobj, if_neg harr, if_neg hstr, if_neg htrue,
              if_neg hfalse, if_neg hnull, hr]
            rfl
    · -- scanElements
      intro d s rest h
      simp only [scanElements] at h
      cases hv : scanValue f d s with
      | none => rw [hv] at h; simp at h
      | some p =>
        obtain ⟨it, t⟩ := p
        rw [hv] at h
        simp only [] at h
        obtain ⟨hlv, hfv⟩ := ihV _ _ _ _ hv
        have hsk := skipSpace_length t
        split at h
        · rename_i u heq
          have hu : u.length < (skipSpace t).length := by rw [heq]; simp
          have hsu := skipSpace_length u
          obtain ⟨hle, hfe⟩ := ihE _ _ _ h
          refine ⟨by omega, ?_⟩
          intro f2 hf2
          cases f2 with
          | zero => omega
          | succ f2 =>
            simp only [scanElements]
            rw [hfv f2 (by omega)]
            simp only [heq]
            exact hfe f2 (by omega)
        · rename_i u heq
          have hu : u.length < (skipSpace t).length := by rw [heq]; simp
          simp only [Option.some.injEq] at h
          subst h
          refine ⟨by omega, ?_⟩
          intro f2 hf2
          cases f2 with
          | zero => omega
          | succ f2 =>
            simp only [scanElements]
            rw [hfv f2 (by omega)]
            simp only [heq]
        · simp at h
    · -- scanMembers
      intro d s rest h
      simp only [scanMembers] at h
      split at h
      · rename_i k
        cases hk : scanString ('"' :: k).length k with
        | none => rw [hk] at h; simp at h
        | some p =>
          obtain ⟨key, t⟩ := p
          rw [hk] at h
          simp only [] at h
          have hlk := scanString_length _ _ _ _ hk
          have hsk := skipSpace_length t
          split at h
          · rename_i u heq
            have hu : u.length < (skipSpace t).length := by rw [heq]; simp
            have hsu := skipSpace_length u
            cases hv : scanValue f d (skipSpace u) with
            | none => rw [hv] at h; simp at h
            | some q =>
              obtain ⟨it, v⟩ := q
              rw [hv] at h
              simp only [] at h
              obtain ⟨hlv, hfv⟩ := ihV _ _ _ _ hv
              have hsv := skipSpace_length v
              split at h
              · rename_i w heq2
                have hw : w.length < (skipSpace v).length := by rw [heq2]; simp
                have hsw := skipSpace_length w
                obtain ⟨hlm, hfm⟩ := ihM _ _ _ h
                refine ⟨by simp only [List.length_cons]; omega, ?_⟩
                intro f2 hf2
                simp only [List.length_cons] at hf2
                cases f2 with
                | zero => omega
                | succ f2 =>
                  simp only [scanMembers, hk, heq]
                  rw [hfv f2 (by omega)]
                  simp only [heq2]
                  exact hfm f2 (by omega)
              · rename_i w heq2
                have hw : w.length < (skipSpace v).length := by rw [heq2]; simp
                simp only [Option.some.injEq] at h
                subst h
                refine ⟨by simp only [List.length_cons]; omega, ?_⟩
                intro f2 hf2
                simp only [List.length_cons] at hf2
                cases f2 with
                | zero => omega
                | succ f2 =>
                  simp only [scanMembers, hk, heq]
                  rw [hfv f2 (by omega)]
                  simp only [heq2]
              · simp at h
          · simp at h
      · simp at h

/-- The result of `scanValue` is the same for every fuel that is at least the
length of the input. -/
theorem scanValue_fuel (f1 f2 d : Nat) (s : List Char) (h1 : s.length ≤ f1)
    (h2 : s.length ≤ f2) : scanValue f1 d s = scanValue f2 d s := by
  cases hv1 : scanValue f1 d s with
  | some p =>
    obtain ⟨it, rest⟩ := p
    exact ((scan_fuel f1).1 d s it rest hv1).2 f2 (by omega) |>.symm
  | none =>
    cases hv2 : scanValue f2 d s with
    | some p =>
      obtain ⟨it, rest⟩ := p
      have := ((scan_fuel f2).1 d s it rest hv2).2 f1 (by omega)
      rw [hv1] at this
      exact this
    | none => rfl

theorem readMembers_consumes :
    ∀ (f : Nat) (s : List Char) (ms : List (List Char × Item)) (rest : List Char),
      readMembers f s = some (ms, rest) →
      rest.length < s.length ∧
        ∀ f2, s.length - rest.length ≤ f2 → readMembers f2 s = some (ms, rest) := by
  intro f
  induction f with
  | zero => intro s ms rest h; simp [readMembers] at h
  | succ f ih =>
    intro s ms rest h
    simp only [readMembers] at h
    split at h
    · rename_i k
      cases hk : scanString ('"' :: k).length k with
      | none => rw [hk] at h; simp at h
      | some p =>
        obtain ⟨key, t⟩ := p
        rw [hk] at h
        simp only [] at h
        have hlk := scanString_length _ _ _ _ hk
        have hsk := skipSpace_length t
        split at h
        · rename_i u heq
          have hu : u.length < (skipSpace t).length := by rw [heq]; simp
          have hsu := skipSpace_length u
          cases hv : scanValue (skipSpace u).length.succ 1 (skipSpace u) with
          | none => rw [hv] at h; simp at h
          | some q =>
            obtain ⟨it, v⟩ := q
            rw [hv] at h
            simp only [] at h
            have hlv := ((scan_fuel _).1 _ _ _ _ hv).1
            have hsv := skipSpace_length v
            split at h
            · rename_i w heq2
              have hw : w.length < (skipSpace v).length := by rw [heq2]; simp
              have hsw := skipSpace_length w
              simp only [Option.map_eq_some'] at h
              obtain ⟨r, hr, hq⟩ := h
              obtain ⟨r1, r2⟩ := r
              simp only [Prod.mk.injEq] at hq
              obtain ⟨rfl, rfl⟩ := hq
              obtain ⟨hlm, hfm⟩ := ih _ _ _ hr
              refine ⟨by simp only [List.length_cons]; omega, ?_⟩
              intro f2 hf2
              simp only [List.length_cons] at hf2
              cases f2 with
              | zero => omega
              | succ f2 =>
                simp only [readMembers, hk, heq, hv, heq2]
                rw [hfm f2 (by omega)]
                rfl
            · rename_i w heq2
              have hw : w.length < (skipSpace v).length := by rw [heq2]; simp
              simp only [Option.some.injEq, Prod.mk.injEq] at h
              obtain ⟨rfl, rfl⟩ := h
              refine ⟨by simp only [List.length_cons]; omega, ?_⟩
              intro f2 hf2
              simp only [List.length_cons] at hf2
              cases f2 with
              | zero => omega
              | succ f2 => simp only [readMembers, hk, heq, hv, heq2]
            · simp at h
        · simp at h
    · simp at h

/-- The result of `readMembers` is the same for every fuel that is at least
the length of the input. -/
theorem readMembers_fuel (f1 f2 : Nat) (s : List Char) (h1 : s.length ≤ f1)
    (h2 : s.length ≤ f2) : readMembers f1 s = readMembers f2 s := by
  cases hv1 : readMembers f1 s with
  | some p =>
    obtain ⟨ms, rest⟩ := p
    exact ((readMembers_consumes f1 s ms rest hv1).2 f2 (by omega)).symm
  | none =>
    cases hv2 : readMembers f2 s with
    | some p =>
      obtain ⟨ms, rest⟩ := p
      have := (readMembers_consumes f2 s ms rest hv2).2 f1 (by omega)
      rw [hv1] at this
      exact this
    | none => rfl

/-! ## The handler -/

theorem getParam_eq (r : Request) (param : List Char) :
    getParamFromRequest r param = r.query.Get param := by
  unfold getParamFromRequest
  by_cases h : r.query.Get param = [] <;> simp [h]

theorem handle_no_msg (goos : GOOS) (push : Pusher) (w : ResponseWriter) (r : Request) (cfg : Config)
    (baseDir : List Char) (h : getParamFromRequest r (str "msg") = []) :
    handle goos push w r cfg baseDir =
      ⟨fmt.Fprintln { w with header := Header.Set w.header (str "Content-Type") (str "text/plain") }
        (str "OK (no msg)"), []⟩ := by
  unfold handle
  simp only [h, if_true]

theorem handle_msg (goos : GOOS) (push : Pusher) (w : ResponseWriter) (r : Request) (cfg : Config)
    (baseDir : List Char) (h : getParamFromRequest r (str "msg") ≠ []) :
    handle goos push w r cfg baseDir =
      match push (descriptor goos r cfg baseDir) with
      | some err => ⟨http.Error w (str "toast error: " ++ err) 500, [descriptor goos r cfg baseDir]⟩
      | none =>
        ⟨ResponseWriter.Write
            { w with header :=
                Header.Set w.header (str "Content-Type") (str "text/plain; charset=utf-8") }
            (str "OK: " ++ getParamFromRequest r (str "msg") ++ str "\n"),
          [descriptor goos r cfg baseDir]⟩ := by
  unfold handle descriptor
  simp only [h, if_false]

theorem handle_pushed (goos : GOOS) (push : Pusher) (w : ResponseWriter) (r : Request) (cfg : Config)
    (baseDir : List Char) (h : getParamFromRequest r (str "msg") ≠ []) :
    (handle goos push w r cfg baseDir).pushed = [descriptor goos r cfg baseDir] := by
  rw [handle_msg goos push w r cfg baseDir h]
  cases push (descriptor goos r cfg baseDir) <;> rfl

theorem no_msg_iff (r : Request) :
    (r.query (str "msg") = [] ∨ (r.query (str "msg")).head? = some []) ↔
      getParamFromRequest r (str "msg") = [] := by
  rw [getParam_eq]
  unfold Values.Get
  cases h : r.query (str "msg") with
  | nil => simp
  | cons a l => simp

/-- C1 (as amended): a request whose `msg` is absent or empty is answered with
status 200, content type `text/plain` and the body `OK (no msg)` followed by a
newline, whatever the platform, `sub`, `icon`, the configuration and the base
directory are, and nothing is submitted to the notification subsystem. -/
theorem C1_missing_msg_accepted (goos : GOOS) (push : Pusher) (r : Request) (cfg : Config)
    (baseDir : List Char)
    (h : r.query (str "msg") = [] ∨ (r.query (str "msg")).head? = some []) :
    (handle goos push ResponseWriter.fresh r cfg baseDir).w.status = some 200 ∧
      (handle goos push ResponseWriter.fresh r cfg baseDir).w.body = str "OK (no msg)\n" ∧
      (handle goos push ResponseWriter.fresh r cfg baseDir).w.sent (str "Content-Type") =
        str "text/plain" ∧
      (handle goos push ResponseWriter.fresh r cfg baseDir).pushed = [] := by
  rw [handle_no_msg goos push _ r cfg baseDir ((no_msg_iff r).mp h)]
  decide

/-- C1, witness: a request with `msg=` (empty) and other parameters set, on
`windows` below `C:\toast`. -/
theorem C1_missing_msg_accepted_witness :
    ((requestOf [[]] [str "world"] [str "custom.png"]).query (str "msg") = [] ∨
      ((requestOf [[]] [str "world"] [str "custom.png"]).query (str "msg")).head? = some []) ∧
    (handle .windows (pushFail (str "boom")) ResponseWriter.fresh
      (requestOf [[]] [str "world"] [str "custom.png"]) sampleConfig (str "C:\\toast")).w.body =
        str "OK (no msg)\n" ∧
    (handle .windows (pushFail (str "boom")) ResponseWriter.fresh
      (requestOf [[]] [str "world"] [str "custom.png"]) sampleConfig (str "C:\\toast")).pushed = [] :=
  ⟨Or.inr (by decide),
    (C1_missing_msg_accepted .windows (pushFail (str "boom"))
      (requestOf [[]] [str "world"] [str "custom.png"])
      sampleConfig (str "C:\\toast") (Or.inr (by decide))).2.1,
    (C1_missing_msg_accepted .windows (pushFail (str "boom"))
      (requestOf [[]] [str "world"] [str "custom.png"])
      sampleConfig (str "C:\\toast") (Or.inr (by decide))).2.2.2⟩

/-- C1, as stated, fails: for a request without `msg` the body is not the
eleven characters `OK (no msg)`; a newline follows them. -/
theorem C1_body_is_not_bare_text :
    ¬ ((handle .windows pushOk ResponseWriter.fresh (requestOf [] [] []) sampleConfig
          (str "C:\\toast")).w.status = some 200 ∧
        (handle .windows pushOk ResponseWriter.fresh (requestOf [] [] []) sampleConfig
          (str "C:\\toast")).w.body = str "OK (no msg)" ∧
        (handle .windows pushOk ResponseWriter.fresh (requestOf [] [] []) sampleConfig
          (str "C:\\toast")).pushed = []) := by
  decide

theorem placeholder_eq : str "{msg}" = placeholder := by decide

/-- C2: for a request with a message, the body submitted is the request's
`sub` when it is non-empty and `cfg.Sub` otherwise, and the icon submitted is
the join of the base directory, `img` and the request's `icon` when it is
non-empty and `cfg.Icon` otherwise; each choice looks at its own parameter
only, so two requests that agree on `sub` (on `icon`) get the same body (the
same icon) whatever their other parameters are.  This holds on every
platform. -/
theorem C2_precedence_per_field (goos : GOOS) (push : Pusher) (r r2 : Request) (cfg : Config)
    (baseDir : List Char) (hmsg : getParamFromRequest r (str "msg") ≠ [])
    (hmsg2 : getParamFromRequest r2 (str "msg") ≠ []) :
    (handle goos push ResponseWriter.fresh r cfg baseDir).pushed.map
        (fun n => (n.Message, n.Icon)) =
        [(if getParamFromRequest r (str "sub") = [] then cfg.Sub
            else getParamFromRequest r (str "sub"),
          filepath.Join goos [baseDir, str "img",
            if getParamFromRequest r (str "icon") = [] then cfg.Icon
            else getParamFromRequest r (str "icon")])] ∧
      (getParamFromRequest r (str "sub") = getParamFromRequest r2 (str "sub") →
        (handle goos push ResponseWriter.fresh r cfg baseDir).pushed.map (fun n => n.Message) =
          (handle goos push ResponseWriter.fresh r2 cfg baseDir).pushed.map (fun n => n.Message)) ∧
      (getParamFromRequest r (str "icon") = getParamFromRequest r2 (str "icon") →
        (handle goos push ResponseWriter.fresh r cfg baseDir).pushed.map (fun n => n.Icon) =
          (handle goos push ResponseWriter.fresh r2 cfg baseDir).pushed.map (fun n => n.Icon)) := by
  rw [handle_pushed goos push _ r cfg baseDir hmsg, handle_pushed goos push _ r2 cfg baseDir hmsg2]
  refine ⟨?_, ?_, ?_⟩
  · simp only [descriptor, List.map_cons, List.map_nil]
    split_ifs <;> rfl
  · intro h
    simp only [descriptor, List.map_cons, List.map_nil, h]
  · intro h
    simp only [descriptor, List.map_cons, List.map_nil, h]

/-- C2, witness: `msg=hello` alone takes subtitle and icon from the
configuration; `msg=hello&sub=world&icon=custom.png` takes both from the
request; on `windows` below `C:\toast` and on `unix` below `/opt/toast`. -/
theorem C2_precedence_per_field_witness :
    getParamFromRequest (requestOf [str "hello"] [] []) (str "msg") ≠ [] ∧
    getParamFromRequest (requestOf [str "hello"] [str "world"] [str "custom.png"]) (str "msg") ≠ [] ∧
    (handle .windows pushOk ResponseWriter.fresh (requestOf [str "hello"] [] []) sampleConfig
        (str "C:\\toast")).pushed.map (fun n => (n.Message, n.Icon)) =
      [(str "from config", str "C:\\toast\\img\\default.png")] ∧
    (handle .windows pushOk ResponseWriter.fresh
        (requestOf [str "hello"] [str "world"] [str "custom.png"]) sampleConfig
        (str "C:\\toast")).pushed.map (fun n => (n.Message, n.Icon)) =
      [(str "world", str "C:\\toast\\img\\custom.png")] ∧
    (handle .unix pushOk ResponseWriter.fresh (requestOf [str "hello"] [] []) sampleConfig
        (str "/opt/toast")).pushed.map (fun n => (n.Message, n.Icon)) =
      [(str "from config", str "/opt/toast/img/default.png")] ∧
    (handle .unix pushOk ResponseWriter.fresh
        (requestOf [str "hello"] [str "world"] [str "custom.png"]) sampleConfig
        (str "/opt/toast")).pushed.map (fun n => (n.Message, n.Icon)) =
      [(str "world", str "/opt/toast/img/custom.png")] :=
  ⟨by decide, by decide,
    (C2_precedence_per_field .windows pushOk (requestOf [str "hello"] [] [])
      (requestOf [str "hello"] [str "world"] [str "custom.png"]) sampleConfig (str "C:\\toast")
      (by decide) (by decide)).1.trans (by decide),
    (C2_precedence_per_field .windows pushOk
      (requestOf [str "hello"] [str "world"] [str "custom.png"])
      (requestOf [str "hello"] [] []) sampleConfig (str "C:\\toast")
      (by decide) (by decide)).1.trans (by decide),
    (C2_precedence_per_field .unix pushOk (requestOf [str "hello"] [] [])
      (requestOf [str "hello"] [str "world"] [str "custom.png"]) sampleConfig (str "/opt/toast")
      (by decide) (by decide)).1.trans (by decide),
    (C2_precedence_per_field .unix pushOk (requestOf [str "hello"] [str "world"] [str "custom.png"])
      (requestOf [str "hello"] [] []) sampleConfig (str "/opt/toast")
      (by decide) (by decide)).1.trans (by decide)⟩

/-- C3 (as amended): on every platform, for a base directory that starts at
the root of a volume (`C:\toast`, `\\host\share\toast`, on `unix` `/opt/toast`),
the icon path of every request with a message starts at the root of the same
volume; when the icon name in force (the request's `icon`, else `cfg.Icon`)
stays below the directory it is joined to (read element by element, no `..`
steps above that directory and an element is left at the end, as in
`icons\custom.png` and `a/../b.png`), the icon path lies below the join of
the base directory and `img`; and when the name does not stay below and none
of its elements is `img`, the icon path does not lie below that join (for a
base directory that, on `windows`, does not end in a colon). -/
theorem C3_icon_below_img (goos : GOOS) (push : Pusher) (r : Request) (cfg : Config)
    (baseDir : List Char)
    (hmsg : getParamFromRequest r (str "msg") ≠ []) (habs : startsAtRoot goos baseDir = true) :
    (handle goos push ResponseWriter.fresh r cfg baseDir).pushed.map
        (fun n => (startsAtRoot goos n.Icon, filepath.VolumeName goos n.Icon)) =
        [(true, filepath.VolumeName goos baseDir)] ∧
      (staysBelow goos (if getParamFromRequest r (str "icon") = [] then cfg.Icon
          else getParamFromRequest r (str "icon")) = true →
        ∀ n ∈ (handle goos push ResponseWriter.fresh r cfg baseDir).pushed,
          (filepath.Join goos [baseDir, str "img"] ++ [Separator goos]) <+: n.Icon) ∧
      (staysBelow goos (if getParamFromRequest r (str "icon") = [] then cfg.Icon
          else getParamFromRequest r (str "icon")) = false →
        str "img" ∉ segs goos (if getParamFromRequest r (str "icon") = [] then cfg.Icon
          else getParamFromRequest r (str "icon")) →
        (goos = .windows → baseDir.getLast? ≠ some ':') →
        ∀ n ∈ (handle goos push ResponseWriter.fresh r cfg baseDir).pushed,
          ¬ (filepath.Join goos [baseDir, str "img"] ++ [Separator goos]) <+: n.Icon) := by
  rw [handle_pushed goos push _ r cfg baseDir hmsg]
  refine ⟨?_, ?_, ?_⟩
  · simp only [descriptor, List.map_cons, List.map_nil]
    split_ifs <;>
      rw [(Join_img_rooted goos _ _ habs).1, (Join_img_rooted goos _ _ habs).2]
  · intro hb n hn
    rw [List.mem_singleton] at hn
    subst hn
    simp only [descriptor]
    split_ifs with hi
    · rw [if_pos hi] at hb
      exact Join_img_below goos baseDir _ habs hb
    · rw [if_neg hi] at hb
      exact Join_img_below goos baseDir _ habs hb
  · intro hb himg hcolon n hn
    rw [List.mem_singleton] at hn
    subst hn
    simp only [descriptor]
    split_ifs with hi
    · rw [if_pos hi] at hb himg
      exact Join_img_not_below goos baseDir _ habs hcolon hb himg
    · rw [if_neg hi] at hb himg
      exact Join_img_not_below goos baseDir _ habs hcolon hb himg

/-- C3, witness: on `windows` the icon name `a/../icons\custom.png` under
`C:\toast` gives `C:\toast\img\icons\custom.png`, below `C:\toast\img\`, and
under `\\host\share\toast` it gives `\\host\share\toast\img\icons\custom.png`;
the icon name `..\x.png`, which does not stay below, gives a path that is not
below `C:\toast\img\`. -/
theorem C3_icon_below_img_witness :
    getParamFromRequest (requestOf [str "hello"] [] [str "a/../icons\\custom.png"])
      (str "msg") ≠ [] ∧
    startsAtRoot .windows (str "C:\\toast") = true ∧
    startsAtRoot .windows (str "\\\\host\\share\\toast") = true ∧
    staysBelow .windows (str "a/../icons\\custom.png") = true ∧
    (descriptor .windows (requestOf [str "hello"] [] [str "a/../icons\\custom.png"]) sampleConfig
        (str "C:\\toast")).Icon = str "C:\\toast\\img\\icons\\custom.png" ∧
    (filepath.Join .windows [str "C:\\toast", str "img"] ++ [Separator .windows]) <+:
      (descriptor .windows (requestOf [str "hello"] [] [str "a/../icons\\custom.png"]) sampleConfig
        (str "C:\\toast")).Icon ∧
    (descriptor .windows (requestOf [str "hello"] [] [str "a/../icons\\custom.png"]) sampleConfig
        (str "\\\\host\\share\\toast")).Icon =
      str "\\\\host\\share\\toast\\img\\icons\\custom.png" ∧
    (filepath.Join .windows [str "\\\\host\\share\\toast", str "img"] ++ [Separator .windows]) <+:
      (descriptor .windows (requestOf [str "hello"] [] [str "a/../icons\\custom.png"]) sampleConfig
        (str "\\\\host\\share\\toast")).Icon ∧
    staysBelow .windows (str "..\\x.png") = false ∧
    ¬ (filepath.Join .windows [str "C:\\toast", str "img"] ++ [Separator .windows]) <+:
      (descriptor .windows (requestOf [str "hello"] [] [str "..\\x.png"]) sampleConfig
        (str "C:\\toast")).Icon :=
  ⟨by decide, by decide, by decide, by decide, by decide,
    (C3_icon_below_img .windows pushOk
      (requestOf [str "hello"] [] [str "a/../icons\\custom.png"]) sampleConfig
      (str "C:\\toast") (by decide) (by decide)).2.1 (by decide) _ (by decide),
    by decide,
    (C3_icon_below_img .windows pushOk
      (requestOf [str "hello"] [] [str "a/../icons\\custom.png"]) sampleConfig
      (str "\\\\host\\share\\toast") (by decide) (by decide)).2.1 (by decide) _ (by decide),
    by decide,
    (C3_icon_below_img .windows pushOk
      (requestOf [str "hello"] [] [str "..\\x.png"]) sampleConfig
      (str "C:\\toast") (by decide) (by decide)).2.2 (by decide) (by decide)
      (fun _ => by decide) _ (by decide)⟩

/-- C3, as stated, fails.  On `windows`, with base directory `C:\toast`, the
icon name `..\..\Windows\x.png` gives the icon path `C:\Windows\x.png`, which
is not below `C:\toast\img\`; and the empty icon name of a configuration
without icon gives `C:\toast\img`, the directory and nothing below it.  The
same happens on `unix` with `../../etc/passwd` below `/opt/toast`. -/
theorem C3_icon_escapes_img :
    (handle .windows pushOk ResponseWriter.fresh
        (requestOf [str "hello"] [] [str "..\\..\\Windows\\x.png"])
        sampleConfig (str "C:\\toast")).pushed.map (fun n => n.Icon) =
          [str "C:\\Windows\\x.png"] ∧
      ¬ (str "C:\\toast\\img\\" <+: str "C:\\Windows\\x.png") ∧
      (handle .windows pushOk ResponseWriter.fresh (requestOf [str "hello"] [] [])
        { sampleConfig with Icon := [] } (str "C:\\toast")).pushed.map (fun n => n.Icon) =
          [str "C:\\toast\\img"] ∧
      ¬ (str "C:\\toast\\img\\" <+: str "C:\\toast\\img") ∧
      (handle .unix pushOk ResponseWriter.fresh (requestOf [str "hello"] [] [str "../../etc/passwd"])
        sampleConfig (str "/opt/toast")).pushed.map (fun n => n.Icon) = [str "/opt/etc/passwd"] ∧
      ¬ (str "/opt/toast/img/" <+: str "/opt/etc/passwd") ∧
      (handle .unix pushOk ResponseWriter.fresh (requestOf [str "hello"] [] [])
        { sampleConfig with Icon := [] } (str "/opt/toast")).pushed.map (fun n => n.Icon) =
          [str "/opt/toast/img"] ∧
      ¬ (str "/opt/toast/img/" <+: str "/opt/toast/img") := by
  decide

theorem ReplaceAll_no_placeholder (t new : List Char) (hno : ¬ placeholder <:+: t) :
    strings.ReplaceAll t placeholder new = t := by
  have := ReplaceAll_intercalate new [t] (by simpa using hno)
  simpa [List.intercalate] using this

/-- C4: the title submitted is `cfg.Title` with every `{msg}` replaced by the
message as received.  Cut the template at its placeholders into pieces that
contain none (every template can be cut so): the title is the pieces joined by
the message, whatever the message contains; a template without a placeholder
is submitted unchanged.  This holds on every platform. -/
theorem C4_title_substitution (goos : GOOS) (push : Pusher) (r : Request) (cfg : Config) (baseDir : List Char)
    (hmsg : getParamFromRequest r (str "msg") ≠ []) :
    (handle goos push ResponseWriter.fresh r cfg baseDir).pushed.map (fun n => n.Title) =
        [strings.ReplaceAll cfg.Title (str "{msg}") (getParamFromRequest r (str "msg"))] ∧
      (∀ ts : List (List Char), (∀ x ∈ ts, ¬ str "{msg}" <:+: x) →
        cfg.Title = (str "{msg}").intercalate ts →
        (handle goos push ResponseWriter.fresh r cfg baseDir).pushed.map (fun n => n.Title) =
          [(getParamFromRequest r (str "msg")).intercalate ts]) ∧
      (∃ ts : List (List Char), (∀ x ∈ ts, ¬ str "{msg}" <:+: x) ∧
        cfg.Title = (str "{msg}").intercalate ts) ∧
      (¬ str "{msg}" <:+: cfg.Title →
        (handle goos push ResponseWriter.fresh r cfg baseDir).pushed.map (fun n => n.Title) =
          [cfg.Title]) := by
  rw [handle_pushed goos push _ r cfg baseDir hmsg]
  have hT : (List.map (fun n => n.Title) [descriptor goos r cfg baseDir]) =
      [strings.ReplaceAll cfg.Title placeholder (getParamFromRequest r (str "msg"))] := rfl
  rw [hT, placeholder_eq]
  refine ⟨rfl, ?_, ?_, ?_⟩
  · intro ts hts hT
    rw [hT, ReplaceAll_intercalate _ ts hts]
  · obtain ⟨ts, _, h1, h2⟩ := exists_pieces cfg.Title.length cfg.Title (Nat.le_refl _)
    exact ⟨ts, h1, h2.symm⟩
  · intro hno
    rw [ReplaceAll_no_placeholder _ _ hno]

/-- C4, witness: template `Alert: {msg}` with message `disk full`, and with a
message that itself contains the placeholder. -/
theorem C4_title_substitution_witness :
    getParamFromRequest (requestOf [str "disk full"] [] []) (str "msg") ≠ [] ∧
    getParamFromRequest (requestOf [str "50% {msg} $1"] [] []) (str "msg") ≠ [] ∧
    (handle .windows pushOk ResponseWriter.fresh (requestOf [str "disk full"] [] []) sampleConfig
        (str "C:\\toast")).pushed.map (fun n => n.Title) = [str "Alert: disk full"] ∧
    (handle .windows pushOk ResponseWriter.fresh (requestOf [str "50% {msg} $1"] [] []) sampleConfig
        (str "C:\\toast")).pushed.map (fun n => n.Title) = [str "Alert: 50% {msg} $1"] :=
  ⟨by decide, by decide,
    (C4_title_substitution .windows pushOk (requestOf [str "disk full"] [] []) sampleConfig
      (str "C:\\toast") (by decide)).2.1 [str "Alert: ", []] (by decide) (by decide),
    (C4_title_substitution .windows pushOk (requestOf [str "50% {msg} $1"] [] []) sampleConfig
      (str "C:\\toast") (by decide)).2.1 [str "Alert: ", []] (by decide) (by decide)⟩

/-- C5: for a request with a message exactly one descriptor is submitted: its
sender is `cfg.AppID`, its title the substituted title, its body the
subtitle in force, its icon the resolved icon path, and its only action has
type `protocol`, label `cfg.Btn` and argument `cfg.URL`; sender and action
are the same for every other request with a message.  This holds on every
platform. -/
theorem C5_descriptor (goos : GOOS) (push : Pusher) (r r2 : Request) (cfg : Config) (baseDir : List Char)
    (hmsg : getParamFromRequest r (str "msg") ≠ [])
    (hmsg2 : getParamFromRequest r2 (str "msg") ≠ []) :
    (handle goos push ResponseWriter.fresh r cfg baseDir).pushed =
        [{ AppID := cfg.AppID
           Title := strings.ReplaceAll cfg.Title (str "{msg}") (getParamFromRequest r (str "msg"))
           Message :=
             if getParamFromRequest r (str "sub") = [] then cfg.Sub
             else getParamFromRequest r (str "sub")
           Icon := filepath.Join goos [baseDir, str "img",
             if getParamFromRequest r (str "icon") = [] then cfg.Icon
             else getParamFromRequest r (str "icon")]
           Actions := [{ Type_ := str "protocol", Label := cfg.Btn, Arguments := cfg.URL }] }] ∧
      (handle goos push ResponseWriter.fresh r2 cfg baseDir).pushed.map (fun n => (n.AppID, n.Actions)) =
        (handle goos push ResponseWriter.fresh r cfg baseDir).pushed.map (fun n => (n.AppID, n.Actions)) := by
  rw [handle_pushed goos push _ r cfg baseDir hmsg, handle_pushed goos push _ r2 cfg baseDir hmsg2]
  refine ⟨?_, rfl⟩
  simp only [descriptor]
  split_ifs <;> rfl

/-- C5, witness: two requests that differ in every parameter. -/
theorem C5_descriptor_witness :
    getParamFromRequest (requestOf [str "hello"] [str "world"] [str "custom.png"]) (str "msg") ≠ [] ∧
    getParamFromRequest (requestOf [str "disk full"] [] []) (str "msg") ≠ [] ∧
    (handle .windows pushOk ResponseWriter.fresh (requestOf [str "disk full"] [] []) sampleConfig
        (str "C:\\toast")).pushed.map (fun n => (n.AppID, n.Actions)) =
      (handle .windows pushOk ResponseWriter.fresh
        (requestOf [str "hello"] [str "world"] [str "custom.png"]) sampleConfig
        (str "C:\\toast")).pushed.map (fun n => (n.AppID, n.Actions)) :=
  ⟨by decide, by decide,
    (C5_descriptor .windows pushOk (requestOf [str "hello"] [str "world"] [str "custom.png"])
      (requestOf [str "disk full"] [] []) sampleConfig (str "C:\\toast")
      (by decide) (by decide)).2⟩

/-- C6: when the submission of a request with a message returns the error
`e`, the descriptor was submitted once, the status is 500, and the body is
the line `toast error: ` followed by `e`: it contains `e`, and the success
line is not written.  This holds on every platform. -/
theorem C6_submission_failure (goos : GOOS) (push : Pusher) (r : Request) (cfg : Config) (baseDir e : List Char)
    (hmsg : getParamFromRequest r (str "msg") ≠ [])
    (hfail : (handle goos push ResponseWriter.fresh r cfg baseDir).pushed.map push = [some e]) :
    (handle goos push ResponseWriter.fresh r cfg baseDir).pushed.length = 1 ∧
      (handle goos push ResponseWriter.fresh r cfg baseDir).w.status = some 500 ∧
      e <:+: (handle goos push ResponseWriter.fresh r cfg baseDir).w.body ∧
      (handle goos push ResponseWriter.fresh r cfg baseDir).w.body =
        str "toast error: " ++ e ++ str "\n" ∧
      (handle goos push ResponseWriter.fresh r cfg baseDir).w.body ≠
        str "OK: " ++ getParamFromRequest r (str "msg") ++ str "\n" := by
  have hp := handle_pushed goos push ResponseWriter.fresh r cfg baseDir hmsg
  have he : push (descriptor goos r cfg baseDir) = some e := by
    rw [hp] at hfail
    simpa using hfail
  have hb : (handle goos push ResponseWriter.fresh r cfg baseDir).w.body =
      str "toast error: " ++ e ++ str "\n" := by
    rw [handle_msg goos push _ r cfg baseDir hmsg, he]
    simp [http.Error, fmt.Fprintln, ResponseWriter.Write, ResponseWriter.WriteHeader,
      ResponseWriter.fresh]
  refine ⟨by rw [hp]; rfl, ?_, ?_, hb, ?_⟩
  · rw [handle_msg goos push _ r cfg baseDir hmsg, he]
    simp [http.Error, fmt.Fprintln, ResponseWriter.Write, ResponseWriter.WriteHeader,
      ResponseWriter.fresh, ResponseWriter.status]
  · rw [hb]
    exact ⟨str "toast error: ", str "\n", rfl⟩
  · rw [hb]
    intro h
    have := congrArg List.head? h
    simp at this

/-- C6, witness: the notification subsystem answers `boom`. -/
theorem C6_submission_failure_witness :
    getParamFromRequest (requestOf [str "hello"] [] []) (str "msg") ≠ [] ∧
    (handle .windows (pushFail (str "boom")) ResponseWriter.fresh (requestOf [str "hello"] [] [])
        sampleConfig (str "C:\\toast")).pushed.map (pushFail (str "boom")) = [some (str "boom")] ∧
    (handle .windows (pushFail (str "boom")) ResponseWriter.fresh (requestOf [str "hello"] [] [])
        sampleConfig (str "C:\\toast")).w.status = some 500 ∧
    (handle .windows (pushFail (str "boom")) ResponseWriter.fresh (requestOf [str "hello"] [] [])
        sampleConfig (str "C:\\toast")).w.body = str "toast error: boom\n" :=
  ⟨by decide, by decide,
    (C6_submission_failure .windows (pushFail (str "boom")) (requestOf [str "hello"] [] []) sampleConfig
      (str "C:\\toast") (str "boom") (by decide) (by decide)).2.1,
    (C6_submission_failure .windows (pushFail (str "boom")) (requestOf [str "hello"] [] []) sampleConfig
      (str "C:\\toast") (str "boom") (by decide) (by decide)).2.2.2.1⟩

/-- C7 (as amended): when the submission of a request with a message
succeeds, the status is 200, the `Content-Type` sent is
`text/plain; charset=utf-8`, and the body is `OK: `, the message exactly as
received, and a newline, whatever the platform, `sub`, `icon` and the
configuration are. -/
theorem C7_submission_success (goos : GOOS) (push : Pusher) (r : Request) (cfg : Config) (baseDir : List Char)
    (hmsg : getParamFromRequest r (str "msg") ≠ [])
    (hok : (handle goos push ResponseWriter.fresh r cfg baseDir).pushed.map push = [none]) :
    (handle goos push ResponseWriter.fresh r cfg baseDir).w.status = some 200 ∧
      (handle goos push ResponseWriter.fresh r cfg baseDir).w.sent (str "Content-Type") =
        str "text/plain; charset=utf-8" ∧
      (handle goos push ResponseWriter.fresh r cfg baseDir).w.body =
        str "OK: " ++ r.query.Get (str "msg") ++ str "\n" := by
  have hp := handle_pushed goos push ResponseWriter.fresh r cfg baseDir hmsg
  have he : push (descriptor goos r cfg baseDir) = none := by
    rw [hp] at hok
    simpa using hok
  rw [handle_msg goos push _ r cfg baseDir hmsg, he, getParam_eq]
  refine ⟨?_, ?_, ?_⟩
  · simp [ResponseWriter.Write, ResponseWriter.WriteHeader, ResponseWriter.fresh,
      ResponseWriter.status]
  · simp only [ResponseWriter.Write, ResponseWriter.WriteHeader, ResponseWriter.fresh,
      ResponseWriter.sent]
    decide
  · simp [ResponseWriter.Write, ResponseWriter.WriteHeader, ResponseWriter.fresh]

/-- C7, witness: `msg=hello&sub=world&icon=custom.png`, accepted. -/
theorem C7_submission_success_witness :
    getParamFromRequest (requestOf [str "hello"] [str "world"] [str "custom.png"]) (str "msg") ≠ [] ∧
    (handle .windows pushOk ResponseWriter.fresh
        (requestOf [str "hello"] [str "world"] [str "custom.png"]) sampleConfig
        (str "C:\\toast")).pushed.map pushOk = [none] ∧
    (handle .windows pushOk ResponseWriter.fresh
        (requestOf [str "hello"] [str "world"] [str "custom.png"]) sampleConfig
        (str "C:\\toast")).w.body = str "OK: hello\n" :=
  ⟨by decide, by decide,
    (C7_submission_success .windows pushOk (requestOf [str "hello"] [str "world"] [str "custom.png"])
      sampleConfig (str "C:\\toast") (by decide) (by decide)).2.2⟩

/-- C7, as stated, fails: the body of the answer to `msg=hello` is not `OK: `
followed by the message; a newline follows the message. -/
theorem C7_body_is_not_bare_text :
    ¬ ((handle .windows pushOk ResponseWriter.fresh (requestOf [str "hello"] [] []) sampleConfig
          (str "C:\\toast")).w.status = some 200 ∧
        (handle .windows pushOk ResponseWriter.fresh (requestOf [str "hello"] [] []) sampleConfig
          (str "C:\\toast")).w.body = str "OK: " ++ str "hello") := by
  decide

/-! ## Configuration -/

theorem loadConfig_missing (goos : GOOS) (exe : List Char) (readFile : List Char → Option (List Char))
    (h : readFile (configPathOf goos exe) = none) :
    loadConfig goos (.ok exe) readFile =
      ⟨fallbackConfig,
        [⟨configPathOf goos exe, json.MarshalIndent fallbackConfig [] (str "  "), 0o644⟩]⟩ := by
  unfold loadConfig
  simp only [configPathOf] at h
  simp only [h]
  rfl

theorem loadConfig_found (goos : GOOS) (exe data : List Char) (readFile : List Char → Option (List Char))
    (h : readFile (configPathOf goos exe) = some data) :
    loadConfig goos (.ok exe) readFile = ⟨(json.Unmarshal data fallbackConfig).1, []⟩ := by
  unfold loadConfig
  simp only [configPathOf] at h
  simp only [h]
  rfl

set_option maxRecDepth 100000 in
theorem fallback_document_decodes :
    json.Unmarshal (json.MarshalIndent fallbackConfig [] (str "  ")) zeroConfig =
        (fallbackConfig, none) ∧
      json.Unmarshal (json.MarshalIndent fallbackConfig [] (str "  ")) fallbackConfig =
        (fallbackConfig, none) := by
  decide

theorem afterWrites_single (readFile : List Char → Option (List Char)) (wr : WriteFile) :
    afterWrites readFile [wr] wr.name = some wr.data := by
  simp [afterWrites]

/-- C8: when config.json cannot be read, `loadConfig` returns the built-in
defaults and asks for one file to be written, at the config path: a JSON
document that decodes, into an empty `Config`, to exactly the configuration
returned; and `loadConfig` run again on the file system with that file in
place returns the same configuration and writes nothing.  This holds on every
platform. -/
theorem C8_bootstrap_round_trip (goos : GOOS) (exe : List Char) (readFile : List Char → Option (List Char))
    (hread : readFile (filepath.Join goos [filepath.Dir goos exe, str "config.json"]) = none) :
    (loadConfig goos (.ok exe) readFile).cfg =
        { Port := str "8080", AppID := str "WebToast", Title := str "{msg}", Sub := str "",
          Btn := str "", URL := str "https://orthexgroup.com/404", Icon := str "" } ∧
      (loadConfig goos (.ok exe) readFile).writes.map (fun wr => wr.name) =
        [filepath.Join goos [filepath.Dir goos exe, str "config.json"]] ∧
      (loadConfig goos (.ok exe) readFile).writes.map (fun wr => json.Unmarshal wr.data zeroConfig) =
        [((loadConfig goos (.ok exe) readFile).cfg, none)] ∧
      loadConfig goos (.ok exe) (afterWrites readFile (loadConfig goos (.ok exe) readFile).writes) =
        ⟨(loadConfig goos (.ok exe) readFile).cfg, []⟩ := by
  rw [loadConfig_missing goos exe readFile hread]
  refine ⟨rfl, rfl, ?_, ?_⟩
  · simp only [List.map_cons, List.map_nil]
    rw [fallback_document_decodes.1]
  · rw [loadConfig_found goos exe _ _ (afterWrites_single readFile
      ⟨configPathOf goos exe, json.MarshalIndent fallbackConfig [] (str "  "), 0o644⟩)]
    rw [fallback_document_decodes.2]

set_option maxRecDepth 100000 in
/-- C8, witness: on `windows` the executable `C:\toast\http-toast.exe` in a
directory without config.json; the file asked for is `C:\toast\config.json`. -/
theorem C8_bootstrap_round_trip_witness :
    (fun _ => none : List Char → Option (List Char))
        (filepath.Join .windows
          [filepath.Dir .windows (str "C:\\toast\\http-toast.exe"), str "config.json"]) = none ∧
    (loadConfig .windows (.ok (str "C:\\toast\\http-toast.exe")) (fun _ => none)).writes.map
        (fun wr => wr.name) =
      [str "C:\\toast\\config.json"] ∧
    loadConfig .windows (.ok (str "C:\\toast\\http-toast.exe"))
        (afterWrites (fun _ => none)
          (loadConfig .windows (.ok (str "C:\\toast\\http-toast.exe")) (fun _ => none)).writes) =
      ⟨(loadConfig .windows (.ok (str "C:\\toast\\http-toast.exe")) (fun _ => none)).cfg, []⟩ :=
  ⟨rfl,
    (C8_bootstrap_round_trip .windows (str "C:\\toast\\http-toast.exe") (fun _ => none) rfl).2.1.trans
      (by decide),
    (C8_bootstrap_round_trip .windows (str "C:\\toast\\http-toast.exe") (fun _ => none) rfl).2.2.2⟩

theorem get_set (cfg : Config) (f g : Field) (v : List Char) :
    (cfg.set g v).get f = if g = f then v else cfg.get f := by
  cases f <;> cases g <;> rfl

theorem storeMember_get (st : Config × Option UnmarshalError) (m : List Char × Item) (f : Field) :
    (storeMember st m).1.get f = (storedText f m).getD (st.1.get f) := by
  unfold storeMember storedText
  cases hk : findField m.1 with
  | none => simp
  | some g =>
    cases hv : m.2 with
    | string s =>
      simp only [get_set, Option.some.injEq]
      split_ifs <;> rfl
    | null => simp only []; split_ifs <;> rfl
    | bool => simp only []; split_ifs <;> rfl
    | number => simp only []; split_ifs <;> rfl
    | array => simp only []; split_ifs <;> rfl
    | object => simp only []; split_ifs <;> rfl

/-- Decoding the members of an object leaves in each field the text of the
last member that stores one in it, or the value the field had. -/
theorem foldl_storeMember_get (members : List (List Char × Item)) (f : Field) :
    ∀ st : Config × Option UnmarshalError,
      (members.foldl storeMember st).1.get f =
        ((members.filterMap (storedText f)).getLast?).getD (st.1.get f) := by
  induction members using List.reverseRecOn with
  | nil => intro st; rfl
  | append_singleton ms m ih =>
    intro st
    rw [List.foldl_append, List.foldl_cons, List.foldl_nil, storeMember_get, ih,
      List.filterMap_append]
    cases h : storedText f m with
    | none => simp [List.filterMap_cons, h]
    | some s => simp [List.filterMap_cons, h]

/-- A character folds to the same character as a lower-case letter exactly
when it matches that letter with case ignored. -/
theorem foldRune_eq_iff (k c : Char) (hc : 'a' ≤ c ∧ c ≤ 'z') :
    foldRune k = foldRune c ↔ keyCharMatches k c = true := by
  rw [lower_iff] at hc
  have hC : foldRune c = Char.ofNat (c.toNat - 32) := by
    unfold foldRune
    rw [if_pos ((lower_iff c).mpr hc)]
  have hU := toUpper_lower c hc
  have hCn : (Char.ofNat (c.toNat - 32)).toNat = c.toNat - 32 :=
    toNat_ofNat_small _ (by omega)
  have h17 : (Char.ofNat 0x17F).toNat = 0x17F := rfl
  have h21 : (Char.ofNat 0x212A).toNat = 0x212A := rfl
  have hs : ('s' : Char).toNat = 115 := rfl
  have hk : ('k' : Char).toNat = 107 := rfl
  have hS : ('S' : Char).toNat = 83 := rfl
  have hK : ('K' : Char).toNat = 75 := rfl
  unfold keyCharMatches
  rw [hC, hU]
  simp only [Bool.or_eq_true, Bool.and_eq_true, beq_iff_eq]
  unfold foldRune
  by_cases h1 : 'a' ≤ k ∧ k ≤ 'z'
  · rw [if_pos h1]
    rw [lower_iff] at h1
    have hkn : (Char.ofNat (k.toNat - 32)).toNat = k.toNat - 32 :=
      toNat_ofNat_small _ (by omega)
    simp only [toNat_inj, hCn, hkn, h17, h21, hs, hk]
    omega
  · rw [if_neg h1]
    rw [lower_iff] at h1
    by_cases h2 : k = Char.ofNat 0x17F
    · rw [if_pos h2]
      simp only [toNat_inj, hCn, h17, h21, hs, hk, hS, hK] at h2 ⊢
      omega
    · rw [if_neg h2]
      by_cases h3 : k = Char.ofNat 0x212A
      · rw [if_pos h3]
        simp only [toNat_inj, hCn, h17, h21, hs, hk, hS, hK] at h3 ⊢
        omega
      · rw [if_neg h3]
        simp only [toNat_inj, hCn, h17, h21, hs, hk, hS, hK] at h2 h3 ⊢
        omega

theorem foldName_eq_iff (name : List Char) (hname : ∀ c ∈ name, 'a' ≤ c ∧ c ≤ 'z') :
    ∀ key : List Char, foldName key = foldName name ↔ keyMatches key name = true := by
  induction name with
  | nil =>
    intro key
    cases key <;> simp [foldName, keyMatches]
  | cons c cs ih =>
    intro key
    cases key with
    | nil => simp [foldName, keyMatches]
    | cons k ks =>
      have h1 := foldRune_eq_iff k c (hname c (List.mem_cons_self _ _))
      have h2 := ih (fun x hx => hname x (List.mem_cons_of_mem _ hx)) ks
      simp only [foldName, List.map_cons, List.cons.injEq, keyMatches, Bool.and_eq_true] at h2 ⊢
      rw [h1, h2]

theorem name_lower (f : Field) : ∀ c ∈ f.name, 'a' ≤ c ∧ c ≤ 'z' := by
  cases f <;> decide

theorem foldName_name_inj (f g : Field) (h : foldName f.name = foldName g.name) : f = g := by
  cases f <;> cases g <;> first | rfl | exact absurd h (by decide)

/-- A key selects the field whose name it is when letter case is ignored. -/
theorem findField_iff (key : List Char) (f : Field) :
    findField key = some f ↔ keyMatches key f.name = true := by
  rw [← foldName_eq_iff f.name (name_lower f) key]
  unfold findField
  constructor
  · intro h
    cases h1 : Field.all.find? (fun g => g.name = key) with
    | some g =>
      rw [h1] at h
      have hg := List.find?_some h1
      simp only [decide_eq_true_eq] at hg
      cases h
      rw [hg]
    | none =>
      rw [h1] at h
      have hg := List.find?_some h
      simp only [decide_eq_true_eq] at hg
      exact hg.symm
  · intro h
    cases h1 : Field.all.find? (fun g => g.name = key) with
    | some g =>
      have hg := List.find?_some h1
      simp only [decide_eq_true_eq] at hg
      have : g = f := foldName_name_inj g f (by rw [hg, h])
      rw [this]
    | none =>
      simp only []
      cases h2 : Field.all.find? (fun g => foldName g.name = foldName key) with
      | some g =>
        have hg := List.find?_some h2
        simp only [decide_eq_true_eq] at hg
        have : g = f := foldName_name_inj g f (by rw [hg, h])
        rw [this]
      | none =>
        rw [List.find?_eq_none] at h2
        have := h2 f (by cases f <;> decide)
        simp only [decide_eq_true_eq] at this
        exact absurd h.symm this

/-- C9 (as amended): for a config.json that is read, on every platform,
`loadConfig` writes nothing and returns the built-in defaults overlaid with
what the file decodes to.  A file that is not valid JSON, or whose value is
not an object, gives the defaults.  For an object, each field holds the text
of the last member that selects it with a string value and its default when
there is none: so a field that no member selects, or only with values that
are not strings, keeps its default, and a field selected by a member with a
string value that no later such member follows takes that string.  A key
selects a field exactly when it is the name of the field with letter case
ignored (`PORT` and `Port` select `port`); in particular the name itself
does. -/
theorem C9_overlay_on_defaults (goos : GOOS) (exe data : List Char)
    (readFile : List Char → Option (List Char))
    (hread : readFile (filepath.Join goos [filepath.Dir goos exe, str "config.json"]) =
      some data) :
    (loadConfig goos (.ok exe) readFile).writes = [] ∧
      (readDoc data = none → (loadConfig goos (.ok exe) readFile).cfg = fallbackConfig) ∧
      (∀ kind, readDoc data = some (.other kind) →
        (loadConfig goos (.ok exe) readFile).cfg = fallbackConfig) ∧
      (∀ members, readDoc data = some (.object members) → ∀ f : Field,
        (loadConfig goos (.ok exe) readFile).cfg.get f =
            ((members.filterMap (storedText f)).getLast?).getD (fallbackConfig.get f) ∧
          ((∀ m ∈ members, findField m.1 = some f → ∀ s, m.2 ≠ .string s) →
            (loadConfig goos (.ok exe) readFile).cfg.get f = fallbackConfig.get f) ∧
          (∀ before after key s, members = before ++ (key, Item.string s) :: after →
            findField key = some f →
            (∀ m ∈ after, findField m.1 = some f → ∀ s2, m.2 ≠ .string s2) →
            (loadConfig goos (.ok exe) readFile).cfg.get f = s)) ∧
      (∀ key f, findField key = some f ↔ keyMatches key f.name = true) ∧
      (∀ f : Field, findField f.name = some f) := by
  rw [loadConfig_found goos exe data readFile hread]
  refine ⟨rfl, ?_, ?_, ?_, findField_iff, ?_⟩
  · intro h
    simp [json.Unmarshal, h]
  · intro kind h
    simp only [json.Unmarshal, h]
    cases kind <;> rfl
  · intro members h f
    have hget : (json.Unmarshal data fallbackConfig).1.get f =
        ((members.filterMap (storedText f)).getLast?).getD (fallbackConfig.get f) := by
      simp only [json.Unmarshal, h]
      exact foldl_storeMember_get members f (fallbackConfig, none)
    have hnone : ∀ l : List (List Char × Item),
        (∀ m ∈ l, findField m.1 = some f → ∀ s, m.2 ≠ .string s) →
        l.filterMap (storedText f) = [] := by
      intro l hl
      rw [List.filterMap_eq_nil_iff]
      intro m hm
      unfold storedText
      split_ifs with hk
      · cases hv : m.2 with
        | string s => exact absurd hv (hl m hm hk s)
        | null => rfl
        | bool => rfl
        | number => rfl
        | array => rfl
        | object => rfl
      · rfl
    refine ⟨hget, ?_, ?_⟩
    · intro hall
      rw [hget, hnone members hall]
      rfl
    · intro before after key s hm hk hafter
      rw [hget, hm, List.filterMap_append, List.filterMap_cons, hnone after hafter]
      simp [storedText, hk]
  · intro f
    cases f <;> decide

/-- C9, witness: in `sampleFile`, read on `windows` beside
`C:\toast\http-toast.exe`, the port is taken from the member with the key
`Port` and the title, given as a number, keeps its default. -/
theorem C9_overlay_on_defaults_witness :
    (fun _ => some sampleFile : List Char → Option (List Char))
      (filepath.Join .windows
        [filepath.Dir .windows (str "C:\\toast\\http-toast.exe"), str "config.json"]) =
      some sampleFile ∧
    readDoc sampleFile =
      some (.object [(str "Port", .string (str "9090")), (str "title", .number),
        (str "other", .array)]) ∧
    (loadConfig .windows (.ok (str "C:\\toast\\http-toast.exe"))
      (fun _ => some sampleFile)).cfg.get .Port = str "9090" ∧
    (loadConfig .windows (.ok (str "C:\\toast\\http-toast.exe"))
      (fun _ => some sampleFile)).cfg.get .Title = str "{msg}" :=
  ⟨rfl, by decide,
    ((C9_overlay_on_defaults .windows (str "C:\\toast\\http-toast.exe") sampleFile
        (fun _ => some sampleFile) rfl).2.2.2.1
      [(str "Port", .string (str "9090")), (str "title", .number), (str "other", .array)]
      (by decide) .Port).2.2 [] [(str "title", .number), (str "other", .array)] (str "Port")
        (str "9090") rfl (by decide)
        (by
          intro m hm hk s
          simp only [List.mem_cons, List.mem_singleton, List.not_mem_nil, or_false] at hm
          rcases hm with rfl | rfl <;> simp),
    ((C9_overlay_on_defaults .windows (str "C:\\toast\\http-toast.exe") sampleFile
        (fun _ => some sampleFile) rfl).2.2.2.1
      [(str "Port", .string (str "9090")), (str "title", .number), (str "other", .array)]
      (by decide) .Title).2.1
        (by
          intro m hm hk s
          simp only [List.mem_cons, List.mem_singleton, List.not_mem_nil, or_false] at hm
          rcases hm with rfl | rfl | rfl
          · exact absurd hk (by decide)
          · simp
          · simp)⟩

set_option maxRecDepth 100000 in
/-- C9, as stated, fails.  In `upperCaseFile` no member has the key `port`, so
`port` is absent from the file, yet the port returned is `1` and not the
default `8080`: the key `PORT` selects the field.  In `repeatedFile` the last
value given for `port` is a number, not a string, yet the port returned is
`9090` and not the default: the string of the earlier member stays. -/
theorem C9_port_is_not_the_default :
    readDoc upperCaseFile = some (.object [(str "PORT", .string (str "1"))]) ∧
      str "port" ∉ [str "PORT"] ∧
      (loadConfig .windows (.ok (str "C:\\toast\\http-toast.exe"))
        (fun _ => some upperCaseFile)).cfg.Port = str "1" ∧
      (loadConfig .windows (.ok (str "C:\\toast\\http-toast.exe"))
        (fun _ => some upperCaseFile)).cfg.Port ≠ fallbackConfig.Port ∧
      readDoc repeatedFile =
        some (.object [(str "port", .string (str "9090")), (str "port", .number)]) ∧
      (loadConfig .windows (.ok (str "C:\\toast\\http-toast.exe"))
        (fun _ => some repeatedFile)).cfg.Port = str "9090" ∧
      (loadConfig .windows (.ok (str "C:\\toast\\http-toast.exe"))
        (fun _ => some repeatedFile)).cfg.Port ≠ fallbackConfig.Port := by
  decide

/-- C10: under the configuration `loadConfig` returns when there is no
config.json, a request with a message and without `icon` is submitted with an
action whose label is empty, and, on `unix` for every base directory and on
`windows` for a base directory that starts at the root of a volume, with the
join of the base directory and `img` as icon path, the directory itself and
nothing below it.  For a clean base directory that starts at a root and is
not the root itself (and, on `windows`, does not end in a colon) this is the
base directory followed by a separator and `img`. -/
theorem C10_default_icon_is_img_directory (goos : GOOS)
    (executable : Except (List Char) (List Char))
    (push : Pusher) (r : Request) (baseDir : List Char)
    (hmsg : getParamFromRequest r (str "msg") ≠ [])
    (hicon : getParamFromRequest r (str "icon") = []) :
    (loadConfig goos executable (fun _ => none)).cfg.Icon = [] ∧
      (handle goos push ResponseWriter.fresh r (loadConfig goos executable (fun _ => none)).cfg
          baseDir).pushed.map (fun n => n.Actions.map (fun a => a.Label)) = [[[]]] ∧
      (goos = .unix ∨ startsAtRoot goos baseDir = true →
        (handle goos push ResponseWriter.fresh r (loadConfig goos executable (fun _ => none)).cfg
            baseDir).pushed.map (fun n => (n.Icon, n.Actions.map (fun a => a.Label))) =
          [(filepath.Join goos [baseDir, str "img"], [[]])] ∧
        (∀ n ∈ (handle goos push ResponseWriter.fresh r
            (loadConfig goos executable (fun _ => none)).cfg baseDir).pushed,
          ¬ (filepath.Join goos [baseDir, str "img"] ++ [Separator goos]) <+: n.Icon)) ∧
      (startsAtRoot goos baseDir = true → filepath.Clean goos baseDir = baseDir →
        baseDir ≠ filepath.VolumeName goos baseDir ++ [Separator goos] →
        (goos = .windows → baseDir.getLast? ≠ some ':') →
        (handle goos push ResponseWriter.fresh r (loadConfig goos executable (fun _ => none)).cfg
          baseDir).pushed.map (fun n => n.Icon) = [baseDir ++ Separator goos :: str "img"]) := by
  have hcfg : (loadConfig goos executable (fun _ => none)).cfg = fallbackConfig := by
    cases executable with
    | error e => rfl
    | ok exe => rw [loadConfig_missing goos exe _ rfl]
  rw [hcfg, handle_pushed goos push _ r _ baseDir hmsg]
  have hI0 : (descriptor goos r fallbackConfig baseDir).Icon =
      filepath.Join goos [baseDir, str "img", []] := by
    simp only [descriptor, hicon, if_true]
    rfl
  have hI : goos = .unix ∨ startsAtRoot goos baseDir = true →
      (descriptor goos r fallbackConfig baseDir).Icon = filepath.Join goos [baseDir, str "img"] := by
    intro h
    rw [hI0]
    rcases h with h | h
    · subst h
      exact Join_img_empty_unix baseDir
    · exact Join_img_empty_root goos baseDir h
  refine ⟨rfl, rfl, ?_, ?_⟩
  · intro h
    refine ⟨?_, ?_⟩
    · simp only [List.map_cons, List.map_nil, hI h]
      rfl
    · intro n hn
      rw [List.mem_singleton] at hn
      subst hn
      rw [hI h]
      intro hpre
      have := hpre.length_le
      simp at this
  · intro habs hclean hroot hcolon
    simp only [List.map_cons, List.map_nil, hI (Or.inr habs)]
    rw [Join_img_clean goos baseDir habs hclean hroot hcolon]

/-- C10, witness: `msg=hello` served from `C:\toast` and from
`\\host\share\toast` on `windows`, and from `/opt/toast` on `unix`. -/
theorem C10_default_icon_is_img_directory_witness :
    getParamFromRequest (requestOf [str "hello"] [] []) (str "msg") ≠ [] ∧
    getParamFromRequest (requestOf [str "hello"] [] []) (str "icon") = [] ∧
    (handle .windows pushOk ResponseWriter.fresh (requestOf [str "hello"] [] [])
        (loadConfig .windows (.ok (str "C:\\toast\\http-toast.exe")) (fun _ => none)).cfg
        (str "C:\\toast")).pushed.map (fun n => n.Icon) = [str "C:\\toast\\img"] ∧
    (handle .windows pushOk ResponseWriter.fresh (requestOf [str "hello"] [] [])
        (loadConfig .windows (.ok (str "\\\\host\\share\\toast\\http-toast.exe"))
          (fun _ => none)).cfg
        (str "\\\\host\\share\\toast")).pushed.map (fun n => n.Icon) =
      [str "\\\\host\\share\\toast\\img"] ∧
    (handle .unix pushOk ResponseWriter.fresh (requestOf [str "hello"] [] [])
        (loadConfig .unix (.ok (str "/opt/toast/http-toast")) (fun _ => none)).cfg
        (str "/opt/toast")).pushed.map (fun n => n.Icon) = [str "/opt/toast/img"] :=
  ⟨by decide, by decide,
    (C10_default_icon_is_img_directory .windows (.ok (str "C:\\toast\\http-toast.exe")) pushOk
      (requestOf [str "hello"] [] []) (str "C:\\toast") (by decide) (by decide)).2.2.2
      (by decide) (by decide) (by decide) (fun _ => by decide),
    (C10_default_icon_is_img_directory .windows
      (.ok (str "\\\\host\\share\\toast\\http-toast.exe")) pushOk
      (requestOf [str "hello"] [] []) (str "\\\\host\\share\\toast") (by decide) (by decide)).2.2.2
      (by decide) (by decide) (by decide) (fun _ => by decide),
    (C10_default_icon_is_img_directory .unix (.ok (str "/opt/toast/http-toast")) pushOk
      (requestOf [str "hello"] [] []) (str "/opt/toast") (by decide) (by decide)).2.2.2
      (by decide) (by decide) (by decide) (fun h => absurd h (by decide))⟩

end HttpToast
